import Mathlib

/-!
# OptimizationSeq: interval branch-and-bound minimisation

A shallow embedding of `interval.cpp`, `minimizer.h`, `functions.cpp` and, from
`optimization-mpi.cpp`, of `split_box`, `minimize` and the distribution of the
domain in `main`, followed by theorems about it.

Modelling conventions

* A C++ `double` is a value of `Dbl K`: NaN, the two infinities, or a finite
  value taken from an ordered field `K` (`ℚ` for evaluation, `ℝ` for statements
  about real points).  Comparisons follow IEEE 754: every comparison with NaN
  is false.  Signed zeros are not distinguished.
* Every floating-point operation on finite operands computes the exact result
  in `K` and hands it to `Rounding.rnd` together with the rounding direction
  that `fesetround` selected last.  `Rounding.exact` is exact arithmetic.
  Exponent overflow of finite results is not modelled.
* `std::multiset<minimizer,less_minimizer>` is represented by its in-order
  sequence (a `List`); `lower_bound`, range `erase` and `insert` act on that
  sequence through the comparator only.
* The four sibling calls of `minimize` are run one after the other in the
  order in which the source lists them; a `Nat` bounds the recursion depth.
  `minimize_in_order` is the same function with the order as a parameter.
* For the OpenMP sections, a call of `minimize` on a box that is not split is
  cut into its four accesses to the shared state (`Branch.step`); a schedule
  is a list of thread indices, and `run_pool` runs the accesses in that
  order.  The critical sections are single units; the two tests are not part
  of them.
* Of `main`, the arrays `arrayX`, `arrayY` built by rank 0 and the list of
  boxes on which a rank calls `minimize` are modelled; message passing is
  reduced to what it delivers (broadcast: the whole array, scatter: the
  element of index `rank`).
-/

namespace OptimizationSeq

/-! ## Doubles -/

/-- A C++ `double`: NaN, minus infinity, a finite value, plus infinity. -/
inductive Dbl (K : Type) where
  | nan : Dbl K
  | ninf : Dbl K
  | fin (v : K) : Dbl K
  | pinf : Dbl K
deriving DecidableEq

/-- The rounding directions selectable with `fesetround`. -/
inductive RoundMode where
  | nearest : RoundMode
  | downward : RoundMode
  | upward : RoundMode
deriving DecidableEq

/-- How an exact finite result is rounded under each rounding direction. -/
structure Rounding (K : Type) where
  rnd : RoundMode → K → K

/-- Exact arithmetic: no rounding error in any direction. -/
def Rounding.exact {K : Type} : Rounding K := ⟨fun _ v => v⟩

namespace Dbl

variable {K : Type} [LinearOrderedField K]

/-- IEEE `a <= b`. -/
def le : Dbl K → Dbl K → Prop
  | nan, _ => False
  | ninf, nan => False
  | ninf, _ => True
  | fin _, nan => False
  | fin _, ninf => False
  | fin a, fin b => a ≤ b
  | fin _, pinf => True
  | pinf, pinf => True
  | pinf, _ => False

/-- IEEE `a < b`. -/
def lt : Dbl K → Dbl K → Prop
  | nan, _ => False
  | ninf, fin _ => True
  | ninf, pinf => True
  | ninf, _ => False
  | fin a, fin b => a < b
  | fin _, pinf => True
  | fin _, _ => False
  | pinf, _ => False

instance : LE (Dbl K) := ⟨le⟩
instance : LT (Dbl K) := ⟨lt⟩

instance decLe (a b : Dbl K) : Decidable (a ≤ b) := by
  cases a <;> cases b <;> simp only [LE.le, le] <;> infer_instance

instance decLt (a b : Dbl K) : Decidable (a < b) := by
  cases a <;> cases b <;> simp only [LT.lt, lt] <;> infer_instance

/-- The test `isnan(d)`. -/
def isnan : Dbl K → Bool
  | nan => true
  | _ => false

/-- The test `isinf(d)`. -/
def isinf : Dbl K → Bool
  | ninf => true
  | pinf => true
  | _ => false

/-- Unary minus. -/
def neg : Dbl K → Dbl K
  | nan => nan
  | ninf => pinf
  | fin a => fin (-a)
  | pinf => ninf

/-- The sum `a + b` computed under rounding direction `m`. -/
def add (R : Rounding K) (m : RoundMode) : Dbl K → Dbl K → Dbl K
  | nan, _ => nan
  | ninf, nan => nan
  | ninf, pinf => nan
  | ninf, _ => ninf
  | fin _, nan => nan
  | fin _, ninf => ninf
  | fin a, fin b => fin (R.rnd m (a + b))
  | fin _, pinf => pinf
  | pinf, nan => nan
  | pinf, ninf => nan
  | pinf, _ => pinf

/-- The difference `a - b` computed under rounding direction `m`. -/
def sub (R : Rounding K) (m : RoundMode) : Dbl K → Dbl K → Dbl K
  | nan, _ => nan
  | ninf, nan => nan
  | ninf, ninf => nan
  | ninf, _ => ninf
  | fin _, nan => nan
  | fin _, ninf => pinf
  | fin a, fin b => fin (R.rnd m (a - b))
  | fin _, pinf => ninf
  | pinf, nan => nan
  | pinf, pinf => nan
  | pinf, _ => pinf

/-- An infinity of the sign of `v`, NaN when `v = 0` (the product of an
infinity with the finite value `v`, or with an infinity of that sign). -/
def infTimes (positive : Bool) (v : K) : Dbl K :=
  if v = 0 then nan
  else if decide (0 < v) = positive then pinf else ninf

/-- The product `a * b` computed under rounding direction `m`. -/
def mul (R : Rounding K) (m : RoundMode) : Dbl K → Dbl K → Dbl K
  | nan, _ => nan
  | ninf, nan => nan
  | ninf, ninf => pinf
  | ninf, fin b => infTimes false b
  | ninf, pinf => ninf
  | fin _, nan => nan
  | fin a, ninf => infTimes false a
  | fin a, fin b => fin (R.rnd m (a * b))
  | fin a, pinf => infTimes true a
  | pinf, nan => nan
  | pinf, ninf => ninf
  | pinf, fin b => infTimes true b
  | pinf, pinf => pinf

/-- The quotient `a / b` computed under rounding direction `m`; a zero divisor
counts as `+0`. -/
def div (R : Rounding K) (m : RoundMode) : Dbl K → Dbl K → Dbl K
  | nan, _ => nan
  | ninf, nan => nan
  | ninf, ninf => nan
  | ninf, fin b => if 0 ≤ b then ninf else pinf
  | ninf, pinf => nan
  | fin _, nan => nan
  | fin _, ninf => fin 0
  | fin a, fin b =>
    if b = 0 then (if a = 0 then nan else if 0 < a then pinf else ninf)
    else fin (R.rnd m (a / b))
  | fin _, pinf => fin 0
  | pinf, nan => nan
  | pinf, ninf => nan
  | pinf, fin b => if 0 ≤ b then pinf else ninf
  | pinf, pinf => nan

/-- The library call `std::pow(d, n)` for an unsigned exponent. -/
def pow (R : Rounding K) (m : RoundMode) (d : Dbl K) (n : Nat) : Dbl K :=
  if n = 0 then fin 1
  else match d with
    | nan => nan
    | ninf => if n % 2 = 0 then pinf else ninf
    | fin a => fin (R.rnd m (a ^ n))
    | pinf => pinf

/-- The constant `numeric_limits<double>::epsilon()`, 2^-52. -/
def epsilon : K := 1 / 2 ^ 52

/-- The constant `numeric_limits<double>::min()`, 2^-1022. -/
def minPositive : K := 1 / 2 ^ 1022

/-- The constant `numeric_limits<double>::max()`, (2 - 2^-52) * 2^1023. -/
def maxFinite : K := (2 - 1 / 2 ^ 52) * 2 ^ 1023

/-- The helper `min` of interval.cpp: NaN as soon as one operand is NaN. -/
def min (a b : Dbl K) : Dbl K :=
  if isnan a || isnan b then nan
  else if a ≤ b then a else b

/-- The helper `max` of interval.cpp: NaN as soon as one operand is NaN. -/
def max (a b : Dbl K) : Dbl K :=
  if isnan a || isnan b then nan
  else if b ≤ a then a else b

end Dbl

/-! ## Intervals -/

/-- The class `interval`: the two bounds `bounds[0]`, `bounds[1]`. -/
structure interval (K : Type) where
  left : Dbl K
  right : Dbl K
deriving DecidableEq

namespace interval

variable {K : Type} [LinearOrderedField K]

/-- The default constructor `interval()`. -/
def default : interval K := ⟨Dbl.ninf, Dbl.pinf⟩

/-- The constructor `interval(double v)`. -/
def ofDouble (v : Dbl K) : interval K := ⟨v, v⟩

/-- The method `empty()`. -/
def empty (I : interval K) : Bool := decide (I.left > I.right)

/-- The method `width()`; the subtraction runs under round-to-nearest. -/
def width (R : Rounding K) (I : interval K) : Dbl K :=
  if I.empty then Dbl.nan
  else if Dbl.isinf I.left || Dbl.isinf I.right then Dbl.pinf
  else Dbl.sub R RoundMode.nearest I.right I.left

/-- The method `mid()`; the arithmetic runs under round-to-nearest. -/
def mid (R : Rounding K) (I : interval K) : Dbl K :=
  if I.empty then Dbl.nan
  else if I.left = Dbl.ninf then Dbl.fin (-Dbl.maxFinite)
  else if I.right = Dbl.pinf then Dbl.fin Dbl.maxFinite
  else
    let middle := Dbl.mul R RoundMode.nearest (Dbl.fin (1 / 2))
      (Dbl.add R RoundMode.nearest I.left I.right)
    if Dbl.isinf middle then
      Dbl.add R RoundMode.nearest
        (Dbl.mul R RoundMode.nearest (Dbl.fin (1 / 2)) I.left)
        (Dbl.mul R RoundMode.nearest (Dbl.fin (1 / 2)) I.right)
    else middle

end interval

/-- The constant `nsmall`, `1.0 - 2.0 * epsilon`. -/
def nsmall {K : Type} [LinearOrderedField K] : K := 1 - 2 * Dbl.epsilon

/-- The constant `psmall`, `1.0 + 2.0 * epsilon`. -/
def psmall {K : Type} [LinearOrderedField K] : K := 1 + 2 * Dbl.epsilon

section Operators

variable {K : Type} [LinearOrderedField K]

/-- The function `round_down(d)`; its arithmetic runs under round-to-nearest. -/
def round_down (R : Rounding K) (d : Dbl K) : Dbl K :=
  if d = Dbl.pinf then Dbl.fin Dbl.maxFinite
  else if d < Dbl.fin 0 then
    Dbl.sub R RoundMode.nearest (Dbl.mul R RoundMode.nearest (Dbl.fin psmall) d)
      (Dbl.fin Dbl.minPositive)
  else
    Dbl.sub R RoundMode.nearest (Dbl.mul R RoundMode.nearest (Dbl.fin nsmall) d)
      (Dbl.fin Dbl.minPositive)

/-- The function `round_up(d)`; its arithmetic runs under round-to-nearest. -/
def round_up (R : Rounding K) (d : Dbl K) : Dbl K :=
  if d = Dbl.ninf then Dbl.fin (-Dbl.maxFinite)
  else if d < Dbl.fin 0 then
    Dbl.add R RoundMode.nearest (Dbl.mul R RoundMode.nearest (Dbl.fin nsmall) d)
      (Dbl.fin Dbl.minPositive)
  else
    Dbl.add R RoundMode.nearest (Dbl.mul R RoundMode.nearest (Dbl.fin psmall) d)
      (Dbl.fin Dbl.minPositive)

/-- The function `operator+` with the FPU rounding direction as explicit
state: the direction on entry goes in, the sum and the direction on return
come out. -/
def operator_add (R : Rounding K) (I1 I2 : interval K) (_fpu : RoundMode) :
    interval K × RoundMode :=
  let fpu := RoundMode.downward
  let l := Dbl.add R fpu I1.left I2.left
  let fpu := RoundMode.upward
  let r := Dbl.add R fpu I1.right I2.right
  let fpu := RoundMode.nearest
  (⟨l, r⟩, fpu)

/-- The function `operator-` with the FPU rounding direction as explicit state. -/
def operator_sub (R : Rounding K) (I1 I2 : interval K) (_fpu : RoundMode) :
    interval K × RoundMode :=
  let fpu := RoundMode.downward
  let l := Dbl.sub R fpu I1.left I2.right
  let fpu := RoundMode.upward
  let r := Dbl.sub R fpu I1.right I2.left
  let fpu := RoundMode.nearest
  (⟨l, r⟩, fpu)

/-- The function `operator*` with the FPU rounding direction as explicit state. -/
def operator_mul (R : Rounding K) (I1 I2 : interval K) (_fpu : RoundMode) :
    interval K × RoundMode :=
  let fpu := RoundMode.downward
  let l := Dbl.min
    (Dbl.min (Dbl.mul R fpu I1.left I2.left) (Dbl.mul R fpu I1.left I2.right))
    (Dbl.min (Dbl.mul R fpu I1.right I2.left) (Dbl.mul R fpu I1.right I2.right))
  let fpu := RoundMode.upward
  let r := Dbl.max
    (Dbl.max (Dbl.mul R fpu I1.left I2.left) (Dbl.mul R fpu I1.left I2.right))
    (Dbl.max (Dbl.mul R fpu I1.right I2.left) (Dbl.mul R fpu I1.right I2.right))
  let fpu := RoundMode.nearest
  (⟨l, r⟩, fpu)

/-- The function `operator<<` for intervals with the FPU rounding direction
as explicit state.  The stream is the text written so far; `fmt` is the
text the stream prints for a double under a given rounding direction. -/
def operator_lshift (fmt : RoundMode → Dbl K → String) (os : String) (I : interval K)
    (fpu : RoundMode) : String × RoundMode :=
  if I.empty then
    let os := os ++ "[Empty]"
    (os, fpu)
  else
    let fpu := RoundMode.downward
    let os := os ++ "[" ++ fmt fpu I.left
    let fpu := RoundMode.upward
    let os := os ++ ", " ++ fmt fpu I.right ++ "]"
    (os, fpu)

namespace interval

/-- The value of `I1 + I2` (the result of `operator_add`; it does not depend
on the rounding direction on entry). -/
def add (R : Rounding K) (I1 I2 : interval K) : interval K :=
  (operator_add R I1 I2 RoundMode.nearest).1

/-- The value of `I1 - I2`. -/
def sub (R : Rounding K) (I1 I2 : interval K) : interval K :=
  (operator_sub R I1 I2 RoundMode.nearest).1

/-- The value of `I1 * I2`. -/
def mul (R : Rounding K) (I1 I2 : interval K) : interval K :=
  (operator_mul R I1 I2 RoundMode.nearest).1

/-- The function `pow(I, n)` of interval.cpp; `std::pow` and the bias
corrections run under round-to-nearest. -/
def pow (R : Rounding K) (I : interval K) (n : Nat) : interval K :=
  if n = 0 then ofDouble (Dbl.fin 1)
  else if n = 1 then I
  else if n % 2 = 0 then
    if I.left ≥ Dbl.fin 0 then
      let l := round_down R (Dbl.pow R RoundMode.nearest I.left n)
      let r := round_up R (Dbl.pow R RoundMode.nearest I.right n)
      ⟨l, r⟩
    else if I.right ≤ Dbl.fin 0 then
      let l := round_down R (Dbl.pow R RoundMode.nearest I.right n)
      let r := round_up R (Dbl.pow R RoundMode.nearest I.left n)
      ⟨l, r⟩
    else
      let rl := round_up R (Dbl.pow R RoundMode.nearest I.right n)
      let rr := round_up R (Dbl.pow R RoundMode.nearest I.left n)
      ⟨Dbl.fin 0, Dbl.max rl rr⟩
  else
    let l := round_down R (Dbl.pow R RoundMode.nearest I.left n)
    let r := round_up R (Dbl.pow R RoundMode.nearest I.right n)
    ⟨l, r⟩

end interval

/-! ## Objective functions -/

/-- The type `itvfun`: a binary interval function to minimise. -/
abbrev itvfun (K : Type) := interval K → interval K → interval K

/-- The function `booth` of functions.cpp,
`pow(x+2*y-7,2)+pow(2*x+y-5,2)`; the literals convert through
`interval(double)`. -/
def booth (R : Rounding K) (x y : interval K) : interval K :=
  interval.add R
    (interval.pow R
      (interval.sub R
        (interval.add R x (interval.mul R (interval.ofDouble (Dbl.fin 2)) y))
        (interval.ofDouble (Dbl.fin 7)))
      2)
    (interval.pow R
      (interval.sub R
        (interval.add R (interval.mul R (interval.ofDouble (Dbl.fin 2)) x) y)
        (interval.ofDouble (Dbl.fin 5)))
      2)

/-- The real function that `booth` encloses: (x+2y-7)^2 + (2x+y-5)^2. -/
def boothReal (p q : K) : K := (p + 2 * q - 7) ^ 2 + (2 * p + q - 5) ^ 2

/-! ## Minimizers -/

/-- The struct `minimizer`. -/
structure minimizer (K : Type) where
  xmin : interval K
  ymin : interval K
  lbmin : Dbl K
  ubmin : Dbl K
deriving DecidableEq

/-- The comparator `less_minimizer::operator()`: `m1.lbmin <= m2.lbmin`. -/
def less_minimizer (m1 m2 : minimizer K) : Bool := decide (m1.lbmin ≤ m2.lbmin)

/-- The type `minimizer_list`, a `std::multiset<minimizer,less_minimizer>`,
as the sequence of its elements from `begin()` to `end()`. -/
abbrev minimizer_list (K : Type) := List (minimizer K)

namespace minimizer_list

/-- The call `ml.lower_bound(key)`: the position of the first element `e` for
which `less_minimizer(e, key)` is false (`ml.end()` if there is none). -/
def lower_bound : minimizer_list K → minimizer K → Nat
  | [], _ => 0
  | e :: rest, key =>
    if less_minimizer e key then lower_bound rest key + 1 else 0

/-- The call `ml.erase(first, last)`: drops the positions `first .. last-1`. -/
def erase (ml : minimizer_list K) (first last : Nat) : minimizer_list K :=
  ml.take first ++ ml.drop last

/-- The call `ml.insert(v)`: `v` goes right before the first element `e` for
which `less_minimizer(v, e)` is true (at the end if there is none). -/
def insert : minimizer_list K → minimizer K → minimizer_list K
  | [], v => [v]
  | e :: rest, v =>
    if less_minimizer v e then v :: e :: rest else e :: insert rest v

end minimizer_list

/-! ## Branch and bound -/

/-- The two objects `minimize` updates through references: the current
minimum upper bound and the list of current minimizers. -/
structure SearchState (K : Type) where
  min_ub : Dbl K
  ml : minimizer_list K

/-- The state `main` starts from: `min_ub = +infinity`, no minimizer. -/
def SearchState.init : SearchState K := ⟨Dbl.pinf, []⟩

/-- The function `split_box`; the results are `(xl, xr, yl, yr)`. -/
def split_box (R : Rounding K) (x y : interval K) :
    interval K × interval K × interval K × interval K :=
  let xm := interval.mid R x
  let ym := interval.mid R y
  (⟨x.left, xm⟩, ⟨xm, x.right⟩, ⟨y.left, ym⟩, ⟨ym, y.right⟩)

/-- Lines 54-65 of `minimize`: when `fxy.right() < min_ub`, lower `min_ub`
to `fxy.right()` and erase from `lower_bound(minimizer{0,0,min_ub,0})` to
the end. -/
def improve (fxy : interval K) (s : SearchState K) : SearchState K :=
  if fxy.right < s.min_ub then
    let min_ub := fxy.right
    let discard_begin := minimizer_list.lower_bound s.ml
      ⟨interval.ofDouble (Dbl.fin 0), interval.ofDouble (Dbl.fin 0), min_ub, Dbl.fin 0⟩
    ⟨min_ub, minimizer_list.erase s.ml discard_begin s.ml.length⟩
  else s

/-- The function `minimize`, its four sibling calls run in source order.
The first argument bounds the recursion depth: the result is `none` when a
box at that depth is still wider than the threshold. -/
def minimize (R : Rounding K) : Nat → itvfun K → interval K → interval K →
    Dbl K → SearchState K → Option (SearchState K)
  | depth, f, x, y, threshold, s =>
    let fxy := f x y
    if fxy.left > s.min_ub then some s
    else
      let s := improve fxy s
      if interval.width R x ≤ threshold then
        some ⟨s.min_ub, minimizer_list.insert s.ml ⟨x, y, fxy.left, fxy.right⟩⟩
      else
        match depth with
        | 0 => none
        | d + 1 =>
          let (xl, xr, yl, yr) := split_box R x y
          (minimize R d f xl yl threshold s).bind fun s =>
          (minimize R d f xl yr threshold s).bind fun s =>
          (minimize R d f xr yl threshold s).bind fun s =>
          minimize R d f xr yr threshold s

/-- The sub-box number `i` of a split `(xl, xr, yl, yr)`, numbered as the four
sibling calls of `minimize` are listed: `0` is `(xl,yl)`, `1` is `(xl,yr)`,
`2` is `(xr,yl)`, `3` is `(xr,yr)`. -/
def quadrant (b : interval K × interval K × interval K × interval K) :
    Fin 4 → interval K × interval K
  | 0 => (b.1, b.2.2.1)
  | 1 => (b.1, b.2.2.2)
  | 2 => (b.2.1, b.2.2.1)
  | 3 => (b.2.1, b.2.2.2)

/-- The function `minimize` with its four sibling calls (the four OpenMP
sections) run in the order `order`; the source lists them in the order
`[0, 1, 2, 3]`. -/
def minimize_in_order (R : Rounding K) (order : List (Fin 4)) : Nat → itvfun K →
    interval K → interval K → Dbl K → SearchState K → Option (SearchState K)
  | depth, f, x, y, threshold, s =>
    let fxy := f x y
    if fxy.left > s.min_ub then some s
    else
      let s := improve fxy s
      if interval.width R x ≤ threshold then
        some ⟨s.min_ub, minimizer_list.insert s.ml ⟨x, y, fxy.left, fxy.right⟩⟩
      else
        match depth with
        | 0 => none
        | d + 1 =>
          order.foldlM
            (fun s i => minimize_in_order R order d f (quadrant (split_box R x y) i).1
              (quadrant (split_box R x y) i).2 threshold s) s

/-! ## The sibling calls as OpenMP sections

The four sibling calls of `minimize` are the sections of an
`omp parallel sections` region and share `min_ub` and `ml`.  A call on a box
that is not split touches the shared state at four places, in this order: the
test of line 50, the test of line 54, the critical section of lines 59-64 and
the critical section of lines 73-74.  The two tests stand outside every
critical section; each critical section runs as a whole.  Between two of
these places any other thread may run. -/

/-- The test of line 54, `fxy.right() < min_ub`.  It reads `min_ub` before
the critical section is entered. -/
def improve_test (fxy : interval K) (s : SearchState K) : Bool :=
  decide (fxy.right < s.min_ub)

/-- The critical section of lines 59-64: `min_ub = fxy.right()`, then erase
from `lower_bound(minimizer{0,0,min_ub,0})` to the end.  It does not test
`min_ub` again. -/
def improve_commit (fxy : interval K) (s : SearchState K) : SearchState K :=
  let min_ub := fxy.right
  let discard_begin := minimizer_list.lower_bound s.ml
    ⟨interval.ofDouble (Dbl.fin 0), interval.ofDouble (Dbl.fin 0), min_ub, Dbl.fin 0⟩
  ⟨min_ub, minimizer_list.erase s.ml discard_begin s.ml.length⟩

/-- The critical section of lines 73-74:
`ml.insert(minimizer{x,y,fxy.left(),fxy.right()})`. -/
def insert_commit (x y fxy : interval K) (s : SearchState K) : SearchState K :=
  ⟨s.min_ub, minimizer_list.insert s.ml ⟨x, y, fxy.left, fxy.right⟩⟩

/-- The place a thread has reached in a call of `minimize` on a box that is
not split. -/
inductive BranchPc where
  | at_prune_test : BranchPc
  | at_improve_test : BranchPc
  | at_improve_commit : BranchPc
  | at_insert : BranchPc
  | returned : BranchPc
  deriving DecidableEq

/-- A call of `minimize` in progress on a box `x`, `y` that is not split:
the value `fxy = f(x,y)` of line 48, which is local to the call, and the
place reached. -/
structure Branch (K : Type) where
  x : interval K
  y : interval K
  fxy : interval K
  pc : BranchPc

/-- The call of `minimize` on `x`, `y` at its entry. -/
def Branch.start (f : itvfun K) (x y : interval K) : Branch K :=
  ⟨x, y, f x y, BranchPc.at_prune_test⟩

/-- One unit of a call, run on the shared state `s` as it is at that moment:
the test of line 50 (return when `fxy.left() > min_ub`), the test of line 54,
the critical section of lines 59-64, the critical section of lines 73-74. -/
def Branch.step (b : Branch K) (s : SearchState K) : Branch K × SearchState K :=
  match b.pc with
  | BranchPc.at_prune_test =>
    if b.fxy.left > s.min_ub then (⟨b.x, b.y, b.fxy, BranchPc.returned⟩, s)
    else (⟨b.x, b.y, b.fxy, BranchPc.at_improve_test⟩, s)
  | BranchPc.at_improve_test =>
    if improve_test b.fxy s then (⟨b.x, b.y, b.fxy, BranchPc.at_improve_commit⟩, s)
    else (⟨b.x, b.y, b.fxy, BranchPc.at_insert⟩, s)
  | BranchPc.at_improve_commit =>
    (⟨b.x, b.y, b.fxy, BranchPc.at_insert⟩, improve_commit b.fxy s)
  | BranchPc.at_insert =>
    (⟨b.x, b.y, b.fxy, BranchPc.returned⟩, insert_commit b.x b.y b.fxy s)
  | BranchPc.returned => (b, s)

/-- The shared state after the call `b` has run its four units with no other
thread in between. -/
def Branch.run_alone (b : Branch K) (s : SearchState K) : SearchState K :=
  let p1 := b.step s
  let p2 := p1.1.step p1.2
  let p3 := p2.1.step p2.2
  (p3.1.step p3.2).2

/-- The four sections of lines 99-110 at their entry, in source order. -/
def sibling_branches (R : Rounding K) (f : itvfun K) (x y : interval K) :
    List (Branch K) :=
  let (xl, xr, yl, yr) := split_box R x y
  [Branch.start f xl yl, Branch.start f xl yr, Branch.start f xr yl, Branch.start f xr yr]

/-- The thread of index `i` runs its next unit. -/
def pool_step (i : Nat) (p : List (Branch K) × SearchState K) :
    List (Branch K) × SearchState K :=
  match p.1[i]? with
  | some b => (p.1.set i (b.step p.2).1, (b.step p.2).2)
  | none => p

/-- The threads run their units in the order given by `schedule`, a list of
thread indices. -/
def run_pool (schedule : List Nat) (p : List (Branch K) × SearchState K) :
    List (Branch K) × SearchState K :=
  schedule.foldl (fun p i => pool_step i p) p

/-- The values of `min_ub` along a schedule: before the first unit and after
each unit. -/
def min_ub_trace : List Nat → List (Branch K) × SearchState K → List (Dbl K)
  | [], p => [p.2.min_ub]
  | i :: rest, p => p.2.min_ub :: min_ub_trace rest (pool_step i p)

/-! ## Distribution of the domain in `main` -/

/-- The loop `for (i = 0; i < numprocs; ++i)` of `main` that fills an array of
slices: the slice is `[l, l + sz]`, then `l += sz`.  The first argument after
`sz` is the number of iterations left, the second the current `l`. -/
def fill_slices (R : Rounding K) (sz : Dbl K) : Nat → Dbl K → List (interval K)
  | 0, _ => []
  | n + 1, l =>
    ⟨l, Dbl.add R RoundMode.nearest l sz⟩ ::
      fill_slices R sz n (Dbl.add R RoundMode.nearest l sz)

/-- The array `arrayX` that rank 0 of `main` builds from `fun.x`. -/
def arrayX (R : Rounding K) (fun_x : interval K) (numprocs : Nat) : List (interval K) :=
  let szX := Dbl.div R RoundMode.nearest (interval.width R fun_x) (Dbl.fin (numprocs : K))
  fill_slices R szX numprocs fun_x.left

/-- The array `arrayY` that rank 0 of `main` builds from `fun.y`. -/
def arrayY (R : Rounding K) (fun_y : interval K) (numprocs : Nat) : List (interval K) :=
  let szY := Dbl.div R RoundMode.nearest (interval.width R fun_y) (Dbl.fin (numprocs : K))
  fill_slices R szY numprocs fun_y.left

/-- The boxes `(myslice[0], arrayY[i])`, `i = 0 .. numprocs-1`, on which the
process of rank `rank` calls `minimize`: `arrayY` is broadcast whole and
`myslice[0]` is the element `rank` of `arrayX` (scatter). -/
def engine_calls (R : Rounding K) (fun_x fun_y : interval K) (numprocs rank : Nat) :
    List (interval K × interval K) :=
  match (arrayX R fun_x numprocs)[rank]? with
  | some myslice => (arrayY R fun_y numprocs).map (fun y => (myslice, y))
  | none => []

/-! ## Vocabulary of the statements -/

/-- The value `v` lies in `I`: `I.left <= v` and `v <= I.right`. -/
def interval.contains (I : interval K) (v : K) : Prop :=
  I.left ≤ Dbl.fin v ∧ Dbl.fin v ≤ I.right

/-- The interval `I` has finite bounds and `v` lies in it. -/
def interval.finiteAround (I : interval K) (v : K) : Prop :=
  ∃ l r : K, I = ⟨Dbl.fin l, Dbl.fin r⟩ ∧ l ≤ v ∧ v ≤ r

/-- The interval `I` is enclosed in `J`: `J.left <= I.left` and
`I.right <= J.right`. -/
def interval.subset (I J : interval K) : Prop :=
  J.left ≤ I.left ∧ I.right ≤ J.right

/-- The collection is in ascending order of `lbmin`. -/
def minimizer_list.sorted (ml : minimizer_list K) : Prop :=
  List.Pairwise (fun a b : minimizer K => a.lbmin ≤ b.lbmin) ml

instance minimizer_list.decSorted (ml : minimizer_list K) :
    Decidable (minimizer_list.sorted ml) := by
  unfold minimizer_list.sorted; infer_instance

/-- The box `B` belongs to the full quadtree under the box `(x, y)`: the box
itself, and, as long as the x-width exceeds the threshold, the boxes of the
quadtrees under its four `split_box` quadrants. -/
inductive inQuadtree (R : Rounding K) (threshold : Dbl K) :
    interval K → interval K → interval K × interval K → Prop where
  | root (x y : interval K) : inQuadtree R threshold x y (x, y)
  | child (x y : interval K) (i : Fin 4) (B : interval K × interval K) :
    ¬ (interval.width R x ≤ threshold) →
    inQuadtree R threshold (quadrant (split_box R x y) i).1
      (quadrant (split_box R x y) i).2 B →
    inQuadtree R threshold x y B

/-- The depth bound `max(0, ceil(log2(w / t)))` for a box of x-width `w` and
a threshold `t`; `0` when the threshold is not finite. -/
def depthBound [FloorRing K] (w : K) (threshold : Dbl K) : Nat :=
  match threshold with
  | Dbl.fin t => Nat.clog 2 ⌈w / t⌉₊
  | _ => 0

end Operators

/-! ## Theorems -/

/-! ### Comparisons of doubles -/

namespace Dbl

variable {K : Type} [LinearOrderedField K]

@[simp] theorem fin_le_fin (a b : K) : (fin a ≤ fin b) ↔ a ≤ b := Iff.rfl

@[simp] theorem fin_lt_fin (a b : K) : (fin a < fin b) ↔ a < b := Iff.rfl

@[simp] theorem fin_le_pinf (a : K) : fin a ≤ (pinf : Dbl K) := trivial

@[simp] theorem ninf_le_fin (a : K) : (ninf : Dbl K) ≤ fin a := trivial

@[simp] theorem fin_lt_pinf (a : K) : fin a < (pinf : Dbl K) := trivial

@[simp] theorem not_nan_le (d : Dbl K) : ¬ ((nan : Dbl K) ≤ d) := fun h => h

@[simp] theorem not_le_nan (d : Dbl K) : ¬ (d ≤ (nan : Dbl K)) := by
  cases d <;> exact fun h => h

@[simp] theorem not_nan_lt (d : Dbl K) : ¬ ((nan : Dbl K) < d) := fun h => h

@[simp] theorem not_lt_nan (d : Dbl K) : ¬ (d < (nan : Dbl K)) := by
  cases d <;> exact fun h => h

@[simp] theorem not_pinf_lt (d : Dbl K) : ¬ ((pinf : Dbl K) < d) := fun h => h

@[simp] theorem not_lt_ninf (d : Dbl K) : ¬ (d < (ninf : Dbl K)) := by
  cases d <;> exact fun h => h

@[simp] theorem not_pinf_le_fin (a : K) : ¬ ((pinf : Dbl K) ≤ fin a) := fun h => h

@[simp] theorem not_fin_le_ninf (a : K) : ¬ (fin a ≤ (ninf : Dbl K)) := fun h => h

/-- IEEE `<=` is transitive. -/
theorem le_transD {a b c : Dbl K} (h1 : a ≤ b) (h2 : b ≤ c) : a ≤ c := by
  cases a <;> cases b <;> cases c <;> first
    | exact absurd h1 (fun h => h)
    | exact absurd h2 (fun h => h)
    | exact trivial
    | exact le_trans h1 h2

/-- IEEE `a <= b` excludes `b < a`. -/
theorem not_lt_of_leD {a b : Dbl K} (h : a ≤ b) : ¬ (b < a) := by
  cases a <;> cases b <;> first
    | exact absurd h (fun h => h)
    | exact fun h => h
    | exact not_lt.mpr h

/-- IEEE `a < b` gives `a <= b`. -/
theorem le_of_ltD {a b : Dbl K} (h : a < b) : a ≤ b := by
  cases a <;> cases b <;> first
    | exact absurd h (fun h => h)
    | exact trivial
    | exact h.le

/-- Away from NaN, `a <= b` or `b < a`. -/
theorem le_or_lt_of_not_nan {a b : Dbl K} (ha : a ≠ nan) (hb : b ≠ nan) : a ≤ b ∨ b < a := by
  cases a <;> cases b <;> first
    | exact absurd rfl ha
    | exact absurd rfl hb
    | exact Or.inl trivial
    | exact Or.inr trivial
    | exact le_or_lt _ _

theorem ne_nan_of_le_left {a b : Dbl K} (h : a ≤ b) : a ≠ nan := by
  rintro rfl; exact absurd h (not_nan_le _)

theorem ne_nan_of_le_right {a b : Dbl K} (h : a ≤ b) : b ≠ nan := by
  rintro rfl; exact absurd h (not_le_nan _)

theorem min_fin (a b : K) : Dbl.min (fin a) (fin b) = fin (Min.min a b) := by
  by_cases h : a ≤ b <;> simp [Dbl.min, isnan, h]
  exact (not_le.mp h).le

theorem max_fin (a b : K) : Dbl.max (fin a) (fin b) = fin (Max.max a b) := by
  by_cases h : b ≤ a <;> simp [Dbl.max, isnan, h]
  exact (not_le.mp h).le

end Dbl

/-! ### Interval arithmetic -/

section Arith

variable {K : Type} [LinearOrderedField K]

/-- Some corner product is below `a * b`. -/
theorem corner_le_mul {al ah bl bh a b : K} (ha1 : al ≤ a) (ha2 : a ≤ ah)
    (hb1 : bl ≤ b) (hb2 : b ≤ bh) :
    Min.min (Min.min (al * bl) (al * bh)) (Min.min (ah * bl) (ah * bh)) ≤ a * b := by
  simp only [min_le_iff]
  rcases le_total 0 b with hb | hb
  · rcases le_total 0 al with hl | hl
    · left; left; nlinarith
    · left; right; nlinarith
  · rcases le_total 0 ah with hl | hl
    · right; left; nlinarith
    · right; right; nlinarith

/-- Some corner product is above `a * b`. -/
theorem mul_le_corner {al ah bl bh a b : K} (ha1 : al ≤ a) (ha2 : a ≤ ah)
    (hb1 : bl ≤ b) (hb2 : b ≤ bh) :
    a * b ≤ Max.max (Max.max (al * bl) (al * bh)) (Max.max (ah * bl) (ah * bh)) := by
  simp only [le_max_iff]
  rcases le_total 0 b with hb | hb
  · rcases le_total 0 ah with hl | hl
    · right; right; nlinarith
    · right; left; nlinarith
  · rcases le_total 0 al with hl | hl
    · left; right; nlinarith
    · left; left; nlinarith

theorem rnd_corner_le {r : K → K} (hr : Monotone r) {al ah bl bh a b : K}
    (ha1 : al ≤ a) (ha2 : a ≤ ah) (hb1 : bl ≤ b) (hb2 : b ≤ bh) :
    Min.min (Min.min (r (al * bl)) (r (al * bh))) (Min.min (r (ah * bl)) (r (ah * bh)))
      ≤ r (a * b) := by
  have h := corner_le_mul ha1 ha2 hb1 hb2
  simp only [min_le_iff] at h ⊢
  rcases h with (h | h) | (h | h)
  · exact Or.inl (Or.inl (hr h))
  · exact Or.inl (Or.inr (hr h))
  · exact Or.inr (Or.inl (hr h))
  · exact Or.inr (Or.inr (hr h))

theorem rnd_le_corner {r : K → K} (hr : Monotone r) {al ah bl bh a b : K}
    (ha1 : al ≤ a) (ha2 : a ≤ ah) (hb1 : bl ≤ b) (hb2 : b ≤ bh) :
    r (a * b) ≤
      Max.max (Max.max (r (al * bl)) (r (al * bh))) (Max.max (r (ah * bl)) (r (ah * bh))) := by
  have h := mul_le_corner ha1 ha2 hb1 hb2
  simp only [le_max_iff] at h ⊢
  rcases h with (h | h) | (h | h)
  · exact Or.inl (Or.inl (hr h))
  · exact Or.inl (Or.inr (hr h))
  · exact Or.inr (Or.inl (hr h))
  · exact Or.inr (Or.inr (hr h))

/-- The result of `operator+` on finite bounds. -/
theorem operator_add_fin (R : Rounding K) (al ah bl bh : K) (fpu : RoundMode) :
    (operator_add R ⟨Dbl.fin al, Dbl.fin ah⟩ ⟨Dbl.fin bl, Dbl.fin bh⟩ fpu).1 =
      ⟨Dbl.fin (R.rnd RoundMode.downward (al + bl)),
        Dbl.fin (R.rnd RoundMode.upward (ah + bh))⟩ := rfl

/-- The result of `operator-` on finite bounds. -/
theorem operator_sub_fin (R : Rounding K) (al ah bl bh : K) (fpu : RoundMode) :
    (operator_sub R ⟨Dbl.fin al, Dbl.fin ah⟩ ⟨Dbl.fin bl, Dbl.fin bh⟩ fpu).1 =
      ⟨Dbl.fin (R.rnd RoundMode.downward (al - bh)),
        Dbl.fin (R.rnd RoundMode.upward (ah - bl))⟩ := rfl

/-- The result of `operator*` on finite bounds. -/
theorem operator_mul_fin (R : Rounding K) (al ah bl bh : K) (fpu : RoundMode) :
    (operator_mul R ⟨Dbl.fin al, Dbl.fin ah⟩ ⟨Dbl.fin bl, Dbl.fin bh⟩ fpu).1 =
      ⟨Dbl.fin (Min.min
          (Min.min (R.rnd RoundMode.downward (al * bl)) (R.rnd RoundMode.downward (al * bh)))
          (Min.min (R.rnd RoundMode.downward (ah * bl)) (R.rnd RoundMode.downward (ah * bh)))),
        Dbl.fin (Max.max
          (Max.max (R.rnd RoundMode.upward (al * bl)) (R.rnd RoundMode.upward (al * bh)))
          (Max.max (R.rnd RoundMode.upward (ah * bl)) (R.rnd RoundMode.upward (ah * bh))))⟩ := by
  simp only [operator_mul, Dbl.mul, Dbl.min_fin, Dbl.max_fin]

theorem operator_add_encloses (R : Rounding K)
    (hdown : ∀ v, R.rnd RoundMode.downward v ≤ v) (hup : ∀ v, v ≤ R.rnd RoundMode.upward v)
    {al ah bl bh a b : K} (fpu : RoundMode)
    (ha : interval.contains ⟨Dbl.fin al, Dbl.fin ah⟩ a)
    (hb : interval.contains ⟨Dbl.fin bl, Dbl.fin bh⟩ b) :
    (operator_add R ⟨Dbl.fin al, Dbl.fin ah⟩ ⟨Dbl.fin bl, Dbl.fin bh⟩ fpu).1.contains (a + b) := by
  obtain ⟨ha1, ha2⟩ := ha
  obtain ⟨hb1, hb2⟩ := hb
  simp only [Dbl.fin_le_fin] at ha1 ha2 hb1 hb2
  rw [operator_add_fin]
  exact ⟨le_trans (hdown _) (by linarith), le_trans (by linarith) (hup _)⟩

theorem operator_sub_encloses (R : Rounding K)
    (hdown : ∀ v, R.rnd RoundMode.downward v ≤ v) (hup : ∀ v, v ≤ R.rnd RoundMode.upward v)
    {al ah bl bh a b : K} (fpu : RoundMode)
    (ha : interval.contains ⟨Dbl.fin al, Dbl.fin ah⟩ a)
    (hb : interval.contains ⟨Dbl.fin bl, Dbl.fin bh⟩ b) :
    (operator_sub R ⟨Dbl.fin al, Dbl.fin ah⟩ ⟨Dbl.fin bl, Dbl.fin bh⟩ fpu).1.contains (a - b) := by
  obtain ⟨ha1, ha2⟩ := ha
  obtain ⟨hb1, hb2⟩ := hb
  simp only [Dbl.fin_le_fin] at ha1 ha2 hb1 hb2
  rw [operator_sub_fin]
  exact ⟨le_trans (hdown _) (by linarith), le_trans (by linarith) (hup _)⟩

theorem operator_mul_encloses (R : Rounding K)
    (hdown : ∀ v, R.rnd RoundMode.downward v ≤ v) (hup : ∀ v, v ≤ R.rnd RoundMode.upward v)
    {al ah bl bh a b : K} (fpu : RoundMode)
    (ha : interval.contains ⟨Dbl.fin al, Dbl.fin ah⟩ a)
    (hb : interval.contains ⟨Dbl.fin bl, Dbl.fin bh⟩ b) :
    (operator_mul R ⟨Dbl.fin al, Dbl.fin ah⟩ ⟨Dbl.fin bl, Dbl.fin bh⟩ fpu).1.contains (a * b) := by
  obtain ⟨ha1, ha2⟩ := ha
  obtain ⟨hb1, hb2⟩ := hb
  simp only [Dbl.fin_le_fin] at ha1 ha2 hb1 hb2
  rw [operator_mul_fin]
  constructor
  · have h := corner_le_mul ha1 ha2 hb1 hb2
    simp only [Dbl.fin_le_fin, min_le_iff] at h ⊢
    rcases h with (h | h) | (h | h)
    · exact Or.inl (Or.inl (le_trans (hdown _) h))
    · exact Or.inl (Or.inr (le_trans (hdown _) h))
    · exact Or.inr (Or.inl (le_trans (hdown _) h))
    · exact Or.inr (Or.inr (le_trans (hdown _) h))
  · have h := mul_le_corner ha1 ha2 hb1 hb2
    simp only [Dbl.fin_le_fin, le_max_iff] at h ⊢
    rcases h with (h | h) | (h | h)
    · exact Or.inl (Or.inl (le_trans h (hup _)))
    · exact Or.inl (Or.inr (le_trans h (hup _)))
    · exact Or.inr (Or.inl (le_trans h (hup _)))
    · exact Or.inr (Or.inr (le_trans h (hup _)))

/-- C4: soundness of `operator+`, `operator-` and `operator*`.  For intervals
with finite bounds, whatever the rounding direction on entry, if rounding
downward never exceeds the exact result and rounding upward never falls below
it (exact arithmetic is one such rounding), then for `a` in `A` and `b` in `B`
the values `a+b`, `a-b`, `a*b` lie in `A+B`, `A-B`, `A*B`. -/
theorem operators_sound (R : Rounding K)
    (hdown : ∀ v, R.rnd RoundMode.downward v ≤ v)
    (hup : ∀ v, v ≤ R.rnd RoundMode.upward v)
    (al ah bl bh a b : K) (fpu : RoundMode)
    (ha : interval.contains ⟨Dbl.fin al, Dbl.fin ah⟩ a)
    (hb : interval.contains ⟨Dbl.fin bl, Dbl.fin bh⟩ b) :
    (operator_add R ⟨Dbl.fin al, Dbl.fin ah⟩ ⟨Dbl.fin bl, Dbl.fin bh⟩ fpu).1.contains (a + b) ∧
    (operator_sub R ⟨Dbl.fin al, Dbl.fin ah⟩ ⟨Dbl.fin bl, Dbl.fin bh⟩ fpu).1.contains (a - b) ∧
    (operator_mul R ⟨Dbl.fin al, Dbl.fin ah⟩ ⟨Dbl.fin bl, Dbl.fin bh⟩ fpu).1.contains (a * b) :=
  ⟨operator_add_encloses R hdown hup fpu ha hb, operator_sub_encloses R hdown hup fpu ha hb,
    operator_mul_encloses R hdown hup fpu ha hb⟩

/-- C4 at a concrete input, in exact arithmetic: `1` in `[-1,2]`, `-2` in
`[-3,1]`; the sum is `[-4,3]`, the product `[-6,3]`. -/
theorem operators_sound_witness :
    interval.contains (⟨Dbl.fin (-1), Dbl.fin 2⟩ : interval ℚ) 1 ∧
    interval.contains (⟨Dbl.fin (-3), Dbl.fin 1⟩ : interval ℚ) (-2) ∧
    (operator_add Rounding.exact (⟨Dbl.fin (-1), Dbl.fin 2⟩ : interval ℚ)
      ⟨Dbl.fin (-3), Dbl.fin 1⟩ RoundMode.nearest).1 = ⟨Dbl.fin (-4), Dbl.fin 3⟩ ∧
    (operator_mul Rounding.exact (⟨Dbl.fin (-1), Dbl.fin 2⟩ : interval ℚ)
      ⟨Dbl.fin (-3), Dbl.fin 1⟩ RoundMode.nearest).1 = ⟨Dbl.fin (-6), Dbl.fin 3⟩ ∧
    (operator_add Rounding.exact (⟨Dbl.fin (-1), Dbl.fin 2⟩ : interval ℚ)
      ⟨Dbl.fin (-3), Dbl.fin 1⟩ RoundMode.nearest).1.contains (1 + (-2)) ∧
    (operator_sub Rounding.exact (⟨Dbl.fin (-1), Dbl.fin 2⟩ : interval ℚ)
      ⟨Dbl.fin (-3), Dbl.fin 1⟩ RoundMode.nearest).1.contains (1 - (-2)) ∧
    (operator_mul Rounding.exact (⟨Dbl.fin (-1), Dbl.fin 2⟩ : interval ℚ)
      ⟨Dbl.fin (-3), Dbl.fin 1⟩ RoundMode.nearest).1.contains (1 * (-2)) :=
  have ha : interval.contains (⟨Dbl.fin (-1), Dbl.fin 2⟩ : interval ℚ) 1 := by
    norm_num [interval.contains]
  have hb : interval.contains (⟨Dbl.fin (-3), Dbl.fin 1⟩ : interval ℚ) (-2) := by
    norm_num [interval.contains]
  ⟨ha, hb, by norm_num [operator_add, Dbl.add, Rounding.exact],
    by norm_num [operator_mul, Dbl.mul, Rounding.exact, Dbl.min_fin, Dbl.max_fin],
    operators_sound Rounding.exact (fun _ => le_refl _) (fun _ => le_refl _)
      (-1) 2 (-3) 1 1 (-2) RoundMode.nearest ha hb⟩

/-- C6: enclosure monotonicity of `operator+`, `operator-` and `operator*`.
For non-empty intervals with finite bounds, `A` enclosed in `A2` and `B` in
`B2`, and directed roundings that are monotone functions (exact arithmetic is
one), `A+B`, `A-B`, `A*B` are enclosed in `A2+B2`, `A2-B2`, `A2*B2`. -/
theorem operators_monotone (R : Rounding K)
    (hdown : Monotone (R.rnd RoundMode.downward))
    (hup : Monotone (R.rnd RoundMode.upward))
    (al ah al2 ah2 bl bh bl2 bh2 : K) (fpu : RoundMode)
    (hA : al ≤ ah) (hB : bl ≤ bh)
    (hAA : interval.subset (⟨Dbl.fin al, Dbl.fin ah⟩ : interval K) ⟨Dbl.fin al2, Dbl.fin ah2⟩)
    (hBB : interval.subset (⟨Dbl.fin bl, Dbl.fin bh⟩ : interval K) ⟨Dbl.fin bl2, Dbl.fin bh2⟩) :
    interval.subset
      (operator_add R ⟨Dbl.fin al, Dbl.fin ah⟩ ⟨Dbl.fin bl, Dbl.fin bh⟩ fpu).1
      (operator_add R ⟨Dbl.fin al2, Dbl.fin ah2⟩ ⟨Dbl.fin bl2, Dbl.fin bh2⟩ fpu).1 ∧
    interval.subset
      (operator_sub R ⟨Dbl.fin al, Dbl.fin ah⟩ ⟨Dbl.fin bl, Dbl.fin bh⟩ fpu).1
      (operator_sub R ⟨Dbl.fin al2, Dbl.fin ah2⟩ ⟨Dbl.fin bl2, Dbl.fin bh2⟩ fpu).1 ∧
    interval.subset
      (operator_mul R ⟨Dbl.fin al, Dbl.fin ah⟩ ⟨Dbl.fin bl, Dbl.fin bh⟩ fpu).1
      (operator_mul R ⟨Dbl.fin al2, Dbl.fin ah2⟩ ⟨Dbl.fin bl2, Dbl.fin bh2⟩ fpu).1 := by
  obtain ⟨ha1, ha2⟩ := hAA
  obtain ⟨hb1, hb2⟩ := hBB
  simp only [Dbl.fin_le_fin] at ha1 ha2 hb1 hb2
  simp only [operator_add_fin, operator_sub_fin, operator_mul_fin]
  refine ⟨⟨?_, ?_⟩, ⟨?_, ?_⟩, ⟨?_, ?_⟩⟩
  · exact hdown (by linarith)
  · exact hup (by linarith)
  · exact hdown (by linarith)
  · exact hup (by linarith)
  · simp only [Dbl.fin_le_fin, le_min_iff]
    exact ⟨⟨rnd_corner_le hdown ha1 (hA.trans ha2) hb1 (hB.trans hb2),
        rnd_corner_le hdown ha1 (hA.trans ha2) (hb1.trans hB) hb2⟩,
      ⟨rnd_corner_le hdown (ha1.trans hA) ha2 hb1 (hB.trans hb2),
        rnd_corner_le hdown (ha1.trans hA) ha2 (hb1.trans hB) hb2⟩⟩
  · simp only [Dbl.fin_le_fin, max_le_iff]
    exact ⟨⟨rnd_le_corner hup ha1 (hA.trans ha2) hb1 (hB.trans hb2),
        rnd_le_corner hup ha1 (hA.trans ha2) (hb1.trans hB) hb2⟩,
      ⟨rnd_le_corner hup (ha1.trans hA) ha2 hb1 (hB.trans hb2),
        rnd_le_corner hup (ha1.trans hA) ha2 (hb1.trans hB) hb2⟩⟩

/-- C6 at a concrete input, in exact arithmetic: `[-1,2]` in `[-2,3]` and
`[0,1]` in `[-1,1]`; the products are `[-1,2]` and `[-3,3]`. -/
theorem operators_monotone_witness :
    ((-1 : ℚ) ≤ 2 ∧ (0 : ℚ) ≤ 1) ∧
    interval.subset (⟨Dbl.fin (-1), Dbl.fin 2⟩ : interval ℚ) ⟨Dbl.fin (-2), Dbl.fin 3⟩ ∧
    interval.subset (⟨Dbl.fin 0, Dbl.fin 1⟩ : interval ℚ) ⟨Dbl.fin (-1), Dbl.fin 1⟩ ∧
    (operator_mul Rounding.exact (⟨Dbl.fin (-1), Dbl.fin 2⟩ : interval ℚ)
      ⟨Dbl.fin 0, Dbl.fin 1⟩ RoundMode.nearest).1 = ⟨Dbl.fin (-1), Dbl.fin 2⟩ ∧
    (operator_mul Rounding.exact (⟨Dbl.fin (-2), Dbl.fin 3⟩ : interval ℚ)
      ⟨Dbl.fin (-1), Dbl.fin 1⟩ RoundMode.nearest).1 = ⟨Dbl.fin (-3), Dbl.fin 3⟩ ∧
    interval.subset
      (operator_add Rounding.exact (⟨Dbl.fin (-1), Dbl.fin 2⟩ : interval ℚ)
        ⟨Dbl.fin 0, Dbl.fin 1⟩ RoundMode.nearest).1
      (operator_add Rounding.exact ⟨Dbl.fin (-2), Dbl.fin 3⟩
        ⟨Dbl.fin (-1), Dbl.fin 1⟩ RoundMode.nearest).1 ∧
    interval.subset
      (operator_sub Rounding.exact (⟨Dbl.fin (-1), Dbl.fin 2⟩ : interval ℚ)
        ⟨Dbl.fin 0, Dbl.fin 1⟩ RoundMode.nearest).1
      (operator_sub Rounding.exact ⟨Dbl.fin (-2), Dbl.fin 3⟩
        ⟨Dbl.fin (-1), Dbl.fin 1⟩ RoundMode.nearest).1 ∧
    interval.subset
      (operator_mul Rounding.exact (⟨Dbl.fin (-1), Dbl.fin 2⟩ : interval ℚ)
        ⟨Dbl.fin 0, Dbl.fin 1⟩ RoundMode.nearest).1
      (operator_mul Rounding.exact ⟨Dbl.fin (-2), Dbl.fin 3⟩
        ⟨Dbl.fin (-1), Dbl.fin 1⟩ RoundMode.nearest).1 :=
  have hA : interval.subset (⟨Dbl.fin (-1), Dbl.fin 2⟩ : interval ℚ)
      ⟨Dbl.fin (-2), Dbl.fin 3⟩ := by norm_num [interval.subset]
  have hB : interval.subset (⟨Dbl.fin 0, Dbl.fin 1⟩ : interval ℚ)
      ⟨Dbl.fin (-1), Dbl.fin 1⟩ := by norm_num [interval.subset]
  ⟨by norm_num, hA, hB,
    by norm_num [operator_mul, Dbl.mul, Rounding.exact, Dbl.min_fin, Dbl.max_fin],
    by norm_num [operator_mul, Dbl.mul, Rounding.exact, Dbl.min_fin, Dbl.max_fin],
    operators_monotone Rounding.exact (fun _ _ h => h) (fun _ _ h => h)
      (-1) 2 (-2) 3 0 1 (-1) 1 RoundMode.nearest (by norm_num) (by norm_num) hA hB⟩

end Arith

/-! ### Integer powers -/

section Pow

variable {K : Type} [LinearOrderedField K]

theorem epsilon_pos : (0 : K) < Dbl.epsilon := by
  unfold Dbl.epsilon; positivity

theorem minPositive_pos : (0 : K) < Dbl.minPositive := by
  unfold Dbl.minPositive; positivity

theorem nsmall_pos : (0 : K) < nsmall := by
  unfold nsmall Dbl.epsilon; norm_num

theorem nsmall_lt_one : (nsmall : K) < 1 := by
  have := epsilon_pos (K := K)
  unfold nsmall; linarith

theorem one_lt_psmall : (1 : K) < psmall := by
  have := epsilon_pos (K := K)
  unfold psmall; linarith

/-- In exact arithmetic `round_down` of a finite value is the bias
correction `psmall*d - min` (for `d < 0`) or `nsmall*d - min`. -/
theorem round_down_exact (d : K) :
    round_down Rounding.exact (Dbl.fin d) =
      Dbl.fin (if d < 0 then psmall * d - Dbl.minPositive
        else nsmall * d - Dbl.minPositive) := by
  by_cases h : d < 0 <;>
    simp [round_down, h, Dbl.sub, Dbl.mul, Rounding.exact]

/-- In exact arithmetic `round_up` of a finite value is the bias correction
`nsmall*d + min` (for `d < 0`) or `psmall*d + min`. -/
theorem round_up_exact (d : K) :
    round_up Rounding.exact (Dbl.fin d) =
      Dbl.fin (if d < 0 then nsmall * d + Dbl.minPositive
        else psmall * d + Dbl.minPositive) := by
  by_cases h : d < 0 <;>
    simp [round_up, h, Dbl.add, Dbl.mul, Rounding.exact]

theorem bias_down_le (d : K) :
    (if d < 0 then psmall * d - Dbl.minPositive else nsmall * d - Dbl.minPositive) ≤ d := by
  have h1 := one_lt_psmall (K := K)
  have h2 := nsmall_lt_one (K := K)
  have h3 := minPositive_pos (K := K)
  split_ifs with h
  · nlinarith
  · have : 0 ≤ d := not_lt.mp h
    nlinarith

theorem le_bias_up (d : K) :
    d ≤ (if d < 0 then nsmall * d + Dbl.minPositive else psmall * d + Dbl.minPositive) := by
  have h1 := one_lt_psmall (K := K)
  have h2 := nsmall_lt_one (K := K)
  have h3 := minPositive_pos (K := K)
  split_ifs with h
  · nlinarith
  · have : 0 ≤ d := not_lt.mp h
    nlinarith

theorem bias_down_mono {a b : K} (hab : a ≤ b) :
    (if a < 0 then psmall * a - Dbl.minPositive else nsmall * a - Dbl.minPositive) ≤
      (if b < 0 then psmall * b - Dbl.minPositive else nsmall * b - Dbl.minPositive) := by
  have h1 := one_lt_psmall (K := K)
  have h2 := nsmall_lt_one (K := K)
  have h4 := nsmall_pos (K := K)
  split_ifs with ha hb hb
  · nlinarith
  · have : 0 ≤ b := not_lt.mp hb
    nlinarith
  · have : 0 ≤ a := not_lt.mp ha
    linarith
  · nlinarith

theorem bias_up_mono {a b : K} (hab : a ≤ b) :
    (if a < 0 then nsmall * a + Dbl.minPositive else psmall * a + Dbl.minPositive) ≤
      (if b < 0 then nsmall * b + Dbl.minPositive else psmall * b + Dbl.minPositive) := by
  have h1 := one_lt_psmall (K := K)
  have h2 := nsmall_lt_one (K := K)
  have h4 := nsmall_pos (K := K)
  split_ifs with ha hb hb
  · nlinarith
  · have : 0 ≤ b := not_lt.mp hb
    nlinarith
  · have : 0 ≤ a := not_lt.mp ha
    linarith
  · nlinarith

theorem pow_exact_fin (a : K) {n : Nat} (hn : n ≠ 0) :
    Dbl.pow Rounding.exact RoundMode.nearest (Dbl.fin a) n = Dbl.fin (a ^ n) := by
  simp [Dbl.pow, hn, Rounding.exact]

theorem even_pow_le_of_nonpos {a b : K} {n : Nat} (hn : Even n) (hab : a ≤ b) (hb : b ≤ 0) :
    b ^ n ≤ a ^ n := by
  rw [← hn.neg_pow b, ← hn.neg_pow a]
  exact pow_le_pow_left₀ (by linarith) (by linarith) n

theorem odd_pow_le {a b : K} {n : Nat} (hn : Odd n) (hab : a ≤ b) : a ^ n ≤ b ^ n :=
  hn.strictMono_pow.monotone hab

/-- In exact arithmetic `pow` encloses the power of every point of a finite
interval. -/
theorem pow_encloses {al ah a : K} (n : Nat)
    (ha : interval.contains ⟨Dbl.fin al, Dbl.fin ah⟩ a) :
    (interval.pow Rounding.exact ⟨Dbl.fin al, Dbl.fin ah⟩ n).contains (a ^ n) := by
  obtain ⟨h1, h2⟩ := ha
  simp only [Dbl.fin_le_fin] at h1 h2
  unfold interval.pow
  by_cases h0 : n = 0
  · subst h0
    simp [interval.ofDouble, interval.contains]
  by_cases hn1 : n = 1
  · subst hn1
    simp [interval.contains, h1, h2]
  simp only [h0, hn1, if_false, pow_exact_fin _ h0, round_down_exact, round_up_exact, ge_iff_le,
    Dbl.fin_le_fin]
  have hd := fun d : K => bias_down_le d
  have hu := fun d : K => le_bias_up d
  by_cases hev : n % 2 = 0
  · have hn : Even n := Nat.even_iff.mpr hev
    simp only [hev, if_true]
    by_cases hpos : 0 ≤ al
    · simp only [hpos, if_true, interval.contains, Dbl.fin_le_fin]
      exact ⟨(hd _).trans (pow_le_pow_left₀ hpos h1 n),
        (pow_le_pow_left₀ (hpos.trans h1) h2 n).trans (hu _)⟩
    · simp only [hpos, if_false]
      by_cases hneg : ah ≤ 0
      · simp only [hneg, if_true, interval.contains, Dbl.fin_le_fin]
        exact ⟨(hd _).trans (even_pow_le_of_nonpos hn h2 hneg),
          (even_pow_le_of_nonpos hn h1 (h2.trans hneg)).trans (hu _)⟩
      · simp only [hneg, if_false, interval.contains, Dbl.fin_le_fin, Dbl.max_fin, le_max_iff]
        refine ⟨hn.pow_nonneg a, ?_⟩
        rcases le_total 0 a with ha0 | ha0
        · exact Or.inl ((pow_le_pow_left₀ ha0 h2 n).trans (hu _))
        · exact Or.inr ((even_pow_le_of_nonpos hn h1 ha0).trans (hu _))
  · have hn : Odd n := Nat.odd_iff.mpr (by omega)
    simp only [hev, if_false, interval.contains, Dbl.fin_le_fin]
    exact ⟨(hd _).trans (odd_pow_le hn h1), (odd_pow_le hn h2).trans (hu _)⟩

/-- C5: soundness of `pow` in exact arithmetic.  For an interval with finite
bounds, a point `a` of it and any `n`, the power `a^n` lies in `pow(A,n)`,
with `round_down` and `round_up` the bias corrections of the code. -/
theorem pow_sound (al ah a : K) (n : Nat)
    (ha : interval.contains ⟨Dbl.fin al, Dbl.fin ah⟩ a) :
    (interval.pow Rounding.exact ⟨Dbl.fin al, Dbl.fin ah⟩ n).contains (a ^ n) :=
  pow_encloses n ha

/-- C5 at a concrete input: `-3/2` lies in `[-2,1]` and its square lies in
`pow([-2,1],2)`, whose lower bound is `0`. -/
theorem pow_sound_witness :
    interval.contains (⟨Dbl.fin (-2), Dbl.fin 1⟩ : interval ℚ) (-3 / 2) ∧
    (interval.pow Rounding.exact (⟨Dbl.fin (-2), Dbl.fin 1⟩ : interval ℚ) 2).left = Dbl.fin 0 ∧
    (interval.pow Rounding.exact (⟨Dbl.fin (-2), Dbl.fin 1⟩ : interval ℚ) 2).contains
      ((-3 / 2) ^ 2) :=
  have ha : interval.contains (⟨Dbl.fin (-2), Dbl.fin 1⟩ : interval ℚ) (-3 / 2) := by
    norm_num [interval.contains]
  ⟨ha, by norm_num [interval.pow], pow_sound (-2) 1 (-3 / 2) 2 ha⟩

/-- C7 (refuted as stated): `[0,1]` is enclosed in `[-1,1]`, but
`pow([0,1],2)` has the negative lower bound `round_down(0)` while
`pow([-1,1],2)` has lower bound `0`, so it is not enclosed in it. -/
theorem pow_monotone_counterexample :
    interval.subset (⟨Dbl.fin 0, Dbl.fin 1⟩ : interval ℚ) ⟨Dbl.fin (-1), Dbl.fin 1⟩ ∧
    (interval.pow Rounding.exact (⟨Dbl.fin (-1), Dbl.fin 1⟩ : interval ℚ) 2).left = Dbl.fin 0 ∧
    (interval.pow Rounding.exact (⟨Dbl.fin 0, Dbl.fin 1⟩ : interval ℚ) 2).left =
      Dbl.fin (-Dbl.minPositive) ∧
    ¬ interval.subset (interval.pow Rounding.exact (⟨Dbl.fin 0, Dbl.fin 1⟩ : interval ℚ) 2)
      (interval.pow Rounding.exact ⟨Dbl.fin (-1), Dbl.fin 1⟩ 2) := by
  have hl : (interval.pow Rounding.exact (⟨Dbl.fin 0, Dbl.fin 1⟩ : interval ℚ) 2).left =
      Dbl.fin (-Dbl.minPositive) := by
    simp [interval.pow, pow_exact_fin, round_down_exact]
  have hl2 : (interval.pow Rounding.exact (⟨Dbl.fin (-1), Dbl.fin 1⟩ : interval ℚ) 2).left =
      Dbl.fin 0 := by
    norm_num [interval.pow]
  refine ⟨by norm_num [interval.subset], hl2, hl, ?_⟩
  intro h
  have h1 := h.1
  rw [hl, hl2, Dbl.fin_le_fin] at h1
  have := minPositive_pos (K := ℚ)
  linarith

/-- C7 (amended): for non-empty finite `A` enclosed in `A2` and any `n`, in
exact arithmetic, the upper bound of `pow(A,n)` never exceeds that of
`pow(A2,n)`; the lower bound of `pow(A2,n)` does not exceed that of
`pow(A,n)` unless `n` is even and at least 2, `A2` straddles zero, `A` does
not, and the lower bound of `pow(A,n)` is negative. -/
theorem pow_monotone_amended (al ah al2 ah2 : K) (n : Nat) (hA : al ≤ ah)
    (hAA : interval.subset (⟨Dbl.fin al, Dbl.fin ah⟩ : interval K) ⟨Dbl.fin al2, Dbl.fin ah2⟩) :
    (interval.pow Rounding.exact ⟨Dbl.fin al, Dbl.fin ah⟩ n).right ≤
      (interval.pow Rounding.exact ⟨Dbl.fin al2, Dbl.fin ah2⟩ n).right ∧
    ((n % 2 = 0 → 2 ≤ n → al2 < 0 → 0 < ah2 →
        (al < 0 ∧ 0 < ah) ∨
          Dbl.fin 0 ≤ (interval.pow Rounding.exact ⟨Dbl.fin al, Dbl.fin ah⟩ n).left) →
      (interval.pow Rounding.exact ⟨Dbl.fin al2, Dbl.fin ah2⟩ n).left ≤
        (interval.pow Rounding.exact ⟨Dbl.fin al, Dbl.fin ah⟩ n).left) := by
  obtain ⟨h1, h2⟩ := hAA
  simp only [Dbl.fin_le_fin] at h1 h2
  by_cases h0 : n = 0
  · subst h0
    simp [interval.pow, interval.ofDouble]
  by_cases hn1 : n = 1
  · subst hn1
    simp [interval.pow, h1, h2]
  by_cases hev : n % 2 = 0
  · have hn : Even n := Nat.even_iff.mpr hev
    have hn2 : 2 ≤ n := by omega
    by_cases hpos2 : 0 ≤ al2
    · have hpos : 0 ≤ al := hpos2.trans h1
      simp only [interval.pow, h0, hn1, hev, if_false, if_true, pow_exact_fin _ h0,
        round_down_exact, round_up_exact, ge_iff_le, Dbl.fin_le_fin, hpos, hpos2]
      exact ⟨bias_up_mono (pow_le_pow_left₀ (hpos.trans hA) h2 n),
        fun _ => bias_down_mono (pow_le_pow_left₀ hpos2 h1 n)⟩
    · by_cases hneg2 : ah2 ≤ 0
      · by_cases hpos : 0 ≤ al
        · have e1 : al = 0 := le_antisymm (hA.trans (h2.trans hneg2)) hpos
          have e2 : ah = 0 := le_antisymm (h2.trans hneg2) (hpos.trans hA)
          have e3 : ah2 = 0 := le_antisymm hneg2 (by rw [← e2]; exact h2)
          subst e1 e2 e3
          refine ⟨?_, fun _ => ?_⟩
          · simp only [interval.pow, h0, hn1, hev, if_false, if_true, pow_exact_fin _ h0,
              round_up_exact, ge_iff_le, Dbl.fin_le_fin, hpos2, le_refl]
            exact bias_up_mono (by rw [zero_pow h0]; exact hn.pow_nonneg al2)
          · simp only [interval.pow, h0, hn1, hev, if_false, if_true, pow_exact_fin _ h0,
              round_down_exact, ge_iff_le, Dbl.fin_le_fin, hpos2, le_refl]
        · have hneg : ah ≤ 0 := h2.trans hneg2
          simp only [interval.pow, h0, hn1, hev, if_false, if_true, pow_exact_fin _ h0,
            round_down_exact, round_up_exact, ge_iff_le, Dbl.fin_le_fin, hpos, hpos2, hneg, hneg2]
          exact ⟨bias_up_mono (even_pow_le_of_nonpos hn h1 (hA.trans hneg)),
            fun _ => bias_down_mono (even_pow_le_of_nonpos hn h2 hneg2)⟩
      · have hl2 : (interval.pow Rounding.exact (⟨Dbl.fin al2, Dbl.fin ah2⟩ : interval K) n).left
            = Dbl.fin 0 := by
          simp only [interval.pow, h0, hn1, hev, if_false, if_true, ge_iff_le, Dbl.fin_le_fin,
            hpos2, hneg2]
        have hr2 : (interval.pow Rounding.exact (⟨Dbl.fin al2, Dbl.fin ah2⟩ : interval K) n).right
            = Dbl.fin (Max.max
                (if ah2 ^ n < 0 then nsmall * ah2 ^ n + Dbl.minPositive
                  else psmall * ah2 ^ n + Dbl.minPositive)
                (if al2 ^ n < 0 then nsmall * al2 ^ n + Dbl.minPositive
                  else psmall * al2 ^ n + Dbl.minPositive)) := by
          simp only [interval.pow, h0, hn1, hev, if_false, if_true, ge_iff_le, Dbl.fin_le_fin,
            hpos2, hneg2, pow_exact_fin _ h0, round_up_exact, Dbl.max_fin]
        rw [hl2, hr2]
        have hal2 : al2 < 0 := not_le.mp hpos2
        have hah2 : 0 < ah2 := not_le.mp hneg2
        by_cases hpos : 0 ≤ al
        · refine ⟨?_, fun hc => ?_⟩
          · simp only [interval.pow, h0, hn1, hev, if_false, if_true, pow_exact_fin _ h0,
              round_up_exact, ge_iff_le, Dbl.fin_le_fin, hpos, le_max_iff]
            exact Or.inl (bias_up_mono (pow_le_pow_left₀ (hpos.trans hA) h2 n))
          · rcases hc hev hn2 hal2 hah2 with hc | hc
            · exact absurd hc.1 (not_lt.mpr hpos)
            · exact hc
        · by_cases hneg : ah ≤ 0
          · refine ⟨?_, fun hc => ?_⟩
            · simp only [interval.pow, h0, hn1, hev, if_false, if_true, pow_exact_fin _ h0,
                round_up_exact, ge_iff_le, Dbl.fin_le_fin, hpos, hneg, le_max_iff]
              exact Or.inr (bias_up_mono (even_pow_le_of_nonpos hn h1 (hA.trans hneg)))
            · rcases hc hev hn2 hal2 hah2 with hc | hc
              · exact absurd hc.2 (not_lt.mpr hneg)
              · exact hc
          · refine ⟨?_, fun _ => ?_⟩
            · simp only [interval.pow, h0, hn1, hev, if_false, if_true, pow_exact_fin _ h0,
                round_up_exact, ge_iff_le, Dbl.fin_le_fin, hpos, hneg, Dbl.max_fin]
              exact max_le_max (bias_up_mono (pow_le_pow_left₀ (not_le.mp hneg).le h2 n))
                (bias_up_mono (even_pow_le_of_nonpos hn h1 (not_le.mp hpos).le))
            · simp only [interval.pow, h0, hn1, hev, if_false, if_true,
                ge_iff_le, Dbl.fin_le_fin, hpos, hneg, le_refl]
  · have hn : Odd n := Nat.odd_iff.mpr (by omega)
    simp only [interval.pow, h0, hn1, hev, if_false, pow_exact_fin _ h0,
      round_down_exact, round_up_exact, Dbl.fin_le_fin]
    exact ⟨bias_up_mono (odd_pow_le hn h2), fun _ => bias_down_mono (odd_pow_le hn h1)⟩

/-- C7 (amended) at a concrete input: `[1,2]` in `[0,3]`, squared. -/
theorem pow_monotone_amended_witness :
    ((1 : ℚ) ≤ 2 ∧
      interval.subset (⟨Dbl.fin 1, Dbl.fin 2⟩ : interval ℚ) ⟨Dbl.fin 0, Dbl.fin 3⟩) ∧
    (interval.pow Rounding.exact (⟨Dbl.fin 1, Dbl.fin 2⟩ : interval ℚ) 2).right ≤
      (interval.pow Rounding.exact (⟨Dbl.fin 0, Dbl.fin 3⟩ : interval ℚ) 2).right ∧
    (interval.pow Rounding.exact (⟨Dbl.fin 0, Dbl.fin 3⟩ : interval ℚ) 2).left ≤
      (interval.pow Rounding.exact (⟨Dbl.fin 1, Dbl.fin 2⟩ : interval ℚ) 2).left :=
  have hs : interval.subset (⟨Dbl.fin 1, Dbl.fin 2⟩ : interval ℚ) ⟨Dbl.fin 0, Dbl.fin 3⟩ := by
    norm_num [interval.subset]
  have h := pow_monotone_amended (1 : ℚ) 2 0 3 2 (by norm_num) hs
  ⟨⟨by norm_num, hs⟩, h.1, h.2 (fun _ _ h0 _ => absurd h0 (lt_irrefl 0))⟩

end Pow

/-! ### Width -/

section Width

variable {K : Type} [LinearOrderedField K]

/-- C10 (refuted as stated): with a NaN left bound and a finite right bound
`lo > hi` is false and yet `width()` is NaN. -/
theorem width_nan_iff_empty_counterexample :
    Dbl.isnan (interval.width Rounding.exact (⟨Dbl.nan, Dbl.fin 0⟩ : interval ℚ)) = true ∧
    ¬ ((Dbl.nan : Dbl ℚ) > Dbl.fin 0) := by
  decide

/-- C10 (amended): over all doubles and under any rounding, `width()` is NaN
exactly when `lo > hi`, or when a bound is NaN and no bound is infinite; and
for finite `l <= r` the width is the rounded difference `r - l`, which is
`r - l` in exact arithmetic. -/
theorem width_nan_iff (R : Rounding K) (lo hi : Dbl K) :
    (Dbl.isnan (interval.width R ⟨lo, hi⟩) = true ↔
      (lo > hi ∨ ((Dbl.isnan lo = true ∨ Dbl.isnan hi = true) ∧
        Dbl.isinf lo = false ∧ Dbl.isinf hi = false))) ∧
    (∀ l r : K, lo = Dbl.fin l → hi = Dbl.fin r → l ≤ r →
      interval.width R ⟨lo, hi⟩ = Dbl.fin (R.rnd RoundMode.nearest (r - l)) ∧
      interval.width Rounding.exact ⟨lo, hi⟩ = Dbl.fin (r - l)) := by
  constructor
  · cases lo <;> cases hi <;>
      simp [interval.width, interval.empty, Dbl.isnan, Dbl.isinf, Dbl.sub,
        GT.gt, LT.lt, Dbl.lt]
    rename_i a b
    by_cases hab : b < a <;> simp [hab, Dbl.isnan]
  · intro l r hl hr hlr
    subst hl hr
    have hnot : ¬ (r < l) := not_lt.mpr hlr
    simp [interval.width, interval.empty, Dbl.isinf, Dbl.sub, GT.gt, LT.lt,
      Dbl.lt, hnot, Rounding.exact]

/-- C10 (amended) at a concrete input: the width of `[1,3]` is `2`. -/
theorem width_nan_iff_witness :
    (1 : ℚ) ≤ 3 ∧
    interval.width Rounding.exact (⟨Dbl.fin 1, Dbl.fin 3⟩ : interval ℚ) = Dbl.fin (3 - 1) :=
  ⟨by norm_num,
    ((width_nan_iff Rounding.exact (Dbl.fin (1 : ℚ)) (Dbl.fin 3)).2 1 3 rfl rfl
      (by norm_num)).2⟩

end Width

/-- An element of `takeWhile p l` satisfies `p` and belongs to `l`. -/
theorem of_mem_takeWhile {α : Type} {p : α → Bool} {l : List α} {r : α}
    (h : r ∈ l.takeWhile p) : p r = true ∧ r ∈ l := by
  induction l with
  | nil => simp at h
  | cons e rest ih =>
    by_cases hp : p e = true
    · rw [List.takeWhile_cons_of_pos hp] at h
      rcases List.mem_cons.mp h with rfl | h
      · exact ⟨hp, List.mem_cons_self _ _⟩
      · exact ⟨(ih h).1, List.mem_cons_of_mem _ (ih h).2⟩
    · rw [List.takeWhile_cons_of_neg hp] at h
      simp at h

section Search

variable {K : Type} [LinearOrderedField K]

namespace minimizer_list

theorem take_lower_bound (ml : minimizer_list K) (key : minimizer K) :
    ml.take (lower_bound ml key) = ml.takeWhile (fun e => less_minimizer e key) := by
  induction ml with
  | nil => rfl
  | cons e rest ih =>
    by_cases h : less_minimizer e key = true
    · simp [lower_bound, h, List.takeWhile, ih]
    · simp [lower_bound, h, List.takeWhile]

/-- The call pair `lower_bound` / `erase(.., end())` keeps the longest prefix
of elements `e` with `less_minimizer(e, key)`. -/
theorem erase_lower_bound (ml : minimizer_list K) (key : minimizer K) :
    erase ml (lower_bound ml key) ml.length =
      ml.takeWhile (fun e => less_minimizer e key) := by
  simp [erase, take_lower_bound]

theorem mem_insert (ml : minimizer_list K) (v r : minimizer K) :
    r ∈ insert ml v ↔ r = v ∨ r ∈ ml := by
  induction ml with
  | nil => simp [insert]
  | cons e rest ih =>
    by_cases h : less_minimizer v e = true
    · simp [insert, h]
    · simp only [insert, h, Bool.false_eq_true, if_false, List.mem_cons, ih]
      tauto

theorem sorted_takeWhile {ml : minimizer_list K} (hs : sorted ml) (p : minimizer K → Bool) :
    sorted (ml.takeWhile p) :=
  List.Pairwise.sublist (List.takeWhile_sublist p) hs

/-- On a sorted collection the prefix kept by the improve step is the whole
set of records with `lbmin <= k`. -/
theorem takeWhile_eq_filter {ml : minimizer_list K} (hs : sorted ml) (k : Dbl K) :
    ml.takeWhile (fun e => decide (e.lbmin ≤ k)) = ml.filter (fun e => decide (e.lbmin ≤ k)) := by
  induction ml with
  | nil => rfl
  | cons e rest ih =>
    have hs2 := List.pairwise_cons.mp hs
    by_cases h : e.lbmin ≤ k
    · simp only [List.takeWhile_cons, List.filter_cons, h, decide_True, if_true]
      rw [ih hs2.2]
    · simp only [List.takeWhile_cons, List.filter_cons, h, decide_False, Bool.false_eq_true,
        if_false]
      symm
      rw [List.filter_eq_nil_iff]
      intro r hr hrk
      exact h (Dbl.le_transD (hs2.1 r hr) (of_decide_eq_true hrk))

theorem sorted_insert {ml : minimizer_list K} (hs : sorted ml)
    (hn : ∀ e ∈ ml, e.lbmin ≠ Dbl.nan) {v : minimizer K} (hv : v.lbmin ≠ Dbl.nan) :
    sorted (insert ml v) := by
  induction ml with
  | nil => exact List.pairwise_singleton _ _
  | cons e rest ih =>
    have hs2 := List.pairwise_cons.mp hs
    by_cases h : v.lbmin ≤ e.lbmin
    · have h2 : less_minimizer v e = true := decide_eq_true h
      simp only [insert, h2, if_true]
      refine List.pairwise_cons.mpr ⟨?_, hs⟩
      intro r hr
      rcases List.mem_cons.mp hr with rfl | hr
      · exact h
      · exact Dbl.le_transD h (hs2.1 r hr)
    · have h2 : less_minimizer v e = false := decide_eq_false h
      simp only [insert, h2, Bool.false_eq_true, if_false]
      refine List.pairwise_cons.mpr ⟨?_, ih hs2.2 (fun r hr => hn r (List.mem_cons_of_mem _ hr))⟩
      intro r hr
      rcases (mem_insert rest v r).mp hr with rfl | hr
      · rcases Dbl.le_or_lt_of_not_nan hv (hn e (List.mem_cons_self _ _)) with h3 | h3
        · exact absurd h3 h
        · exact Dbl.le_of_ltD h3
      · exact hs2.1 r hr

end minimizer_list

theorem improve_of_lt {fxy : interval K} {s : SearchState K} (h : fxy.right < s.min_ub) :
    improve fxy s =
      ⟨fxy.right, s.ml.takeWhile (fun e => decide (e.lbmin ≤ fxy.right))⟩ := by
  simp only [improve, h, if_true, minimizer_list.erase_lower_bound]
  rfl

theorem improve_of_not_lt {fxy : interval K} {s : SearchState K} (h : ¬ fxy.right < s.min_ub) :
    improve fxy s = s := by
  simp only [improve, h, if_false]

theorem minimize_prune (R : Rounding K) (d : Nat) (f : itvfun K) (x y : interval K)
    (threshold : Dbl K) (s : SearchState K) (h : (f x y).left > s.min_ub) :
    minimize R d f x y threshold s = some s := by
  unfold minimize
  simp only [h, if_true]

theorem minimize_leaf_eq (R : Rounding K) (d : Nat) (f : itvfun K) (x y : interval K)
    (threshold : Dbl K) (s : SearchState K) (h : ¬ (f x y).left > s.min_ub)
    (hw : interval.width R x ≤ threshold) :
    minimize R d f x y threshold s =
      some ⟨(improve (f x y) s).min_ub,
        minimizer_list.insert (improve (f x y) s).ml ⟨x, y, (f x y).left, (f x y).right⟩⟩ := by
  unfold minimize
  simp only [h, hw, if_true, if_false]

theorem minimize_zero_eq (R : Rounding K) (f : itvfun K) (x y : interval K)
    (threshold : Dbl K) (s : SearchState K) (h : ¬ (f x y).left > s.min_ub)
    (hw : ¬ interval.width R x ≤ threshold) :
    minimize R 0 f x y threshold s = none := by
  unfold minimize
  simp only [h, hw, if_false]

theorem minimize_succ_eq (R : Rounding K) (d : Nat) (f : itvfun K) (x y : interval K)
    (threshold : Dbl K) (s : SearchState K) (h : ¬ (f x y).left > s.min_ub)
    (hw : ¬ interval.width R x ≤ threshold) :
    minimize R (d + 1) f x y threshold s =
      (minimize R d f (split_box R x y).1 (split_box R x y).2.2.1 threshold
        (improve (f x y) s)).bind fun s1 =>
      (minimize R d f (split_box R x y).1 (split_box R x y).2.2.2 threshold s1).bind fun s2 =>
      (minimize R d f (split_box R x y).2.1 (split_box R x y).2.2.1 threshold s2).bind fun s3 =>
      minimize R d f (split_box R x y).2.1 (split_box R x y).2.2.2 threshold s3 := by
  rw [minimize]
  simp only [h, hw, if_false]

theorem minimize_succ_some {R : Rounding K} {d : Nat} {f : itvfun K} {x y : interval K}
    {threshold : Dbl K} {s s' : SearchState K} (h : ¬ (f x y).left > s.min_ub)
    (hw : ¬ interval.width R x ≤ threshold)
    (hrun : minimize R (d + 1) f x y threshold s = some s') :
    ∃ s1 s2 s3,
      minimize R d f (split_box R x y).1 (split_box R x y).2.2.1 threshold
        (improve (f x y) s) = some s1 ∧
      minimize R d f (split_box R x y).1 (split_box R x y).2.2.2 threshold s1 = some s2 ∧
      minimize R d f (split_box R x y).2.1 (split_box R x y).2.2.1 threshold s2 = some s3 ∧
      minimize R d f (split_box R x y).2.1 (split_box R x y).2.2.2 threshold s3 = some s' := by
  rw [minimize_succ_eq R d f x y threshold s h hw] at hrun
  obtain ⟨s1, h1, hrun⟩ := Option.bind_eq_some.mp hrun
  obtain ⟨s2, h2, hrun⟩ := Option.bind_eq_some.mp hrun
  obtain ⟨s3, h3, hrun⟩ := Option.bind_eq_some.mp hrun
  exact ⟨s1, s2, s3, h1, h2, h3, hrun⟩

/-- A property of the search state that the improve step and the leaf
insertion both preserve holds after every call of `minimize` that returns. -/
theorem minimize_invariant (R : Rounding K) (f : itvfun K) (threshold : Dbl K)
    (Inv : SearchState K → Prop)
    (himp : ∀ x y s, Inv s → ¬ (f x y).left > s.min_ub → Inv (improve (f x y) s))
    (hins : ∀ x y s, Inv s → ¬ (f x y).left > s.min_ub → Inv (improve (f x y) s) →
      Inv ⟨(improve (f x y) s).min_ub,
        minimizer_list.insert (improve (f x y) s).ml ⟨x, y, (f x y).left, (f x y).right⟩⟩) :
    ∀ (d : Nat) (x y : interval K) (s s' : SearchState K),
      minimize R d f x y threshold s = some s' → Inv s → Inv s' := by
  intro d
  induction d with
  | zero =>
    intro x y s s' hrun hinv
    by_cases h : (f x y).left > s.min_ub
    · rw [minimize_prune R 0 f x y threshold s h] at hrun
      cases hrun; exact hinv
    · by_cases hw : interval.width R x ≤ threshold
      · rw [minimize_leaf_eq R 0 f x y threshold s h hw] at hrun
        cases hrun
        exact hins x y s hinv h (himp x y s hinv h)
      · rw [minimize_zero_eq R f x y threshold s h hw] at hrun
        cases hrun
  | succ d ih =>
    intro x y s s' hrun hinv
    by_cases h : (f x y).left > s.min_ub
    · rw [minimize_prune R (d + 1) f x y threshold s h] at hrun
      cases hrun; exact hinv
    · by_cases hw : interval.width R x ≤ threshold
      · rw [minimize_leaf_eq R (d + 1) f x y threshold s h hw] at hrun
        cases hrun
        exact hins x y s hinv h (himp x y s hinv h)
      · obtain ⟨s1, s2, s3, h1, h2, h3, h4⟩ := minimize_succ_some h hw hrun
        exact ih _ _ _ _ h4 (ih _ _ _ _ h3 (ih _ _ _ _ h2 (ih _ _ _ _ h1 (himp x y s hinv h))))

/-! ### Exact arithmetic on finite boxes -/

theorem mid_exact {l r : K} (h : l ≤ r) :
    interval.mid Rounding.exact ⟨Dbl.fin l, Dbl.fin r⟩ = Dbl.fin (1 / 2 * (l + r)) := by
  have hnot : ¬ (r < l) := not_lt.mpr h
  simp [interval.mid, interval.empty, GT.gt, LT.lt, Dbl.lt, hnot, Dbl.mul, Dbl.add,
    Rounding.exact, Dbl.isinf]

theorem width_exact {l r : K} (h : l ≤ r) :
    interval.width Rounding.exact ⟨Dbl.fin l, Dbl.fin r⟩ = Dbl.fin (r - l) := by
  have hnot : ¬ (r < l) := not_lt.mpr h
  simp [interval.width, interval.empty, GT.gt, LT.lt, Dbl.lt, hnot, Dbl.sub,
    Rounding.exact, Dbl.isinf]

theorem split_box_exact_x {l r : K} (h : l ≤ r) (y : interval K) :
    (split_box Rounding.exact ⟨Dbl.fin l, Dbl.fin r⟩ y).1 =
      ⟨Dbl.fin l, Dbl.fin (1 / 2 * (l + r))⟩ ∧
    (split_box Rounding.exact ⟨Dbl.fin l, Dbl.fin r⟩ y).2.1 =
      ⟨Dbl.fin (1 / 2 * (l + r)), Dbl.fin r⟩ := by
  simp [split_box, mid_exact h]

theorem split_box_exact_y (x : interval K) {l r : K} (h : l ≤ r) :
    (split_box Rounding.exact x ⟨Dbl.fin l, Dbl.fin r⟩).2.2.1 =
      ⟨Dbl.fin l, Dbl.fin (1 / 2 * (l + r))⟩ ∧
    (split_box Rounding.exact x ⟨Dbl.fin l, Dbl.fin r⟩).2.2.2 =
      ⟨Dbl.fin (1 / 2 * (l + r)), Dbl.fin r⟩ := by
  simp [split_box, mid_exact h]

/-- In exact arithmetic `minimize` returns within depth `d` as soon as the
x-width divided by `2^d` is at most the threshold. -/
theorem minimize_returns (f : itvfun K) (threshold : Dbl K) :
    ∀ (d : Nat) (l r : K) (y : interval K) (s : SearchState K), l ≤ r →
      Dbl.fin ((r - l) / 2 ^ d) ≤ threshold →
      ∃ s', minimize Rounding.exact d f ⟨Dbl.fin l, Dbl.fin r⟩ y threshold s = some s' := by
  intro d
  induction d with
  | zero =>
    intro l r y s hlr hw
    by_cases h : (f ⟨Dbl.fin l, Dbl.fin r⟩ y).left > s.min_ub
    · exact ⟨s, minimize_prune _ _ _ _ _ _ _ h⟩
    · have hw2 : interval.width Rounding.exact ⟨Dbl.fin l, Dbl.fin r⟩ ≤ threshold := by
        rw [width_exact hlr]; simpa using hw
      exact ⟨_, minimize_leaf_eq _ _ _ _ _ _ _ h hw2⟩
  | succ d ih =>
    intro l r y s hlr hw
    by_cases h : (f ⟨Dbl.fin l, Dbl.fin r⟩ y).left > s.min_ub
    · exact ⟨s, minimize_prune _ _ _ _ _ _ _ h⟩
    · by_cases hw2 : interval.width Rounding.exact ⟨Dbl.fin l, Dbl.fin r⟩ ≤ threshold
      · exact ⟨_, minimize_leaf_eq _ _ _ _ _ _ _ h hw2⟩
      · rw [minimize_succ_eq _ _ _ _ _ _ _ h hw2]
        obtain ⟨e1, e2⟩ := split_box_exact_x hlr y
        rw [e1, e2]
        have hm1 : l ≤ 1 / 2 * (l + r) := by linarith only [hlr]
        have hm2 : 1 / 2 * (l + r) ≤ r := by linarith only [hlr]
        have hwl : Dbl.fin ((1 / 2 * (l + r) - l) / 2 ^ d) ≤ threshold := by
          have : (1 / 2 * (l + r) - l) / 2 ^ d = (r - l) / 2 ^ (d + 1) := by
            rw [pow_succ]; field_simp; ring
          rw [this]; exact hw
        have hwr : Dbl.fin ((r - 1 / 2 * (l + r)) / 2 ^ d) ≤ threshold := by
          have : (r - 1 / 2 * (l + r)) / 2 ^ d = (r - l) / 2 ^ (d + 1) := by
            rw [pow_succ]; field_simp; ring
          rw [this]; exact hw
        obtain ⟨s1, h1⟩ := ih l _ (split_box Rounding.exact ⟨Dbl.fin l, Dbl.fin r⟩ y).2.2.1
          (improve (f ⟨Dbl.fin l, Dbl.fin r⟩ y) s) hm1 hwl
        obtain ⟨s2, h2⟩ := ih l _ (split_box Rounding.exact ⟨Dbl.fin l, Dbl.fin r⟩ y).2.2.2
          s1 hm1 hwl
        obtain ⟨s3, h3⟩ := ih _ r (split_box Rounding.exact ⟨Dbl.fin l, Dbl.fin r⟩ y).2.2.1
          s2 hm2 hwr
        obtain ⟨s4, h4⟩ := ih _ r (split_box Rounding.exact ⟨Dbl.fin l, Dbl.fin r⟩ y).2.2.2
          s3 hm2 hwr
        exact ⟨s4, by simp only [h1, h2, h3, h4, Option.some_bind]⟩

/-- A run that returns within depth `d` returns the same state within depth
`d + 1`. -/
theorem minimize_succ_of_some (R : Rounding K) (f : itvfun K) (threshold : Dbl K) :
    ∀ (d : Nat) (x y : interval K) (s s' : SearchState K),
      minimize R d f x y threshold s = some s' →
      minimize R (d + 1) f x y threshold s = some s' := by
  intro d
  induction d with
  | zero =>
    intro x y s s' hrun
    by_cases h : (f x y).left > s.min_ub
    · rw [minimize_prune R 0 f x y threshold s h] at hrun
      rw [minimize_prune R 1 f x y threshold s h]; exact hrun
    · by_cases hw : interval.width R x ≤ threshold
      · rw [minimize_leaf_eq R 0 f x y threshold s h hw] at hrun
        rw [minimize_leaf_eq R 1 f x y threshold s h hw]; exact hrun
      · rw [minimize_zero_eq R f x y threshold s h hw] at hrun
        cases hrun
  | succ d ih =>
    intro x y s s' hrun
    by_cases h : (f x y).left > s.min_ub
    · rw [minimize_prune R (d + 1) f x y threshold s h] at hrun
      rw [minimize_prune R (d + 1 + 1) f x y threshold s h]; exact hrun
    · by_cases hw : interval.width R x ≤ threshold
      · rw [minimize_leaf_eq R (d + 1) f x y threshold s h hw] at hrun
        rw [minimize_leaf_eq R (d + 1 + 1) f x y threshold s h hw]; exact hrun
      · obtain ⟨s1, s2, s3, h1, h2, h3, h4⟩ := minimize_succ_some h hw hrun
        rw [minimize_succ_eq R (d + 1) f x y threshold s h hw]
        simp only [ih _ _ _ _ h1, ih _ _ _ _ h2, ih _ _ _ _ h3, ih _ _ _ _ h4, Option.some_bind]

/-- A run that returns within depth `d` returns the same state within any
larger depth. -/
theorem minimize_of_le (R : Rounding K) (f : itvfun K) (threshold : Dbl K)
    {d : Nat} {x y : interval K} {s s' : SearchState K}
    (hrun : minimize R d f x y threshold s = some s') :
    ∀ d2, d ≤ d2 → minimize R d2 f x y threshold s = some s' := by
  intro d2 hd
  induction hd with
  | refl => exact hrun
  | step _ ih => exact minimize_succ_of_some R f threshold _ x y s s' ih

/-- The x-width divided by two to the power `depthBound` is at most a positive
threshold. -/
theorem depthBound_spec [FloorRing K] (w : K) {threshold : Dbl K}
    (ht : Dbl.fin 0 < threshold) :
    Dbl.fin (w / 2 ^ depthBound w threshold) ≤ threshold := by
  cases threshold with
  | nan => exact absurd ht (Dbl.not_lt_nan _)
  | ninf => exact absurd ht (Dbl.not_lt_ninf _)
  | pinf => exact Dbl.fin_le_pinf _
  | fin t =>
    have ht0 : (0 : K) < t := ht
    show w / 2 ^ Nat.clog 2 ⌈w / t⌉₊ ≤ t
    have h1 : w / t ≤ (⌈w / t⌉₊ : K) := Nat.le_ceil _
    have h2 : ((⌈w / t⌉₊ : Nat) : K) ≤ ((2 ^ Nat.clog 2 ⌈w / t⌉₊ : Nat) : K) :=
      Nat.cast_le.mpr (Nat.le_pow_clog (by norm_num) _)
    have h3 : w / t ≤ (2 : K) ^ Nat.clog 2 ⌈w / t⌉₊ := by
      have := h1.trans h2
      simpa using this
    have hp : (0 : K) < 2 ^ Nat.clog 2 ⌈w / t⌉₊ := by positivity
    rw [div_le_iff₀ hp]
    rw [div_le_iff₀ ht0] at h3
    linarith [mul_comm t ((2 : K) ^ Nat.clog 2 ⌈w / t⌉₊)]

/-- For a positive finite threshold `t`, `depthBound w t` is the least `n`
with `w <= t * 2^n`, that is `max(0, ceil(log2(w / t)))`. -/
theorem depthBound_le_iff [FloorRing K] (w : K) {t : K} (ht : 0 < t) (n : Nat) :
    depthBound w (Dbl.fin t) ≤ n ↔ w ≤ t * 2 ^ n := by
  show Nat.clog 2 ⌈w / t⌉₊ ≤ n ↔ w ≤ t * 2 ^ n
  rw [← Nat.le_pow_iff_clog_le (by norm_num : 1 < 2), Nat.ceil_le, div_le_iff₀ ht]
  push_cast
  rw [mul_comm]

end Search

section Claims
variable {K : Type} [LinearOrderedField K]

/-- C3 (refuted as stated): a sorted collection holding one record with
`lbmin = 1`, `min_ub = 2` and a box evaluated to `[0,1]`: the improve step
lowers `min_ub` to `1` and keeps the record, whose `lbmin >= min_ub`. -/
theorem improve_eviction_counterexample :
    minimizer_list.sorted
      ([⟨interval.ofDouble (Dbl.fin 0), interval.ofDouble (Dbl.fin 0), Dbl.fin 1, Dbl.fin 2⟩] :
        minimizer_list ℚ) ∧
    (⟨Dbl.fin 0, Dbl.fin 1⟩ : interval ℚ).right < Dbl.fin 2 ∧
    ∃ r ∈ (improve (⟨Dbl.fin 0, Dbl.fin 1⟩ : interval ℚ)
        ⟨Dbl.fin 2, [⟨interval.ofDouble (Dbl.fin 0), interval.ofDouble (Dbl.fin 0),
          Dbl.fin 1, Dbl.fin 2⟩]⟩).ml,
      r.lbmin ≥ (improve (⟨Dbl.fin 0, Dbl.fin 1⟩ : interval ℚ)
        ⟨Dbl.fin 2, [⟨interval.ofDouble (Dbl.fin 0), interval.ofDouble (Dbl.fin 0),
          Dbl.fin 1, Dbl.fin 2⟩]⟩).min_ub := by
  decide

/-- C3 (amended): for a sorted collection and an evaluation `fxy` with
`fxy.right < min_ub`, the improve step sets `min_ub` to `fxy.right` and every
record it leaves has `lbmin <= min_ub`; none has `lbmin > min_ub`. -/
theorem improve_evicts_greater (fxy : interval K) (s : SearchState K)
    (_hs : minimizer_list.sorted s.ml) (h : fxy.right < s.min_ub) :
    (improve fxy s).min_ub = fxy.right ∧
    ∀ r ∈ (improve fxy s).ml,
      r.lbmin ≤ (improve fxy s).min_ub ∧ ¬ (r.lbmin > (improve fxy s).min_ub) := by
  rw [improve_of_lt h]
  refine ⟨rfl, fun r hr => ?_⟩
  have h1 : r.lbmin ≤ fxy.right :=
    of_decide_eq_true (of_mem_takeWhile hr).1
  exact ⟨h1, Dbl.not_lt_of_leD h1⟩

/-- C3 (amended) at a concrete input: records with `lbmin` 0, 1, 3 and
`min_ub = 4`, improved by an evaluation `[0,1]`: the record with `lbmin = 3`
goes, the two others stay. -/
theorem improve_evicts_greater_witness :
    (minimizer_list.sorted
      ([⟨interval.ofDouble (Dbl.fin 0), interval.ofDouble (Dbl.fin 0), Dbl.fin 0, Dbl.fin 4⟩,
        ⟨interval.ofDouble (Dbl.fin 0), interval.ofDouble (Dbl.fin 0), Dbl.fin 1, Dbl.fin 4⟩,
        ⟨interval.ofDouble (Dbl.fin 0), interval.ofDouble (Dbl.fin 0), Dbl.fin 3, Dbl.fin 4⟩] :
        minimizer_list ℚ) ∧
      (⟨Dbl.fin 0, Dbl.fin 1⟩ : interval ℚ).right < Dbl.fin 4) ∧
    (improve (⟨Dbl.fin 0, Dbl.fin 1⟩ : interval ℚ)
      ⟨Dbl.fin 4,
        [⟨interval.ofDouble (Dbl.fin 0), interval.ofDouble (Dbl.fin 0), Dbl.fin 0, Dbl.fin 4⟩,
        ⟨interval.ofDouble (Dbl.fin 0), interval.ofDouble (Dbl.fin 0), Dbl.fin 1, Dbl.fin 4⟩,
        ⟨interval.ofDouble (Dbl.fin 0), interval.ofDouble (Dbl.fin 0), Dbl.fin 3, Dbl.fin 4⟩]⟩).ml =
      [⟨interval.ofDouble (Dbl.fin 0), interval.ofDouble (Dbl.fin 0), Dbl.fin 0, Dbl.fin 4⟩,
        ⟨interval.ofDouble (Dbl.fin 0), interval.ofDouble (Dbl.fin 0), Dbl.fin 1, Dbl.fin 4⟩] ∧
    ∀ r ∈ (improve (⟨Dbl.fin 0, Dbl.fin 1⟩ : interval ℚ)
      ⟨Dbl.fin 4,
        [⟨interval.ofDouble (Dbl.fin 0), interval.ofDouble (Dbl.fin 0), Dbl.fin 0, Dbl.fin 4⟩,
        ⟨interval.ofDouble (Dbl.fin 0), interval.ofDouble (Dbl.fin 0), Dbl.fin 1, Dbl.fin 4⟩,
        ⟨interval.ofDouble (Dbl.fin 0), interval.ofDouble (Dbl.fin 0), Dbl.fin 3, Dbl.fin 4⟩]⟩).ml,
      r.lbmin ≤ (improve (⟨Dbl.fin 0, Dbl.fin 1⟩ : interval ℚ)
        ⟨Dbl.fin 4,
          [⟨interval.ofDouble (Dbl.fin 0), interval.ofDouble (Dbl.fin 0), Dbl.fin 0, Dbl.fin 4⟩,
          ⟨interval.ofDouble (Dbl.fin 0), interval.ofDouble (Dbl.fin 0), Dbl.fin 1, Dbl.fin 4⟩,
          ⟨interval.ofDouble (Dbl.fin 0), interval.ofDouble (Dbl.fin 0), Dbl.fin 3, Dbl.fin 4⟩]⟩).min_ub
      ∧ ¬ (r.lbmin > (improve (⟨Dbl.fin 0, Dbl.fin 1⟩ : interval ℚ)
        ⟨Dbl.fin 4,
          [⟨interval.ofDouble (Dbl.fin 0), interval.ofDouble (Dbl.fin 0), Dbl.fin 0, Dbl.fin 4⟩,
          ⟨interval.ofDouble (Dbl.fin 0), interval.ofDouble (Dbl.fin 0), Dbl.fin 1, Dbl.fin 4⟩,
          ⟨interval.ofDouble (Dbl.fin 0), interval.ofDouble (Dbl.fin 0), Dbl.fin 3, Dbl.fin 4⟩]⟩).min_ub) :=
  ⟨⟨by decide, by decide⟩, by decide,
    (improve_evicts_greater (⟨Dbl.fin 0, Dbl.fin 1⟩ : interval ℚ) _ (by decide) (by decide)).2⟩

/-- C9: a box whose x-width is at most the threshold is a leaf.  Started from
`(+infinity, empty)`, whatever the objective and already with depth budget 0
(no recursive call), `minimize` returns the single record
`{x, y, f(x,y).lo, f(x,y).hi}`, with `min_ub = f(x,y).hi` when that is below
`+infinity` and `min_ub` unchanged otherwise. -/
theorem minimize_leaf_record (R : Rounding K) (d : Nat) (f : itvfun K) (x y : interval K)
    (threshold : Dbl K) (hw : interval.width R x ≤ threshold) :
    minimize R d f x y threshold SearchState.init =
      some ⟨if (f x y).right < Dbl.pinf then (f x y).right else Dbl.pinf,
        [⟨x, y, (f x y).left, (f x y).right⟩]⟩ := by
  have h : ¬ (f x y).left > SearchState.init.min_ub := Dbl.not_pinf_lt _
  rw [minimize_leaf_eq R d f x y threshold _ h hw]
  by_cases h2 : (f x y).right < Dbl.pinf
  · have h3 : (f x y).right < (SearchState.init : SearchState K).min_ub := h2
    rw [improve_of_lt h3]
    simp only [h2, if_true, SearchState.init, List.takeWhile_nil, minimizer_list.insert]
  · have h3 : ¬ (f x y).right < (SearchState.init : SearchState K).min_ub := h2
    rw [improve_of_not_lt h3]
    simp only [h2, if_false, SearchState.init, minimizer_list.insert]

/-- C9 at a concrete input: the degenerate box `[1,1] x [2,3]`, threshold 0,
objective `booth`, depth budget 0. -/
theorem minimize_leaf_record_witness :
    interval.width Rounding.exact (⟨Dbl.fin 1, Dbl.fin 1⟩ : interval ℚ) ≤ Dbl.fin 0 ∧
    minimize Rounding.exact 0 (booth Rounding.exact) (⟨Dbl.fin 1, Dbl.fin 1⟩ : interval ℚ)
        ⟨Dbl.fin 2, Dbl.fin 3⟩ (Dbl.fin 0) SearchState.init =
      some ⟨if (booth Rounding.exact (⟨Dbl.fin 1, Dbl.fin 1⟩ : interval ℚ)
            ⟨Dbl.fin 2, Dbl.fin 3⟩).right < Dbl.pinf
          then (booth Rounding.exact (⟨Dbl.fin 1, Dbl.fin 1⟩ : interval ℚ)
            ⟨Dbl.fin 2, Dbl.fin 3⟩).right
          else Dbl.pinf,
        [⟨⟨Dbl.fin 1, Dbl.fin 1⟩, ⟨Dbl.fin 2, Dbl.fin 3⟩,
          (booth Rounding.exact (⟨Dbl.fin 1, Dbl.fin 1⟩ : interval ℚ)
            ⟨Dbl.fin 2, Dbl.fin 3⟩).left,
          (booth Rounding.exact (⟨Dbl.fin 1, Dbl.fin 1⟩ : interval ℚ)
            ⟨Dbl.fin 2, Dbl.fin 3⟩).right⟩]⟩ :=
  have hw : interval.width Rounding.exact (⟨Dbl.fin 1, Dbl.fin 1⟩ : interval ℚ) ≤ Dbl.fin 0 := by
    rw [width_exact (le_refl _)]; norm_num
  ⟨hw, minimize_leaf_record Rounding.exact 0 (booth Rounding.exact) _ _ _ hw⟩

/-- C8: termination with the depth bound, in exact arithmetic.  For every
objective, every box whose x-interval `[l,r]` is finite and non-empty, every
threshold `> 0` and every initial state, `minimize` returns within recursion
depth `depthBound (r-l) threshold = max(0, ceil(log2((r-l)/threshold)))`, and
returns the same state under any larger depth budget; each x-interval
produced by `split_box` has width exactly `(r-l)/2`; and for a finite
threshold `t` the bound is the least `n` with `r - l <= t * 2^n`. -/
theorem minimize_terminates [FloorRing K] (f : itvfun K) (l r : K) (y : interval K)
    (threshold : Dbl K) (s : SearchState K) (hlr : l ≤ r) (ht : Dbl.fin 0 < threshold) :
    (∃ s', minimize Rounding.exact (depthBound (r - l) threshold) f
          ⟨Dbl.fin l, Dbl.fin r⟩ y threshold s = some s' ∧
        ∀ d, depthBound (r - l) threshold ≤ d →
          minimize Rounding.exact d f ⟨Dbl.fin l, Dbl.fin r⟩ y threshold s = some s') ∧
    interval.width Rounding.exact (split_box Rounding.exact ⟨Dbl.fin l, Dbl.fin r⟩ y).1 =
      Dbl.fin ((r - l) / 2) ∧
    interval.width Rounding.exact (split_box Rounding.exact ⟨Dbl.fin l, Dbl.fin r⟩ y).2.1 =
      Dbl.fin ((r - l) / 2) ∧
    (∀ (t : K) (n : Nat), threshold = Dbl.fin t →
      (depthBound (r - l) threshold ≤ n ↔ r - l ≤ t * 2 ^ n)) := by
  obtain ⟨s', hs'⟩ := minimize_returns f threshold (depthBound (r - l) threshold) l r y s hlr
    (depthBound_spec (r - l) ht)
  obtain ⟨e1, e2⟩ := split_box_exact_x hlr y
  refine ⟨⟨s', hs', minimize_of_le Rounding.exact f threshold hs'⟩, ?_, ?_, ?_⟩
  · rw [e1, width_exact (by linarith)]
    congr 1; ring
  · rw [e2, width_exact (by linarith)]
    congr 1; ring
  · intro t n e
    subst e
    exact depthBound_le_iff (r - l) ht n

/-- C8 at a concrete input: `booth` on `[0,1] x [0,1]` with threshold `1/4`
returns within depth `depthBound 1 (1/4) = 2`. -/
theorem minimize_terminates_witness :
    ((0 : ℚ) ≤ 1 ∧ (Dbl.fin 0 : Dbl ℚ) < Dbl.fin (1 / 4)) ∧
    depthBound ((1 : ℚ) - 0) (Dbl.fin (1 / 4)) = 2 ∧
    ∃ s', minimize Rounding.exact (depthBound ((1 : ℚ) - 0) (Dbl.fin (1 / 4)))
        (booth Rounding.exact) (⟨Dbl.fin 0, Dbl.fin 1⟩ : interval ℚ) ⟨Dbl.fin 0, Dbl.fin 1⟩
        (Dbl.fin (1 / 4)) SearchState.init = some s' :=
  have ht : (Dbl.fin 0 : Dbl ℚ) < Dbl.fin (1 / 4) := by
    rw [Dbl.fin_lt_fin]; norm_num
  have h := (minimize_terminates (booth Rounding.exact) (0 : ℚ) 1 ⟨Dbl.fin 0, Dbl.fin 1⟩
    (Dbl.fin (1 / 4)) SearchState.init (by norm_num) ht).1
  ⟨⟨by norm_num, ht⟩, by
      have e : ((1 : ℚ) - 0) / (1 / 4) = ((4 : ℕ) : ℚ) := by norm_num
      simp only [depthBound, e, Nat.ceil_natCast]
      exact Nat.clog_pow 2 2 (by norm_num),
    h.imp fun _ hs => hs.1⟩

/-- C2 (refuted as stated): with `min_ub = NaN` and an empty collection the
premise holds vacuously; the constant objective `[0,0]` (non-empty, NaN-free)
on a leaf box then inserts a record whose `lbmin <= min_ub` is false. -/
theorem minimize_lbmin_le_min_ub_counterexample :
    (∀ x y : interval ℚ,
      ((fun _ _ => ⟨Dbl.fin 0, Dbl.fin 0⟩ : itvfun ℚ) x y).empty = false ∧
      ((fun _ _ => ⟨Dbl.fin 0, Dbl.fin 0⟩ : itvfun ℚ) x y).left ≠ Dbl.nan ∧
      ((fun _ _ => ⟨Dbl.fin 0, Dbl.fin 0⟩ : itvfun ℚ) x y).right ≠ Dbl.nan) ∧
    (∀ r ∈ (⟨Dbl.nan, []⟩ : SearchState ℚ).ml, r.lbmin ≤ (⟨Dbl.nan, []⟩ : SearchState ℚ).min_ub) ∧
    minimize Rounding.exact 0 (fun _ _ => ⟨Dbl.fin 0, Dbl.fin 0⟩)
        (⟨Dbl.fin 0, Dbl.fin 0⟩ : interval ℚ) ⟨Dbl.fin 0, Dbl.fin 0⟩ (Dbl.fin 0) ⟨Dbl.nan, []⟩ =
      some ⟨Dbl.nan, [⟨⟨Dbl.fin 0, Dbl.fin 0⟩, ⟨Dbl.fin 0, Dbl.fin 0⟩, Dbl.fin 0, Dbl.fin 0⟩]⟩ ∧
    ¬ ((Dbl.fin 0 : Dbl ℚ) ≤ Dbl.nan) := by
  refine ⟨fun _ _ => by dsimp only; decide, fun r hr => by simp at hr, ?_, by decide⟩
  have hw : interval.width Rounding.exact (⟨Dbl.fin 0, Dbl.fin 0⟩ : interval ℚ) ≤ Dbl.fin 0 := by
    rw [width_exact (le_refl _)]; norm_num
  rw [minimize_leaf_eq _ _ _ _ _ _ _ (by decide) hw]
  rfl

/-- C2 (amended): for an objective that returns only non-empty, NaN-free
intervals and a state whose `min_ub` is not NaN, if every record has
`lbmin <= min_ub` before a call of `minimize`, then after the call returns
`min_ub` is still not NaN and every record has `lbmin <= min_ub` (any
rounding, any box, any threshold); and in exact arithmetic the run started
from `(+infinity, empty)` on a finite non-empty x-interval with a positive
threshold does return, in a state where every record has `lbmin <= min_ub`. -/
theorem minimize_lbmin_le_min_ub [FloorRing K] (f : itvfun K)
    (hf : ∀ x y, (f x y).empty = false ∧ (f x y).left ≠ Dbl.nan ∧ (f x y).right ≠ Dbl.nan)
    (threshold : Dbl K) :
    (∀ (R : Rounding K) (d : Nat) (x y : interval K) (s s' : SearchState K),
      s.min_ub ≠ Dbl.nan → (∀ r ∈ s.ml, r.lbmin ≤ s.min_ub) →
      minimize R d f x y threshold s = some s' →
      s'.min_ub ≠ Dbl.nan ∧ ∀ r ∈ s'.ml, r.lbmin ≤ s'.min_ub) ∧
    (∀ (l r : K) (y : interval K), l ≤ r → Dbl.fin 0 < threshold →
      ∃ s', minimize Rounding.exact (depthBound (r - l) threshold) f
          ⟨Dbl.fin l, Dbl.fin r⟩ y threshold SearchState.init = some s' ∧
        ∀ m ∈ s'.ml, m.lbmin ≤ s'.min_ub) := by
  have hle : ∀ x y, (f x y).left ≤ (f x y).right := by
    intro x y
    obtain ⟨h1, h2, h3⟩ := hf x y
    rcases Dbl.le_or_lt_of_not_nan h2 h3 with h | h
    · exact h
    · exact absurd (decide_eq_true (p := (f x y).left > (f x y).right) h)
        (by simpa [interval.empty] using h1)
  have key : ∀ (R : Rounding K) (d : Nat) (x y : interval K) (s s' : SearchState K),
      minimize R d f x y threshold s = some s' →
      (s.min_ub ≠ Dbl.nan ∧ ∀ r ∈ s.ml, r.lbmin ≤ s.min_ub) →
      (s'.min_ub ≠ Dbl.nan ∧ ∀ r ∈ s'.ml, r.lbmin ≤ s'.min_ub) := by
    intro R
    refine minimize_invariant R f threshold
      (fun s => s.min_ub ≠ Dbl.nan ∧ ∀ r ∈ s.ml, r.lbmin ≤ s.min_ub) ?_ ?_
    · intro x y s hinv _
      by_cases h : (f x y).right < s.min_ub
      · rw [improve_of_lt h]
        exact ⟨(hf x y).2.2, fun r hr => of_decide_eq_true (of_mem_takeWhile hr).1⟩
      · rw [improve_of_not_lt h]; exact hinv
    · intro x y s hinv hnp hinv1
      refine ⟨hinv1.1, fun r hr => ?_⟩
      rcases (minimizer_list.mem_insert _ _ r).mp hr with rfl | hr
      · show (f x y).left ≤ (improve (f x y) s).min_ub
        by_cases h : (f x y).right < s.min_ub
        · rw [improve_of_lt h]; exact hle x y
        · rw [improve_of_not_lt h]
          rcases Dbl.le_or_lt_of_not_nan (hf x y).2.1 hinv.1 with h2 | h2
          · exact h2
          · exact absurd h2 hnp
      · exact hinv1.2 r hr
  refine ⟨fun R d x y s s' hn hinv hrun => key R d x y s s' hrun ⟨hn, hinv⟩, ?_⟩
  intro l r y hlr ht
  obtain ⟨s', hs'⟩ := minimize_returns f threshold (depthBound (r - l) threshold) l r y
    SearchState.init hlr (depthBound_spec (r - l) ht)
  refine ⟨s', hs', (key _ _ _ _ _ _ hs' ⟨?_, ?_⟩).2⟩
  · simp [SearchState.init]
  · intro m hm; simp [SearchState.init] at hm

/-- C2 (amended) at a concrete input: the constant objective `[0,1]`, run on
`[0,1] x [0,1]` with threshold `1/2` from `(+infinity, empty)`. -/
theorem minimize_lbmin_le_min_ub_witness :
    (∀ x y : interval ℚ,
      ((fun _ _ => ⟨Dbl.fin 0, Dbl.fin 1⟩ : itvfun ℚ) x y).empty = false ∧
      ((fun _ _ => ⟨Dbl.fin 0, Dbl.fin 1⟩ : itvfun ℚ) x y).left ≠ Dbl.nan ∧
      ((fun _ _ => ⟨Dbl.fin 0, Dbl.fin 1⟩ : itvfun ℚ) x y).right ≠ Dbl.nan) ∧
    ∃ s', minimize Rounding.exact (depthBound ((1 : ℚ) - 0) (Dbl.fin (1 / 2)))
        (fun _ _ => ⟨Dbl.fin 0, Dbl.fin 1⟩) (⟨Dbl.fin 0, Dbl.fin 1⟩ : interval ℚ)
        ⟨Dbl.fin 0, Dbl.fin 1⟩ (Dbl.fin (1 / 2)) SearchState.init = some s' ∧
      ∀ m ∈ s'.ml, m.lbmin ≤ s'.min_ub :=
  have hf : ∀ x y : interval ℚ,
      ((fun _ _ => ⟨Dbl.fin 0, Dbl.fin 1⟩ : itvfun ℚ) x y).empty = false ∧
      ((fun _ _ => ⟨Dbl.fin 0, Dbl.fin 1⟩ : itvfun ℚ) x y).left ≠ Dbl.nan ∧
      ((fun _ _ => ⟨Dbl.fin 0, Dbl.fin 1⟩ : itvfun ℚ) x y).right ≠ Dbl.nan :=
    fun _ _ => by dsimp only; decide
  ⟨hf, (minimize_lbmin_le_min_ub (fun _ _ => ⟨Dbl.fin 0, Dbl.fin 1⟩) hf (Dbl.fin (1 / 2))).2
    0 1 ⟨Dbl.fin 0, Dbl.fin 1⟩ (by norm_num) (by rw [Dbl.fin_lt_fin]; norm_num)⟩

end Claims

section Minimiser
variable {K : Type} [LinearOrderedField K]

/-- The improve step keeps the properties the search relies on, and keeps
every record whose `lbmin` is at most a value that `fxy.right` bounds. -/
theorem improve_keeps (fxy : interval K) (s : SearchState K) (gs : K)
    (hr : Dbl.fin gs ≤ fxy.right)
    (hJ : Dbl.fin gs ≤ s.min_ub ∧ minimizer_list.sorted s.ml ∧ ∀ r ∈ s.ml, r.lbmin ≠ Dbl.nan) :
    (Dbl.fin gs ≤ (improve fxy s).min_ub ∧ minimizer_list.sorted (improve fxy s).ml ∧
      ∀ r ∈ (improve fxy s).ml, r.lbmin ≠ Dbl.nan) ∧
    ∀ r ∈ s.ml, r.lbmin ≤ Dbl.fin gs → r ∈ (improve fxy s).ml := by
  by_cases h : fxy.right < s.min_ub
  · rw [improve_of_lt h]
    refine ⟨⟨hr, minimizer_list.sorted_takeWhile hJ.2.1 _,
      fun r hm => hJ.2.2 r (of_mem_takeWhile hm).2⟩, fun r hm hle => ?_⟩
    show r ∈ s.ml.takeWhile (fun e => decide (e.lbmin ≤ fxy.right))
    rw [minimizer_list.takeWhile_eq_filter hJ.2.1]
    exact List.mem_filter.mpr ⟨hm, decide_eq_true (Dbl.le_transD hle hr)⟩
  · rw [improve_of_not_lt h]
    exact ⟨hJ, fun r hm _ => hm⟩

/-- The leaf insertion keeps the properties the search relies on. -/
theorem insert_keeps (s : SearchState K) (v : minimizer K) (gs : K)
    (hv : v.lbmin ≠ Dbl.nan)
    (hJ : Dbl.fin gs ≤ s.min_ub ∧ minimizer_list.sorted s.ml ∧ ∀ r ∈ s.ml, r.lbmin ≠ Dbl.nan) :
    Dbl.fin gs ≤ (⟨s.min_ub, minimizer_list.insert s.ml v⟩ : SearchState K).min_ub ∧
    minimizer_list.sorted (⟨s.min_ub, minimizer_list.insert s.ml v⟩ : SearchState K).ml ∧
    ∀ r ∈ (⟨s.min_ub, minimizer_list.insert s.ml v⟩ : SearchState K).ml, r.lbmin ≠ Dbl.nan := by
  refine ⟨hJ.1, minimizer_list.sorted_insert hJ.2.1 hJ.2.2 hv, fun r hm => ?_⟩
  rcases (minimizer_list.mem_insert _ _ r).mp hm with rfl | hm
  · exact hv
  · exact hJ.2.2 r hm

/-- The core of C1: along a run on a sub-box of the initial box, `min_ub`
stays above the minimum value `g px py`, records whose `lbmin` is at most
that value are never erased, and a box containing the minimiser ends up
recorded. -/
theorem minimize_keeps_minimiser_aux (f : itvfun K) (g : K → K → K) (threshold : Dbl K)
    (x0l x0r y0l y0r px py : K)
    (hf : ∀ xl xr yl yr p q : K, interval.contains ⟨Dbl.fin xl, Dbl.fin xr⟩ p →
      interval.contains ⟨Dbl.fin yl, Dbl.fin yr⟩ q →
      (f ⟨Dbl.fin xl, Dbl.fin xr⟩ ⟨Dbl.fin yl, Dbl.fin yr⟩).contains (g p q))
    (hmin : ∀ p q : K, x0l ≤ p → p ≤ x0r → y0l ≤ q → q ≤ y0r → g px py ≤ g p q) :
    ∀ (d : Nat) (xl xr yl yr : K) (s s' : SearchState K),
      xl ≤ xr → yl ≤ yr → x0l ≤ xl → xr ≤ x0r → y0l ≤ yl → yr ≤ y0r →
      (Dbl.fin (g px py) ≤ s.min_ub ∧ minimizer_list.sorted s.ml ∧
        ∀ r ∈ s.ml, r.lbmin ≠ Dbl.nan) →
      minimize Rounding.exact d f ⟨Dbl.fin xl, Dbl.fin xr⟩ ⟨Dbl.fin yl, Dbl.fin yr⟩
        threshold s = some s' →
      (Dbl.fin (g px py) ≤ s'.min_ub ∧ minimizer_list.sorted s'.ml ∧
        ∀ r ∈ s'.ml, r.lbmin ≠ Dbl.nan) ∧
      (∀ r ∈ s.ml, r.lbmin ≤ Dbl.fin (g px py) → r ∈ s'.ml) ∧
      (xl ≤ px → px ≤ xr → yl ≤ py → py ≤ yr →
        ∃ r ∈ s'.ml, r.lbmin ≤ Dbl.fin (g px py) ∧
          r.xmin.contains px ∧ r.ymin.contains py) := by
  intro d
  induction d with
  | zero =>
    intro xl xr yl yr s s' hx hy hxl hxr hyl hyr hJ hrun
    have hc := hf xl xr yl yr xl yl ⟨le_refl xl, hx⟩ ⟨le_refl yl, hy⟩
    have hgr : Dbl.fin (g px py) ≤ (f ⟨Dbl.fin xl, Dbl.fin xr⟩ ⟨Dbl.fin yl, Dbl.fin yr⟩).right :=
      Dbl.le_transD (hmin xl yl hxl (hx.trans hxr) hyl (hy.trans hyr)) hc.2
    by_cases h : (f ⟨Dbl.fin xl, Dbl.fin xr⟩ ⟨Dbl.fin yl, Dbl.fin yr⟩).left > s.min_ub
    · rw [minimize_prune _ _ _ _ _ _ _ h] at hrun
      cases hrun
      refine ⟨hJ, fun r hm _ => hm, fun h1 h2 h3 h4 => ?_⟩
      have hp := hf xl xr yl yr px py ⟨h1, h2⟩ ⟨h3, h4⟩
      exact absurd h (Dbl.not_lt_of_leD (Dbl.le_transD hp.1 hJ.1))
    · by_cases hw : interval.width Rounding.exact ⟨Dbl.fin xl, Dbl.fin xr⟩ ≤ threshold
      · rw [minimize_leaf_eq _ _ _ _ _ _ _ h hw] at hrun
        cases hrun
        obtain ⟨hJ1, hk1⟩ := improve_keeps _ s (g px py) hgr hJ
        refine ⟨insert_keeps _ _ _ (Dbl.ne_nan_of_le_left hc.1) hJ1, fun r hm hle => ?_,
          fun h1 h2 h3 h4 => ?_⟩
        · exact (minimizer_list.mem_insert _ _ r).mpr (Or.inr (hk1 r hm hle))
        · have hp := hf xl xr yl yr px py ⟨h1, h2⟩ ⟨h3, h4⟩
          exact ⟨_, (minimizer_list.mem_insert _ _ _).mpr (Or.inl rfl), hp.1, ⟨h1, h2⟩, ⟨h3, h4⟩⟩
      · rw [minimize_zero_eq _ _ _ _ _ _ h hw] at hrun
        cases hrun
  | succ d ih =>
    intro xl xr yl yr s s' hx hy hxl hxr hyl hyr hJ hrun
    have hc := hf xl xr yl yr xl yl ⟨le_refl xl, hx⟩ ⟨le_refl yl, hy⟩
    have hgr : Dbl.fin (g px py) ≤ (f ⟨Dbl.fin xl, Dbl.fin xr⟩ ⟨Dbl.fin yl, Dbl.fin yr⟩).right :=
      Dbl.le_transD (hmin xl yl hxl (hx.trans hxr) hyl (hy.trans hyr)) hc.2
    by_cases h : (f ⟨Dbl.fin xl, Dbl.fin xr⟩ ⟨Dbl.fin yl, Dbl.fin yr⟩).left > s.min_ub
    · rw [minimize_prune _ _ _ _ _ _ _ h] at hrun
      cases hrun
      refine ⟨hJ, fun r hm _ => hm, fun h1 h2 h3 h4 => ?_⟩
      have hp := hf xl xr yl yr px py ⟨h1, h2⟩ ⟨h3, h4⟩
      exact absurd h (Dbl.not_lt_of_leD (Dbl.le_transD hp.1 hJ.1))
    · by_cases hw : interval.width Rounding.exact ⟨Dbl.fin xl, Dbl.fin xr⟩ ≤ threshold
      · rw [minimize_leaf_eq _ _ _ _ _ _ _ h hw] at hrun
        cases hrun
        obtain ⟨hJ1, hk1⟩ := improve_keeps _ s (g px py) hgr hJ
        refine ⟨insert_keeps _ _ _ (Dbl.ne_nan_of_le_left hc.1) hJ1, fun r hm hle => ?_,
          fun h1 h2 h3 h4 => ?_⟩
        · exact (minimizer_list.mem_insert _ _ r).mpr (Or.inr (hk1 r hm hle))
        · have hp := hf xl xr yl yr px py ⟨h1, h2⟩ ⟨h3, h4⟩
          exact ⟨_, (minimizer_list.mem_insert _ _ _).mpr (Or.inl rfl), hp.1, ⟨h1, h2⟩, ⟨h3, h4⟩⟩
      · obtain ⟨s1, s2, s3, r1, r2, r3, r4⟩ := minimize_succ_some h hw hrun
        obtain ⟨ex1, ex2⟩ := split_box_exact_x hx (⟨Dbl.fin yl, Dbl.fin yr⟩ : interval K)
        obtain ⟨ey1, ey2⟩ := split_box_exact_y (⟨Dbl.fin xl, Dbl.fin xr⟩ : interval K) hy
        rw [ex1, ey1] at r1
        rw [ex1, ey2] at r2
        rw [ex2, ey1] at r3
        rw [ex2, ey2] at r4
        have hxm1 : xl ≤ 1 / 2 * (xl + xr) := by linarith only [hx]
        have hxm2 : 1 / 2 * (xl + xr) ≤ xr := by linarith only [hx]
        have hym1 : yl ≤ 1 / 2 * (yl + yr) := by linarith only [hy]
        have hym2 : 1 / 2 * (yl + yr) ≤ yr := by linarith only [hy]
        obtain ⟨hJ0, hk0⟩ := improve_keeps _ s (g px py) hgr hJ
        obtain ⟨hJ1, hk1, hg1⟩ := ih _ _ _ _ _ _ hxm1 hym1 hxl (hxm2.trans hxr) hyl
          (hym2.trans hyr) hJ0 r1
        obtain ⟨hJ2, hk2, hg2⟩ := ih _ _ _ _ _ _ hxm1 hym2 hxl (hxm2.trans hxr)
          (hyl.trans hym1) hyr hJ1 r2
        obtain ⟨hJ3, hk3, hg3⟩ := ih _ _ _ _ _ _ hxm2 hym1 (hxl.trans hxm1) hxr hyl
          (hym2.trans hyr) hJ2 r3
        obtain ⟨hJ4, hk4, hg4⟩ := ih _ _ _ _ _ _ hxm2 hym2 (hxl.trans hxm1) hxr
          (hyl.trans hym1) hyr hJ3 r4
        refine ⟨hJ4, fun r hm hle =>
          hk4 r (hk3 r (hk2 r (hk1 r (hk0 r hm hle) hle) hle) hle) hle,
          fun h1 h2 h3 h4 => ?_⟩
        rcases le_total px (1 / 2 * (xl + xr)) with hpx | hpx
        · rcases le_total py (1 / 2 * (yl + yr)) with hpy | hpy
          · obtain ⟨r, hm, hle, hin⟩ := hg1 h1 hpx h3 hpy
            exact ⟨r, hk4 r (hk3 r (hk2 r hm hle) hle) hle, hle, hin⟩
          · obtain ⟨r, hm, hle, hin⟩ := hg2 h1 hpx hpy h4
            exact ⟨r, hk4 r (hk3 r hm hle) hle, hle, hin⟩
        · rcases le_total py (1 / 2 * (yl + yr)) with hpy | hpy
          · obtain ⟨r, hm, hle, hin⟩ := hg3 hpx h2 h3 hpy
            exact ⟨r, hk4 r hm hle, hle, hin⟩
          · exact hg4 hpx h2 hpy h4

/-- In exact arithmetic `pow` of an interval with finite bounds has finite
bounds. -/
theorem pow_exact_finite (al ah : K) (n : Nat) :
    ∃ l r, interval.pow Rounding.exact ⟨Dbl.fin al, Dbl.fin ah⟩ n = ⟨Dbl.fin l, Dbl.fin r⟩ := by
  unfold interval.pow
  by_cases h0 : n = 0
  · exact ⟨1, 1, by simp [h0, interval.ofDouble]⟩
  by_cases hn1 : n = 1
  · exact ⟨al, ah, by simp [hn1]⟩
  simp only [h0, hn1, if_false, pow_exact_fin _ h0, round_down_exact, round_up_exact,
    Dbl.max_fin]
  split_ifs <;> exact ⟨_, _, rfl⟩

theorem add_exact_around {A B : interval K} {a b : K} (hA : A.finiteAround a)
    (hB : B.finiteAround b) : (interval.add Rounding.exact A B).finiteAround (a + b) := by
  obtain ⟨al, ah, rfl, h1, h2⟩ := hA
  obtain ⟨bl, bh, rfl, h3, h4⟩ := hB
  exact ⟨al + bl, ah + bh, rfl, by linarith, by linarith⟩

theorem sub_exact_around {A B : interval K} {a b : K} (hA : A.finiteAround a)
    (hB : B.finiteAround b) : (interval.sub Rounding.exact A B).finiteAround (a - b) := by
  obtain ⟨al, ah, rfl, h1, h2⟩ := hA
  obtain ⟨bl, bh, rfl, h3, h4⟩ := hB
  exact ⟨al - bh, ah - bl, rfl, by linarith, by linarith⟩

theorem mul_exact_around {A B : interval K} {a b : K} (hA : A.finiteAround a)
    (hB : B.finiteAround b) : (interval.mul Rounding.exact A B).finiteAround (a * b) := by
  obtain ⟨al, ah, rfl, h1, h2⟩ := hA
  obtain ⟨bl, bh, rfl, h3, h4⟩ := hB
  have hc := operator_mul_encloses (Rounding.exact : Rounding K) (fun _ => le_refl _)
    (fun _ => le_refl _) RoundMode.nearest (a := a) (b := b) ⟨h1, h2⟩ ⟨h3, h4⟩
  rw [operator_mul_fin] at hc
  exact ⟨_, _, operator_mul_fin _ _ _ _ _ _, hc.1, hc.2⟩

theorem pow_exact_around {A : interval K} {a : K} (n : Nat) (hA : A.finiteAround a) :
    (interval.pow Rounding.exact A n).finiteAround (a ^ n) := by
  obtain ⟨al, ah, rfl, h1, h2⟩ := hA
  obtain ⟨l, r, e⟩ := pow_exact_finite al ah n
  have hc := pow_encloses n (show interval.contains ⟨Dbl.fin al, Dbl.fin ah⟩ a from ⟨h1, h2⟩)
  rw [e] at hc
  exact ⟨l, r, e, hc.1, hc.2⟩

theorem ofDouble_around (v : K) : (interval.ofDouble (Dbl.fin v)).finiteAround v :=
  ⟨v, v, rfl, le_refl _, le_refl _⟩

/-- In exact arithmetic `booth` encloses `boothReal` on every box with finite
bounds. -/
theorem booth_encloses (xl xr yl yr p q : K)
    (hp : interval.contains ⟨Dbl.fin xl, Dbl.fin xr⟩ p)
    (hq : interval.contains ⟨Dbl.fin yl, Dbl.fin yr⟩ q) :
    (booth Rounding.exact ⟨Dbl.fin xl, Dbl.fin xr⟩ ⟨Dbl.fin yl, Dbl.fin yr⟩).contains
      (boothReal p q) := by
  have hx : interval.finiteAround ⟨Dbl.fin xl, Dbl.fin xr⟩ p := ⟨xl, xr, rfl, hp.1, hp.2⟩
  have hy : interval.finiteAround ⟨Dbl.fin yl, Dbl.fin yr⟩ q := ⟨yl, yr, rfl, hq.1, hq.2⟩
  obtain ⟨l, r, e, h1, h2⟩ := add_exact_around
    (pow_exact_around 2 (sub_exact_around
      (add_exact_around hx (mul_exact_around (ofDouble_around 2) hy)) (ofDouble_around 7)))
    (pow_exact_around 2 (sub_exact_around
      (add_exact_around (mul_exact_around (ofDouble_around 2) hx) hy) (ofDouble_around 5)))
  unfold booth boothReal
  rw [e]
  exact ⟨h1, h2⟩

/-- The point `(1,3)` minimises `boothReal`. -/
theorem boothReal_min (p q : K) : boothReal 1 3 ≤ boothReal p q := by
  have h0 : boothReal (1 : K) 3 = 0 := by unfold boothReal; norm_num
  rw [h0]
  unfold boothReal
  positivity

/-- C1: the certified search never loses a global minimiser (exact
arithmetic).  If `f` encloses `g` on every box with finite bounds, then for
every finite non-empty initial box and every threshold `> 0` the run of
`minimize` from `(+infinity, empty)` returns (within depth `depthBound`), and
for every point of the initial box at which `g` is minimal over the box some
record of the final collection has a box `xmin x ymin` containing it. -/
theorem minimize_keeps_global_minimiser [FloorRing K] (f : itvfun K) (g : K → K → K)
    (hf : ∀ xl xr yl yr p q : K, interval.contains ⟨Dbl.fin xl, Dbl.fin xr⟩ p →
      interval.contains ⟨Dbl.fin yl, Dbl.fin yr⟩ q →
      (f ⟨Dbl.fin xl, Dbl.fin xr⟩ ⟨Dbl.fin yl, Dbl.fin yr⟩).contains (g p q))
    (x0l x0r y0l y0r : K) (hx : x0l ≤ x0r) (hy : y0l ≤ y0r)
    (threshold : Dbl K) (ht : Dbl.fin 0 < threshold) :
    ∃ s', minimize Rounding.exact (depthBound (x0r - x0l) threshold) f
        ⟨Dbl.fin x0l, Dbl.fin x0r⟩ ⟨Dbl.fin y0l, Dbl.fin y0r⟩ threshold SearchState.init
        = some s' ∧
      ∀ px py : K, interval.contains ⟨Dbl.fin x0l, Dbl.fin x0r⟩ px →
        interval.contains ⟨Dbl.fin y0l, Dbl.fin y0r⟩ py →
        (∀ p q : K, interval.contains ⟨Dbl.fin x0l, Dbl.fin x0r⟩ p →
          interval.contains ⟨Dbl.fin y0l, Dbl.fin y0r⟩ q → g px py ≤ g p q) →
        ∃ m ∈ s'.ml, m.xmin.contains px ∧ m.ymin.contains py := by
  obtain ⟨s', hs'⟩ := minimize_returns f threshold (depthBound (x0r - x0l) threshold) x0l x0r
    ⟨Dbl.fin y0l, Dbl.fin y0r⟩ SearchState.init hx (depthBound_spec (x0r - x0l) ht)
  refine ⟨s', hs', fun px py hpx hpy hmin => ?_⟩
  have haux := minimize_keeps_minimiser_aux f g threshold x0l x0r y0l y0r px py hf
    (fun p q h1 h2 h3 h4 => hmin p q ⟨h1, h2⟩ ⟨h3, h4⟩)
    _ x0l x0r y0l y0r SearchState.init s' hx hy (le_refl _) (le_refl _) (le_refl _) (le_refl _)
    ⟨Dbl.fin_le_pinf _, List.Pairwise.nil, fun r hr => by simp [SearchState.init] at hr⟩ hs'
  obtain ⟨m, hm, _, hin⟩ := haux.2.2 hpx.1 hpx.2 hpy.1 hpy.2
  exact ⟨m, hm, hin⟩

/-- C1 at the input the claim names: `booth` on `[-10,10] x [-10,10]` with
threshold `0.001`; the final collection holds a box containing `(1,3)`. -/
theorem minimize_keeps_global_minimiser_witness :
    (∀ xl xr yl yr p q : ℚ, interval.contains ⟨Dbl.fin xl, Dbl.fin xr⟩ p →
      interval.contains ⟨Dbl.fin yl, Dbl.fin yr⟩ q →
      (booth Rounding.exact ⟨Dbl.fin xl, Dbl.fin xr⟩ ⟨Dbl.fin yl, Dbl.fin yr⟩).contains
        (boothReal p q)) ∧
    ((-10 : ℚ) ≤ 10 ∧ (Dbl.fin 0 : Dbl ℚ) < Dbl.fin (1 / 1000)) ∧
    (interval.contains (⟨Dbl.fin (-10), Dbl.fin 10⟩ : interval ℚ) 1 ∧
      interval.contains (⟨Dbl.fin (-10), Dbl.fin 10⟩ : interval ℚ) 3 ∧
      ∀ p q : ℚ, boothReal (1 : ℚ) 3 ≤ boothReal p q) ∧
    ∃ s', minimize Rounding.exact (depthBound ((10 : ℚ) - (-10)) (Dbl.fin (1 / 1000)))
        (booth Rounding.exact) (⟨Dbl.fin (-10), Dbl.fin 10⟩ : interval ℚ)
        ⟨Dbl.fin (-10), Dbl.fin 10⟩ (Dbl.fin (1 / 1000)) SearchState.init = some s' ∧
      ∃ m ∈ s'.ml, m.xmin.contains 1 ∧ m.ymin.contains 3 :=
  have ht : (Dbl.fin 0 : Dbl ℚ) < Dbl.fin (1 / 1000) := by
    rw [Dbl.fin_lt_fin]; norm_num
  have h1 : interval.contains (⟨Dbl.fin (-10), Dbl.fin 10⟩ : interval ℚ) 1 := by
    norm_num [interval.contains]
  have h3 : interval.contains (⟨Dbl.fin (-10), Dbl.fin 10⟩ : interval ℚ) 3 := by
    norm_num [interval.contains]
  have h := minimize_keeps_global_minimiser (booth Rounding.exact) boothReal booth_encloses
    (-10 : ℚ) 10 (-10) 10 (by norm_num) (by norm_num) (Dbl.fin (1 / 1000)) ht
  ⟨booth_encloses, ⟨by norm_num, ht⟩, ⟨h1, h3, boothReal_min⟩,
    h.imp fun _ hs => ⟨hs.1, hs.2 1 3 h1 h3 (fun p q _ _ => boothReal_min p q)⟩⟩

end Minimiser

/-! ### More on comparisons of doubles -/

namespace Dbl

variable {K : Type} [LinearOrderedField K]

/-- IEEE `a <= a` holds away from NaN. -/
theorem le_reflD {a : Dbl K} (h : a ≠ nan) : a ≤ a := by
  cases a with
  | nan => exact absurd rfl h
  | ninf => exact trivial
  | fin v => exact le_refl v
  | pinf => exact trivial

/-- IEEE `a < b` and `b <= c` give `a <= c`. -/
theorem le_of_lt_of_leD {a b c : Dbl K} (h1 : a < b) (h2 : b ≤ c) : a ≤ c :=
  le_transD (le_of_ltD h1) h2

/-- IEEE `<=` is antisymmetric. -/
theorem le_antisymmD {a b : Dbl K} (h1 : a ≤ b) (h2 : b ≤ a) : a = b := by
  cases a <;> cases b <;> first
    | rfl
    | exact absurd h1 (fun h => h)
    | exact absurd h2 (fun h => h)
    | exact congrArg fin (le_antisymm h1 h2)

theorem ne_nan_of_lt_left {a b : Dbl K} (h : a < b) : a ≠ nan := by
  rintro rfl; exact absurd h (not_nan_lt _)

theorem ne_nan_of_lt_right {a b : Dbl K} (h : a < b) : b ≠ nan := by
  rintro rfl; exact absurd h (not_lt_nan _)

end Dbl

/-! ### Midpoint -/

section Mid

variable {K : Type} [LinearOrderedField K]

/-- The value of `mid()` on finite bounds `lo <= hi`: the rounded half of the
rounded sum. -/
theorem mid_fin (R : Rounding K) {lo hi : K} (h : lo ≤ hi) :
    interval.mid R ⟨Dbl.fin lo, Dbl.fin hi⟩ =
      Dbl.fin (R.rnd RoundMode.nearest (1 / 2 * R.rnd RoundMode.nearest (lo + hi))) := by
  have hnot : ¬ (hi < lo) := not_lt.mpr h
  simp [interval.mid, interval.empty, GT.gt, LT.lt, Dbl.lt, hnot, Dbl.mul, Dbl.add, Dbl.isinf]

/-- C11: midpoint boundedness.  For finite bounds `lo <= hi` and a rounding to
nearest that is monotone and leaves `lo`, `hi`, `lo+lo` and `hi+hi` unchanged
(exact arithmetic is one), `lo <= mid() <= hi`; and in exact arithmetic the
value `0.5*lo + 0.5*hi` of the overflow branch lies between `lo` and `hi`
too. -/
theorem mid_bounded (R : Rounding K) (lo hi : K)
    (hmono : Monotone (R.rnd RoundMode.nearest))
    (hlo : R.rnd RoundMode.nearest lo = lo) (hhi : R.rnd RoundMode.nearest hi = hi)
    (hlo2 : R.rnd RoundMode.nearest (lo + lo) = lo + lo)
    (hhi2 : R.rnd RoundMode.nearest (hi + hi) = hi + hi)
    (h : lo ≤ hi) :
    (Dbl.fin lo ≤ interval.mid R ⟨Dbl.fin lo, Dbl.fin hi⟩ ∧
      interval.mid R ⟨Dbl.fin lo, Dbl.fin hi⟩ ≤ Dbl.fin hi) ∧
    (Dbl.fin lo ≤ Dbl.add Rounding.exact RoundMode.nearest
        (Dbl.mul Rounding.exact RoundMode.nearest (Dbl.fin (1 / 2)) (Dbl.fin lo))
        (Dbl.mul Rounding.exact RoundMode.nearest (Dbl.fin (1 / 2)) (Dbl.fin hi)) ∧
      Dbl.add Rounding.exact RoundMode.nearest
        (Dbl.mul Rounding.exact RoundMode.nearest (Dbl.fin (1 / 2)) (Dbl.fin lo))
        (Dbl.mul Rounding.exact RoundMode.nearest (Dbl.fin (1 / 2)) (Dbl.fin hi)) ≤
        Dbl.fin hi) := by
  refine ⟨?_, ?_⟩
  · rw [mid_fin R h, Dbl.fin_le_fin, Dbl.fin_le_fin]
    have h1 : lo + lo ≤ R.rnd RoundMode.nearest (lo + hi) := by
      rw [← hlo2]; exact hmono (by linarith)
    have h2 : R.rnd RoundMode.nearest (lo + hi) ≤ hi + hi := by
      rw [← hhi2]; exact hmono (by linarith)
    constructor
    · rw [← hlo]; exact hmono (by rw [hlo]; linarith)
    · rw [← hhi]; exact hmono (by rw [hhi]; linarith)
  · show lo ≤ 1 / 2 * lo + 1 / 2 * hi ∧ 1 / 2 * lo + 1 / 2 * hi ≤ hi
    constructor <;> linarith

/-- C11 at a concrete input, exact arithmetic: the midpoint of `[1,4]` is
`5/2`. -/
theorem mid_bounded_witness :
    (1 : ℚ) ≤ 4 ∧
    interval.mid Rounding.exact (⟨Dbl.fin 1, Dbl.fin 4⟩ : interval ℚ) = Dbl.fin (5 / 2) ∧
    Dbl.fin 1 ≤ interval.mid Rounding.exact (⟨Dbl.fin 1, Dbl.fin 4⟩ : interval ℚ) ∧
    interval.mid Rounding.exact (⟨Dbl.fin 1, Dbl.fin 4⟩ : interval ℚ) ≤ Dbl.fin 4 :=
  have h := (mid_bounded (Rounding.exact : Rounding ℚ) 1 4 (fun _ _ hab => hab) rfl rfl rfl rfl
    (by norm_num)).1
  ⟨by norm_num, by rw [mid_exact (by norm_num)]; norm_num, h.1, h.2⟩

end Mid

/-! ### Rounding direction on return -/

section RoundingState

variable {K : Type} [LinearOrderedField K]

/-- C14 (the code departs from the claim): `operator+`, `operator-` and
`operator*` return with the rounding direction set to round-to-nearest for
every input, but `operator<<` returns with the direction it set last: upward
for a non-empty interval such as `[0,1]`, and the direction on entry for an
empty one. -/
theorem operator_lshift_leaves_upward (fmt : RoundMode → Dbl K → String) (os : String) :
    (operator_lshift fmt os (⟨Dbl.fin 0, Dbl.fin 1⟩ : interval K) RoundMode.nearest).2 =
      RoundMode.upward ∧
    (∀ (I : interval K) (fpu : RoundMode),
      (operator_lshift fmt os I fpu).2 = if I.empty then fpu else RoundMode.upward) ∧
    (∀ (R : Rounding K) (I1 I2 : interval K) (fpu : RoundMode),
      (operator_add R I1 I2 fpu).2 = RoundMode.nearest ∧
      (operator_sub R I1 I2 fpu).2 = RoundMode.nearest ∧
      (operator_mul R I1 I2 fpu).2 = RoundMode.nearest) := by
  have hgen : ∀ (I : interval K) (fpu : RoundMode),
      (operator_lshift fmt os I fpu).2 = if I.empty then fpu else RoundMode.upward := by
    intro I fpu
    unfold operator_lshift
    by_cases h : I.empty = true
    · simp [h]
    · simp [h]
  refine ⟨?_, hgen, fun R I1 I2 fpu => ⟨rfl, rfl, rfl⟩⟩
  rw [hgen]
  have he : (⟨Dbl.fin 0, Dbl.fin 1⟩ : interval K).empty = false := by
    simp [interval.empty, GT.gt, LT.lt, Dbl.lt]
  simp [he]

end RoundingState

/-! ### The improve step and the order of the collection -/

section Collection

variable {K : Type} [LinearOrderedField K]

/-- C17 (refuted as stated): a collection holding one record whose `lbmin` is
NaN is sorted; the improve step with `fxy = [0,1]` and `min_ub = 2` erases
that record although its `lbmin` is not strictly greater than the new
`min_ub`. -/
theorem improve_exact_effect_counterexample :
    minimizer_list.sorted
      ([⟨interval.ofDouble (Dbl.fin 0), interval.ofDouble (Dbl.fin 0), Dbl.nan, Dbl.fin 3⟩] :
        minimizer_list ℚ) ∧
    (⟨Dbl.fin 0, Dbl.fin 1⟩ : interval ℚ).right < Dbl.fin 2 ∧
    (improve (⟨Dbl.fin 0, Dbl.fin 1⟩ : interval ℚ)
        ⟨Dbl.fin 2, [⟨interval.ofDouble (Dbl.fin 0), interval.ofDouble (Dbl.fin 0),
          Dbl.nan, Dbl.fin 3⟩]⟩).ml = [] ∧
    ¬ ((Dbl.nan : Dbl ℚ) > (improve (⟨Dbl.fin 0, Dbl.fin 1⟩ : interval ℚ)
        ⟨Dbl.fin 2, [⟨interval.ofDouble (Dbl.fin 0), interval.ofDouble (Dbl.fin 0),
          Dbl.nan, Dbl.fin 3⟩]⟩).min_ub) := by
  decide

/-- C17 (amended): for a collection sorted by `lbmin` and `fxy.right < min_ub`,
the improve step sets `min_ub` to `fxy.right` and keeps, unchanged and in the
same order, exactly the records with `lbmin <= min_ub`; a record whose `lbmin`
is not NaN is removed exactly when its `lbmin` is strictly greater than the
new `min_ub`. -/
theorem improve_exact_effect (fxy : interval K) (s : SearchState K)
    (hs : minimizer_list.sorted s.ml) (h : fxy.right < s.min_ub) :
    (improve fxy s).min_ub = fxy.right ∧
    (improve fxy s).ml = s.ml.filter (fun r => decide (r.lbmin ≤ fxy.right)) ∧
    ∀ r ∈ s.ml, r.lbmin ≠ Dbl.nan → (r ∉ (improve fxy s).ml ↔ r.lbmin > fxy.right) := by
  have hml : (improve fxy s).ml = s.ml.filter (fun r => decide (r.lbmin ≤ fxy.right)) := by
    rw [improve_of_lt h]
    exact minimizer_list.takeWhile_eq_filter hs _
  refine ⟨by rw [improve_of_lt h], hml, fun r hr hn => ?_⟩
  rw [hml, List.mem_filter]
  have hk : fxy.right ≠ Dbl.nan := Dbl.ne_nan_of_lt_left h
  constructor
  · intro hnot
    rcases Dbl.le_or_lt_of_not_nan hn hk with h1 | h1
    · exact absurd ⟨hr, decide_eq_true h1⟩ hnot
    · exact h1
  · intro hgt hmem
    exact Dbl.not_lt_of_leD (of_decide_eq_true hmem.2) hgt

/-- C17 (amended) at a concrete input: records with `lbmin` 0, 1, 1, 3 and
`min_ub = 4`, improved by an evaluation `[0,1]`: only the record with
`lbmin = 3` goes. -/
theorem improve_exact_effect_witness :
    (minimizer_list.sorted
      ([⟨interval.ofDouble (Dbl.fin 0), interval.ofDouble (Dbl.fin 0), Dbl.fin 0, Dbl.fin 4⟩,
        ⟨interval.ofDouble (Dbl.fin 1), interval.ofDouble (Dbl.fin 0), Dbl.fin 1, Dbl.fin 4⟩,
        ⟨interval.ofDouble (Dbl.fin 2), interval.ofDouble (Dbl.fin 0), Dbl.fin 1, Dbl.fin 4⟩,
        ⟨interval.ofDouble (Dbl.fin 0), interval.ofDouble (Dbl.fin 0), Dbl.fin 3, Dbl.fin 4⟩] :
        minimizer_list ℚ) ∧
      (⟨Dbl.fin 0, Dbl.fin 1⟩ : interval ℚ).right < Dbl.fin 4) ∧
    (improve (⟨Dbl.fin 0, Dbl.fin 1⟩ : interval ℚ)
      ⟨Dbl.fin 4,
        [⟨interval.ofDouble (Dbl.fin 0), interval.ofDouble (Dbl.fin 0), Dbl.fin 0, Dbl.fin 4⟩,
        ⟨interval.ofDouble (Dbl.fin 1), interval.ofDouble (Dbl.fin 0), Dbl.fin 1, Dbl.fin 4⟩,
        ⟨interval.ofDouble (Dbl.fin 2), interval.ofDouble (Dbl.fin 0), Dbl.fin 1, Dbl.fin 4⟩,
        ⟨interval.ofDouble (Dbl.fin 0), interval.ofDouble (Dbl.fin 0), Dbl.fin 3, Dbl.fin 4⟩]⟩).ml =
      [⟨interval.ofDouble (Dbl.fin 0), interval.ofDouble (Dbl.fin 0), Dbl.fin 0, Dbl.fin 4⟩,
        ⟨interval.ofDouble (Dbl.fin 1), interval.ofDouble (Dbl.fin 0), Dbl.fin 1, Dbl.fin 4⟩,
        ⟨interval.ofDouble (Dbl.fin 2), interval.ofDouble (Dbl.fin 0), Dbl.fin 1, Dbl.fin 4⟩] ∧
    (improve (⟨Dbl.fin 0, Dbl.fin 1⟩ : interval ℚ)
      ⟨Dbl.fin 4,
        [⟨interval.ofDouble (Dbl.fin 0), interval.ofDouble (Dbl.fin 0), Dbl.fin 0, Dbl.fin 4⟩,
        ⟨interval.ofDouble (Dbl.fin 1), interval.ofDouble (Dbl.fin 0), Dbl.fin 1, Dbl.fin 4⟩,
        ⟨interval.ofDouble (Dbl.fin 2), interval.ofDouble (Dbl.fin 0), Dbl.fin 1, Dbl.fin 4⟩,
        ⟨interval.ofDouble (Dbl.fin 0), interval.ofDouble (Dbl.fin 0), Dbl.fin 3, Dbl.fin 4⟩]⟩).ml =
      List.filter (fun r => decide (r.lbmin ≤ (⟨Dbl.fin 0, Dbl.fin 1⟩ : interval ℚ).right))
        [⟨interval.ofDouble (Dbl.fin 0), interval.ofDouble (Dbl.fin 0), Dbl.fin 0, Dbl.fin 4⟩,
        ⟨interval.ofDouble (Dbl.fin 1), interval.ofDouble (Dbl.fin 0), Dbl.fin 1, Dbl.fin 4⟩,
        ⟨interval.ofDouble (Dbl.fin 2), interval.ofDouble (Dbl.fin 0), Dbl.fin 1, Dbl.fin 4⟩,
        ⟨interval.ofDouble (Dbl.fin 0), interval.ofDouble (Dbl.fin 0), Dbl.fin 3, Dbl.fin 4⟩] :=
  ⟨⟨by decide, by decide⟩, by decide,
    (improve_exact_effect (⟨Dbl.fin 0, Dbl.fin 1⟩ : interval ℚ) _ (by decide) (by decide)).2.1⟩

end Collection

/-! ### Invariants of the collection along a run -/

section RunInvariants

variable {K : Type} [LinearOrderedField K]

/-- C13 (refuted as stated): the collection `[lbmin = 0]` is sorted; an
objective that returns NaN bounds is neither pruned nor improves, and on a
leaf box its record, with `lbmin = NaN`, is inserted at the end: the
collection is no longer in ascending order of `lbmin`. -/
theorem minimize_sorted_counterexample :
    minimizer_list.sorted
      ([⟨interval.ofDouble (Dbl.fin 0), interval.ofDouble (Dbl.fin 0), Dbl.fin 0, Dbl.fin 1⟩] :
        minimizer_list ℚ) ∧
    minimize Rounding.exact 0 (fun _ _ => ⟨Dbl.nan, Dbl.nan⟩)
        (⟨Dbl.fin 0, Dbl.fin 0⟩ : interval ℚ) ⟨Dbl.fin 0, Dbl.fin 0⟩ (Dbl.fin 0)
        ⟨Dbl.pinf, [⟨interval.ofDouble (Dbl.fin 0), interval.ofDouble (Dbl.fin 0),
          Dbl.fin 0, Dbl.fin 1⟩]⟩ =
      some ⟨Dbl.pinf, [⟨interval.ofDouble (Dbl.fin 0), interval.ofDouble (Dbl.fin 0),
          Dbl.fin 0, Dbl.fin 1⟩,
        ⟨⟨Dbl.fin 0, Dbl.fin 0⟩, ⟨Dbl.fin 0, Dbl.fin 0⟩, Dbl.nan, Dbl.nan⟩]⟩ ∧
    ¬ minimizer_list.sorted
      ([⟨interval.ofDouble (Dbl.fin 0), interval.ofDouble (Dbl.fin 0), Dbl.fin 0, Dbl.fin 1⟩,
        ⟨⟨Dbl.fin 0, Dbl.fin 0⟩, ⟨Dbl.fin 0, Dbl.fin 0⟩, Dbl.nan, Dbl.nan⟩] :
        minimizer_list ℚ) := by
  refine ⟨by decide, ?_, by decide⟩
  have hw : interval.width Rounding.exact (⟨Dbl.fin 0, Dbl.fin 0⟩ : interval ℚ) ≤ Dbl.fin 0 := by
    rw [width_exact (le_refl _)]; norm_num
  rw [minimize_leaf_eq _ _ _ _ _ _ _ (by decide) hw]
  rfl

/-- C13 (amended): for an objective whose lower bounds are never NaN, if the
collection is sorted by `lbmin` and holds no NaN `lbmin` before a call of
`minimize`, it is sorted by `lbmin` and holds no NaN `lbmin` after the call
returns (any rounding, box and threshold); the suffix erase of the improve
step keeps any sorted collection sorted, and an insertion keeps a sorted
NaN-free collection sorted when the new `lbmin` is not NaN; in exact
arithmetic the run from `(+infinity, empty)` on a finite non-empty x-interval
with a positive threshold returns with a sorted collection. -/
theorem minimize_sorted [FloorRing K] (f : itvfun K)
    (hf : ∀ x y, (f x y).left ≠ Dbl.nan) (threshold : Dbl K) :
    (∀ (R : Rounding K) (d : Nat) (x y : interval K) (s s' : SearchState K),
      minimizer_list.sorted s.ml → (∀ r ∈ s.ml, r.lbmin ≠ Dbl.nan) →
      minimize R d f x y threshold s = some s' →
      minimizer_list.sorted s'.ml ∧ ∀ r ∈ s'.ml, r.lbmin ≠ Dbl.nan) ∧
    (∀ (fxy : interval K) (s : SearchState K),
      minimizer_list.sorted s.ml → minimizer_list.sorted (improve fxy s).ml) ∧
    (∀ (ml : minimizer_list K) (v : minimizer K), minimizer_list.sorted ml →
      (∀ r ∈ ml, r.lbmin ≠ Dbl.nan) → v.lbmin ≠ Dbl.nan →
      minimizer_list.sorted (minimizer_list.insert ml v)) ∧
    (∀ (l r : K) (y : interval K), l ≤ r → Dbl.fin 0 < threshold →
      ∃ s', minimize Rounding.exact (depthBound (r - l) threshold) f
          ⟨Dbl.fin l, Dbl.fin r⟩ y threshold SearchState.init = some s' ∧
        minimizer_list.sorted s'.ml) := by
  have himp : ∀ (fxy : interval K) (s : SearchState K),
      minimizer_list.sorted s.ml → minimizer_list.sorted (improve fxy s).ml := by
    intro fxy s hs
    by_cases h : fxy.right < s.min_ub
    · rw [improve_of_lt h]; exact minimizer_list.sorted_takeWhile hs _
    · rw [improve_of_not_lt h]; exact hs
  have himp2 : ∀ (fxy : interval K) (s : SearchState K),
      (∀ r ∈ s.ml, r.lbmin ≠ Dbl.nan) → ∀ r ∈ (improve fxy s).ml, r.lbmin ≠ Dbl.nan := by
    intro fxy s hn r hr
    by_cases h : fxy.right < s.min_ub
    · rw [improve_of_lt h] at hr; exact hn r (of_mem_takeWhile hr).2
    · rw [improve_of_not_lt h] at hr; exact hn r hr
  have key : ∀ (R : Rounding K) (d : Nat) (x y : interval K) (s s' : SearchState K),
      minimize R d f x y threshold s = some s' →
      (minimizer_list.sorted s.ml ∧ ∀ r ∈ s.ml, r.lbmin ≠ Dbl.nan) →
      (minimizer_list.sorted s'.ml ∧ ∀ r ∈ s'.ml, r.lbmin ≠ Dbl.nan) := by
    intro R
    refine minimize_invariant R f threshold
      (fun s => minimizer_list.sorted s.ml ∧ ∀ r ∈ s.ml, r.lbmin ≠ Dbl.nan) ?_ ?_
    · intro x y s hinv _
      exact ⟨himp _ s hinv.1, himp2 _ s hinv.2⟩
    · intro x y s _ _ hinv1
      refine ⟨minimizer_list.sorted_insert hinv1.1 hinv1.2 (hf x y), fun r hr => ?_⟩
      rcases (minimizer_list.mem_insert _ _ r).mp hr with rfl | hr
      · exact hf x y
      · exact hinv1.2 r hr
  refine ⟨fun R d x y s s' hs hn hrun => key R d x y s s' hrun ⟨hs, hn⟩, himp,
    fun ml v hs hn hv => minimizer_list.sorted_insert hs hn hv, ?_⟩
  intro l r y hlr ht
  obtain ⟨s', hs'⟩ := minimize_returns f threshold (depthBound (r - l) threshold) l r y
    SearchState.init hlr (depthBound_spec (r - l) ht)
  refine ⟨s', hs', (key _ _ _ _ _ _ hs' ⟨List.Pairwise.nil, ?_⟩).1⟩
  intro m hm; simp [SearchState.init] at hm

/-- C13 (amended) at a concrete input: the constant objective `[0,1]` run on
`[0,1] x [0,1]` with threshold `1/2` from `(+infinity, empty)`. -/
theorem minimize_sorted_witness :
    (∀ x y : interval ℚ, ((fun _ _ => ⟨Dbl.fin 0, Dbl.fin 1⟩ : itvfun ℚ) x y).left ≠ Dbl.nan) ∧
    ∃ s', minimize Rounding.exact (depthBound ((1 : ℚ) - 0) (Dbl.fin (1 / 2)))
        (fun _ _ => ⟨Dbl.fin 0, Dbl.fin 1⟩) (⟨Dbl.fin 0, Dbl.fin 1⟩ : interval ℚ)
        ⟨Dbl.fin 0, Dbl.fin 1⟩ (Dbl.fin (1 / 2)) SearchState.init = some s' ∧
      minimizer_list.sorted s'.ml :=
  have hf : ∀ x y : interval ℚ,
      ((fun _ _ => ⟨Dbl.fin 0, Dbl.fin 1⟩ : itvfun ℚ) x y).left ≠ Dbl.nan :=
    fun _ _ => by dsimp only; decide
  ⟨hf, (minimize_sorted (fun _ _ => ⟨Dbl.fin 0, Dbl.fin 1⟩) hf (Dbl.fin (1 / 2))).2.2.2
    0 1 ⟨Dbl.fin 0, Dbl.fin 1⟩ (by norm_num) (by rw [Dbl.fin_lt_fin]; norm_num)⟩

/-- C20 (refuted as stated): with `min_ub = NaN` and an empty collection the
premise holds vacuously; the constant objective `[0,0]` (NaN-free) on a leaf
box then inserts a record for which `min_ub <= ubmin` is false. -/
theorem minimize_min_ub_le_ubmin_counterexample :
    (∀ x y : interval ℚ,
      ((fun _ _ => ⟨Dbl.fin 0, Dbl.fin 0⟩ : itvfun ℚ) x y).left ≠ Dbl.nan ∧
      ((fun _ _ => ⟨Dbl.fin 0, Dbl.fin 0⟩ : itvfun ℚ) x y).right ≠ Dbl.nan) ∧
    (∀ r ∈ (⟨Dbl.nan, []⟩ : SearchState ℚ).ml, (⟨Dbl.nan, []⟩ : SearchState ℚ).min_ub ≤ r.ubmin) ∧
    minimize Rounding.exact 0 (fun _ _ => ⟨Dbl.fin 0, Dbl.fin 0⟩)
        (⟨Dbl.fin 0, Dbl.fin 0⟩ : interval ℚ) ⟨Dbl.fin 0, Dbl.fin 0⟩ (Dbl.fin 0) ⟨Dbl.nan, []⟩ =
      some ⟨Dbl.nan, [⟨⟨Dbl.fin 0, Dbl.fin 0⟩, ⟨Dbl.fin 0, Dbl.fin 0⟩, Dbl.fin 0, Dbl.fin 0⟩]⟩ ∧
    ¬ ((Dbl.nan : Dbl ℚ) ≤ Dbl.fin 0) := by
  refine ⟨fun _ _ => by dsimp only; decide, fun r hr => by simp at hr, ?_, by decide⟩
  have hw : interval.width Rounding.exact (⟨Dbl.fin 0, Dbl.fin 0⟩ : interval ℚ) ≤ Dbl.fin 0 := by
    rw [width_exact (le_refl _)]; norm_num
  rw [minimize_leaf_eq _ _ _ _ _ _ _ (by decide) hw]
  rfl

/-- C20 (amended): for an objective that returns NaN-free intervals and a
state whose `min_ub` is not NaN, if `min_ub <= ubmin` holds for every record
before a call of `minimize`, then after the call returns `min_ub` is not NaN,
`min_ub <= ubmin` holds for every record, and `min_ub` is at most its value
before the call (any rounding, box and threshold); in exact arithmetic the
run from `(+infinity, empty)` on a finite non-empty x-interval with a
positive threshold returns in a state where `min_ub <= ubmin` for every
record. -/
theorem minimize_min_ub_le_ubmin [FloorRing K] (f : itvfun K)
    (hf : ∀ x y, (f x y).left ≠ Dbl.nan ∧ (f x y).right ≠ Dbl.nan) (threshold : Dbl K) :
    (∀ (R : Rounding K) (d : Nat) (x y : interval K) (s s' : SearchState K),
      s.min_ub ≠ Dbl.nan → (∀ r ∈ s.ml, s.min_ub ≤ r.ubmin) →
      minimize R d f x y threshold s = some s' →
      s'.min_ub ≠ Dbl.nan ∧ (∀ r ∈ s'.ml, s'.min_ub ≤ r.ubmin) ∧ s'.min_ub ≤ s.min_ub) ∧
    (∀ (l r : K) (y : interval K), l ≤ r → Dbl.fin 0 < threshold →
      ∃ s', minimize Rounding.exact (depthBound (r - l) threshold) f
          ⟨Dbl.fin l, Dbl.fin r⟩ y threshold SearchState.init = some s' ∧
        ∀ m ∈ s'.ml, s'.min_ub ≤ m.ubmin) := by
  have key : ∀ (R : Rounding K) (s0 : SearchState K) (d : Nat) (x y : interval K)
      (s s' : SearchState K), minimize R d f x y threshold s = some s' →
      (s.min_ub ≠ Dbl.nan ∧ (∀ r ∈ s.ml, s.min_ub ≤ r.ubmin) ∧ s.min_ub ≤ s0.min_ub) →
      (s'.min_ub ≠ Dbl.nan ∧ (∀ r ∈ s'.ml, s'.min_ub ≤ r.ubmin) ∧ s'.min_ub ≤ s0.min_ub) := by
    intro R s0
    refine minimize_invariant R f threshold
      (fun s => s.min_ub ≠ Dbl.nan ∧ (∀ r ∈ s.ml, s.min_ub ≤ r.ubmin) ∧
        s.min_ub ≤ s0.min_ub) ?_ ?_
    · intro x y s hinv _
      by_cases h : (f x y).right < s.min_ub
      · rw [improve_of_lt h]
        exact ⟨(hf x y).2,
          fun r hr => Dbl.le_of_lt_of_leD h (hinv.2.1 r (of_mem_takeWhile hr).2),
          Dbl.le_of_lt_of_leD h hinv.2.2⟩
      · rw [improve_of_not_lt h]; exact hinv
    · intro x y s hinv _ hinv1
      refine ⟨hinv1.1, fun r hr => ?_, hinv1.2.2⟩
      rcases (minimizer_list.mem_insert _ _ r).mp hr with rfl | hr
      · show (improve (f x y) s).min_ub ≤ (f x y).right
        by_cases h : (f x y).right < s.min_ub
        · rw [improve_of_lt h]; exact Dbl.le_reflD (hf x y).2
        · rw [improve_of_not_lt h]
          rcases Dbl.le_or_lt_of_not_nan hinv.1 (hf x y).2 with h2 | h2
          · exact h2
          · exact absurd h2 h
      · exact hinv1.2.1 r hr
  refine ⟨fun R d x y s s' hn hinv hrun =>
    key R s d x y s s' hrun ⟨hn, hinv, Dbl.le_reflD hn⟩, ?_⟩
  intro l r y hlr ht
  obtain ⟨s', hs'⟩ := minimize_returns f threshold (depthBound (r - l) threshold) l r y
    SearchState.init hlr (depthBound_spec (r - l) ht)
  refine ⟨s', hs', (key _ SearchState.init _ _ _ _ _ hs' ⟨?_, ?_, ?_⟩).2.1⟩
  · simp [SearchState.init]
  · intro m hm; simp [SearchState.init] at hm
  · exact trivial

/-- C20 (amended) at a concrete input: the constant objective `[0,1]` run on
`[0,1] x [0,1]` with threshold `1/2` from `(+infinity, empty)`. -/
theorem minimize_min_ub_le_ubmin_witness :
    (∀ x y : interval ℚ,
      ((fun _ _ => ⟨Dbl.fin 0, Dbl.fin 1⟩ : itvfun ℚ) x y).left ≠ Dbl.nan ∧
      ((fun _ _ => ⟨Dbl.fin 0, Dbl.fin 1⟩ : itvfun ℚ) x y).right ≠ Dbl.nan) ∧
    ∃ s', minimize Rounding.exact (depthBound ((1 : ℚ) - 0) (Dbl.fin (1 / 2)))
        (fun _ _ => ⟨Dbl.fin 0, Dbl.fin 1⟩) (⟨Dbl.fin 0, Dbl.fin 1⟩ : interval ℚ)
        ⟨Dbl.fin 0, Dbl.fin 1⟩ (Dbl.fin (1 / 2)) SearchState.init = some s' ∧
      ∀ m ∈ s'.ml, s'.min_ub ≤ m.ubmin :=
  have hf : ∀ x y : interval ℚ,
      ((fun _ _ => ⟨Dbl.fin 0, Dbl.fin 1⟩ : itvfun ℚ) x y).left ≠ Dbl.nan ∧
      ((fun _ _ => ⟨Dbl.fin 0, Dbl.fin 1⟩ : itvfun ℚ) x y).right ≠ Dbl.nan :=
    fun _ _ => by dsimp only; decide
  ⟨hf, (minimize_min_ub_le_ubmin (fun _ _ => ⟨Dbl.fin 0, Dbl.fin 1⟩) hf (Dbl.fin (1 / 2))).2
    0 1 ⟨Dbl.fin 0, Dbl.fin 1⟩ (by norm_num) (by rw [Dbl.fin_lt_fin]; norm_num)⟩

end RunInvariants

/-! ### Distribution of the domain -/

section Distribution

variable {K : Type} [LinearOrderedField K]

/-- In exact arithmetic the loop of `main` produces the slices
`[l + i*sz, l + (i+1)*sz]`, `i = 0 .. n-1`. -/
theorem fill_slices_exact (sz : K) : ∀ (n : Nat) (l : K),
    fill_slices Rounding.exact (Dbl.fin sz) n (Dbl.fin l) =
      (List.range n).map
        (fun i : Nat => (⟨Dbl.fin (l + i * sz), Dbl.fin (l + (i + 1) * sz)⟩ : interval K)) := by
  intro n
  induction n with
  | zero => intro l; rfl
  | succ n ih =>
    intro l
    have e : Dbl.add Rounding.exact RoundMode.nearest (Dbl.fin l) (Dbl.fin sz) =
        Dbl.fin (l + sz) := rfl
    rw [fill_slices, e, ih, List.range_succ_eq_map, List.map_cons, List.map_map]
    congr 1
    · simp
    · apply List.map_congr_left
      intro i _
      simp only [Function.comp, Nat.cast_succ]
      congr 2 <;> ring

/-- In exact arithmetic the slice array of a finite non-empty domain `[a,b]`
cut in `N >= 1` parts. -/
theorem arrayX_exact {a b : K} (hab : a ≤ b) {N : Nat} (hN : 1 ≤ N) :
    arrayX Rounding.exact ⟨Dbl.fin a, Dbl.fin b⟩ N =
      (List.range N).map (fun i : Nat =>
        (⟨Dbl.fin (a + i * ((b - a) / N)), Dbl.fin (a + (i + 1) * ((b - a) / N))⟩ :
          interval K)) := by
  have hN0 : (N : K) ≠ 0 := Nat.cast_ne_zero.mpr (by omega)
  have e : Dbl.div Rounding.exact RoundMode.nearest (Dbl.fin (b - a)) (Dbl.fin (N : K)) =
      Dbl.fin ((b - a) / N) := by
    simp [Dbl.div, hN0, Rounding.exact]
  unfold arrayX
  rw [width_exact hab]
  simp only [e]
  exact fill_slices_exact _ _ _

theorem arrayY_eq_arrayX (R : Rounding K) (I : interval K) (N : Nat) :
    arrayY R I N = arrayX R I N := rfl

/-- Contiguous slices of width `sz` starting at `l` cover `[l, l + n*sz]`. -/
theorem slices_cover (sz : K) : ∀ (n : Nat) (l p : K), l ≤ p →
    p ≤ l + n * sz → 1 ≤ n →
    ∃ I ∈ (List.range n).map
        (fun i : Nat => (⟨Dbl.fin (l + i * sz), Dbl.fin (l + (i + 1) * sz)⟩ : interval K)),
      I.contains p := by
  intro n
  induction n with
  | zero => intro l p _ _ h; omega
  | succ n ih =>
    intro l p h1 h2 _
    rw [List.range_succ_eq_map, List.map_cons, List.map_map]
    by_cases hp : p ≤ l + sz
    · refine ⟨_, List.mem_cons_self _ _, ?_⟩
      constructor
      · show l + ((0 : Nat) : K) * sz ≤ p
        simpa using h1
      · show p ≤ l + (((0 : Nat) : K) + 1) * sz
        simpa using hp
    · have hp2 : l + sz ≤ p := (not_le.mp hp).le
      have hn : 1 ≤ n := by
        rcases Nat.eq_zero_or_pos n with h0 | h0
        · subst h0
          exfalso; apply hp
          simpa using h2
        · exact h0
      have h3 : p ≤ (l + sz) + n * sz := by
        have : l + ((n + 1 : Nat) : K) * sz = (l + sz) + n * sz := by push_cast; ring
        rw [← this]; exact h2
      obtain ⟨I, hI, hc⟩ := ih (l + sz) p hp2 h3 hn
      refine ⟨I, List.mem_cons_of_mem _ ?_, hc⟩
      obtain ⟨i, hi, rfl⟩ := List.mem_map.mp hI
      refine List.mem_map.mpr ⟨i, hi, ?_⟩
      simp only [Function.comp, Nat.cast_succ]
      congr 2 <;> ring

/-- C12: the X-partition, in exact arithmetic.  For a finite non-empty domain
`[a,b]` and `N >= 1` workers, `arrayX` holds `N` intervals, the one of index
`i` being `[a + i*(b-a)/N, a + (i+1)*(b-a)/N]`: each has width `(b-a)/N`, the
first starts at `a`, each ends where the next starts, the last ends at `b`,
and every point of `[a,b]` lies in some slice. -/
theorem arrayX_partition (a b : K) (N : Nat) (hab : a ≤ b) (hN : 1 ≤ N) :
    (arrayX Rounding.exact ⟨Dbl.fin a, Dbl.fin b⟩ N).length = N ∧
    (∀ i : Nat, i < N → (arrayX Rounding.exact ⟨Dbl.fin a, Dbl.fin b⟩ N)[i]? =
      some ⟨Dbl.fin (a + i * ((b - a) / N)), Dbl.fin (a + (i + 1) * ((b - a) / N))⟩) ∧
    (∀ I ∈ arrayX Rounding.exact ⟨Dbl.fin a, Dbl.fin b⟩ N,
      interval.width Rounding.exact I = Dbl.fin ((b - a) / N)) ∧
    (∃ I, (arrayX Rounding.exact ⟨Dbl.fin a, Dbl.fin b⟩ N)[0]? = some I ∧
      I.left = Dbl.fin a) ∧
    (∀ i : Nat, i + 1 < N → ∃ I J,
      (arrayX Rounding.exact ⟨Dbl.fin a, Dbl.fin b⟩ N)[i]? = some I ∧
      (arrayX Rounding.exact ⟨Dbl.fin a, Dbl.fin b⟩ N)[i + 1]? = some J ∧
      I.right = J.left) ∧
    (∃ I, (arrayX Rounding.exact ⟨Dbl.fin a, Dbl.fin b⟩ N)[N - 1]? = some I ∧
      I.right = Dbl.fin b) ∧
    (∀ p : K, a ≤ p → p ≤ b →
      ∃ I ∈ arrayX Rounding.exact ⟨Dbl.fin a, Dbl.fin b⟩ N, I.contains p) := by
  have hN0 : (N : K) ≠ 0 := Nat.cast_ne_zero.mpr (by omega)
  have hNpos : (0 : K) < N := Nat.cast_pos.mpr (by omega)
  have hsz : 0 ≤ (b - a) / N := div_nonneg (by linarith) hNpos.le
  have hget : ∀ i : Nat, i < N → (arrayX Rounding.exact ⟨Dbl.fin a, Dbl.fin b⟩ N)[i]? =
      some ⟨Dbl.fin (a + i * ((b - a) / N)), Dbl.fin (a + (i + 1) * ((b - a) / N))⟩ := by
    intro i hi
    rw [arrayX_exact hab hN, List.getElem?_map, List.getElem?_range hi]
    rfl
  refine ⟨by rw [arrayX_exact hab hN]; simp, hget, ?_, ?_, ?_, ?_, ?_⟩
  · intro I hI
    rw [arrayX_exact hab hN] at hI
    obtain ⟨i, _, rfl⟩ := List.mem_map.mp hI
    rw [width_exact (by nlinarith)]
    congr 1; ring
  · exact ⟨_, hget 0 (by omega), by simp⟩
  · intro i hi
    exact ⟨_, _, hget i (by omega), hget (i + 1) hi, by push_cast; rfl⟩
  · refine ⟨_, hget (N - 1) (by omega), ?_⟩
    show Dbl.fin (a + (((N - 1 : Nat) : K) + 1) * ((b - a) / N)) = Dbl.fin b
    congr 1
    have : (((N - 1 : Nat) : K) + 1) = N := by
      rw [Nat.cast_sub hN]; simp
    rw [this]
    field_simp
  · intro p hp1 hp2
    rw [arrayX_exact hab hN]
    apply slices_cover _ N a p hp1 _ hN
    have : a + (N : K) * ((b - a) / N) = b := by field_simp
    rw [this]; exact hp2

/-- C12 at a concrete input: `[0,3]` cut in 3 gives `[0,1]`, `[1,2]`, `[2,3]`. -/
theorem arrayX_partition_witness :
    ((0 : ℚ) ≤ 3 ∧ 1 ≤ 3) ∧
    arrayX Rounding.exact (⟨Dbl.fin 0, Dbl.fin 3⟩ : interval ℚ) 3 =
      [⟨Dbl.fin 0, Dbl.fin 1⟩, ⟨Dbl.fin 1, Dbl.fin 2⟩, ⟨Dbl.fin 2, Dbl.fin 3⟩] ∧
    (arrayX Rounding.exact (⟨Dbl.fin 0, Dbl.fin 3⟩ : interval ℚ) 3).length = 3 ∧
    ∀ p : ℚ, 0 ≤ p → p ≤ 3 →
      ∃ I ∈ arrayX Rounding.exact (⟨Dbl.fin 0, Dbl.fin 3⟩ : interval ℚ) 3, I.contains p :=
  have h := arrayX_partition (0 : ℚ) 3 3 (by norm_num) (by norm_num)
  ⟨by norm_num, by
      rw [arrayX_exact (by norm_num) (by norm_num)]
      simp [List.range_succ]
      norm_num,
    h.1, h.2.2.2.2.2.2⟩

/-- In exact arithmetic the boxes on which the process of rank `rank` calls
the engine: its x-slice paired with each of the `N` y-slices. -/
theorem engine_calls_exact {a b c d : K} (hab : a ≤ b) (hcd : c ≤ d) {N rank : Nat}
    (hN : 1 ≤ N) (hr : rank < N) :
    engine_calls Rounding.exact ⟨Dbl.fin a, Dbl.fin b⟩ ⟨Dbl.fin c, Dbl.fin d⟩ N rank =
      (List.range N).map (fun i : Nat =>
        ((⟨Dbl.fin (a + rank * ((b - a) / N)), Dbl.fin (a + (rank + 1) * ((b - a) / N))⟩ :
            interval K),
          (⟨Dbl.fin (c + i * ((d - c) / N)), Dbl.fin (c + (i + 1) * ((d - c) / N))⟩ :
            interval K))) := by
  have hget : (arrayX Rounding.exact ⟨Dbl.fin a, Dbl.fin b⟩ N)[rank]? =
      some ⟨Dbl.fin (a + rank * ((b - a) / N)), Dbl.fin (a + (rank + 1) * ((b - a) / N))⟩ := by
    rw [arrayX_exact hab hN, List.getElem?_map, List.getElem?_range hr]
    rfl
  unfold engine_calls
  rw [hget, arrayY_eq_arrayX, arrayX_exact hcd hN]
  simp only [List.map_map]
  rfl

/-- C19 (refuted as stated): for `fun.x = fun.y = [0,2]` and 2 workers, the
process of rank 0 calls the engine on `[0,1] x [0,1]` and on `[0,1] x [1,2]`:
the y-intervals are the two halves of `fun.y`, not `fun.y`. -/
theorem engine_calls_y_counterexample :
    engine_calls Rounding.exact (⟨Dbl.fin 0, Dbl.fin 2⟩ : interval ℚ) ⟨Dbl.fin 0, Dbl.fin 2⟩ 2 0 =
      [(⟨Dbl.fin 0, Dbl.fin 1⟩, ⟨Dbl.fin 0, Dbl.fin 1⟩),
        (⟨Dbl.fin 0, Dbl.fin 1⟩, ⟨Dbl.fin 1, Dbl.fin 2⟩)] ∧
    ∃ B ∈ engine_calls Rounding.exact (⟨Dbl.fin 0, Dbl.fin 2⟩ : interval ℚ)
        ⟨Dbl.fin 0, Dbl.fin 2⟩ 2 0,
      B.2 ≠ (⟨Dbl.fin 0, Dbl.fin 2⟩ : interval ℚ) := by
  have e : engine_calls Rounding.exact (⟨Dbl.fin 0, Dbl.fin 2⟩ : interval ℚ)
      ⟨Dbl.fin 0, Dbl.fin 2⟩ 2 0 =
      [(⟨Dbl.fin 0, Dbl.fin 1⟩, ⟨Dbl.fin 0, Dbl.fin 1⟩),
        (⟨Dbl.fin 0, Dbl.fin 1⟩, ⟨Dbl.fin 1, Dbl.fin 2⟩)] := by
    rw [engine_calls_exact (by norm_num) (by norm_num) (by norm_num) (by norm_num)]
    simp [List.range_succ]
    norm_num
  refine ⟨e, ?_⟩
  rw [e]
  exact ⟨_, List.mem_cons_self _ _, by decide⟩

/-- C19 (amended): in exact arithmetic, for finite non-empty domains
`fun.x = [a,b]`, `fun.y = [c,d]`, `N >= 1` workers and a rank below `N`, the
process calls the engine `N` times, call `i` on its own x-slice and on the
y-slice `[c + i*(d-c)/N, c + (i+1)*(d-c)/N]`: the y-axis is cut into `N`
slices like the x-axis; every point of `fun.y` lies in the y-interval of some
call; for `N = 1` the single call is on `fun.x x fun.y`; and the y-interval of
a call is the whole `fun.y` exactly when `N = 1` or `fun.y` is the single
point `c = d`. -/
theorem engine_calls_y_slices (a b c d : K) (N rank : Nat) (hab : a ≤ b) (hcd : c ≤ d)
    (hN : 1 ≤ N) (hr : rank < N) :
    engine_calls Rounding.exact ⟨Dbl.fin a, Dbl.fin b⟩ ⟨Dbl.fin c, Dbl.fin d⟩ N rank =
      (List.range N).map (fun i : Nat =>
        ((⟨Dbl.fin (a + rank * ((b - a) / N)), Dbl.fin (a + (rank + 1) * ((b - a) / N))⟩ :
            interval K),
          (⟨Dbl.fin (c + i * ((d - c) / N)), Dbl.fin (c + (i + 1) * ((d - c) / N))⟩ :
            interval K))) ∧
    (∀ q : K, c ≤ q → q ≤ d →
      ∃ B ∈ engine_calls Rounding.exact ⟨Dbl.fin a, Dbl.fin b⟩ ⟨Dbl.fin c, Dbl.fin d⟩ N rank,
        B.2.contains q) ∧
    (N = 1 →
      engine_calls Rounding.exact ⟨Dbl.fin a, Dbl.fin b⟩ ⟨Dbl.fin c, Dbl.fin d⟩ N rank =
        [(⟨Dbl.fin a, Dbl.fin b⟩, ⟨Dbl.fin c, Dbl.fin d⟩)]) ∧
    (∀ B ∈ engine_calls Rounding.exact ⟨Dbl.fin a, Dbl.fin b⟩ ⟨Dbl.fin c, Dbl.fin d⟩ N rank,
      (B.2 = (⟨Dbl.fin c, Dbl.fin d⟩ : interval K) ↔ N = 1 ∨ c = d)) := by
  have e := engine_calls_exact hab hcd hN hr
  refine ⟨e, ?_, ?_, ?_⟩
  · intro q hq1 hq2
    have hN0 : (N : K) ≠ 0 := Nat.cast_ne_zero.mpr (by omega)
    have hq3 : q ≤ c + (N : K) * ((d - c) / N) := by
      have : c + (N : K) * ((d - c) / N) = d := by field_simp
      rw [this]; exact hq2
    obtain ⟨I, hI, hc⟩ := slices_cover ((d - c) / N) N c q hq1 hq3 hN
    obtain ⟨i, hi, rfl⟩ := List.mem_map.mp hI
    rw [e]
    exact ⟨_, List.mem_map.mpr ⟨i, hi, rfl⟩, hc⟩
  · intro h1
    subst h1
    have h0 : rank = 0 := by omega
    subst h0
    rw [e]
    simp [List.range_succ]
  · intro B hB
    rw [e] at hB
    obtain ⟨i, hi, rfl⟩ := List.mem_map.mp hB
    have hiN : i < N := List.mem_range.mp hi
    have hN0 : (N : K) ≠ 0 := Nat.cast_ne_zero.mpr (by omega)
    have hNpos : (0 : K) < N := Nat.cast_pos.mpr (by omega)
    constructor
    · intro h
      have h1 : c + (i : K) * ((d - c) / N) = c := by
        have := congrArg interval.left h
        exact Dbl.fin.inj this
      have h2 : c + ((i : K) + 1) * ((d - c) / N) = d := by
        have := congrArg interval.right h
        exact Dbl.fin.inj this
      have h3 : (d - c) / N = d - c := by linarith
      have h4 : (d - c) * ((N : K) - 1) = 0 := by
        have h5 : d - c = (d - c) * N := by
          rw [div_eq_iff hN0] at h3
          exact h3
        linarith
      rcases mul_eq_zero.mp h4 with h6 | h6
      · right
        linarith
      · left
        have h7 : (N : K) = ((1 : Nat) : K) := by
          rw [Nat.cast_one]
          linarith
        exact Nat.cast_injective h7
    · rintro (h | h)
      · subst h
        have hi0 : i = 0 := by omega
        subst hi0
        simp
      · subst h
        simp

/-- C19 (amended) at concrete inputs: `fun.x = fun.y = [0,2]`, 2 workers,
rank 1, where no call receives the whole `fun.y`; and `fun.y = [5,5]`, 2
workers, where both calls receive `[5,5]`. -/
theorem engine_calls_y_slices_witness :
    (((0 : ℚ) ≤ 2 ∧ (0 : ℚ) ≤ 2) ∧ 1 ≤ 2 ∧ 1 < 2) ∧
    engine_calls Rounding.exact (⟨Dbl.fin 0, Dbl.fin 2⟩ : interval ℚ) ⟨Dbl.fin 0, Dbl.fin 2⟩ 2 1 =
      [(⟨Dbl.fin 1, Dbl.fin 2⟩, ⟨Dbl.fin 0, Dbl.fin 1⟩),
        (⟨Dbl.fin 1, Dbl.fin 2⟩, ⟨Dbl.fin 1, Dbl.fin 2⟩)] ∧
    (∀ q : ℚ, 0 ≤ q → q ≤ 2 →
      ∃ B ∈ engine_calls Rounding.exact (⟨Dbl.fin 0, Dbl.fin 2⟩ : interval ℚ)
          ⟨Dbl.fin 0, Dbl.fin 2⟩ 2 1,
        B.2.contains q) ∧
    (∀ B ∈ engine_calls Rounding.exact (⟨Dbl.fin 0, Dbl.fin 2⟩ : interval ℚ)
        ⟨Dbl.fin 0, Dbl.fin 2⟩ 2 1,
      B.2 ≠ (⟨Dbl.fin 0, Dbl.fin 2⟩ : interval ℚ)) ∧
    ∀ B ∈ engine_calls Rounding.exact (⟨Dbl.fin 0, Dbl.fin 2⟩ : interval ℚ)
        ⟨Dbl.fin 5, Dbl.fin 5⟩ 2 1,
      B.2 = (⟨Dbl.fin 5, Dbl.fin 5⟩ : interval ℚ) :=
  have h := engine_calls_y_slices (0 : ℚ) 2 0 2 2 1 (by norm_num) (by norm_num) (by norm_num)
    (by norm_num)
  have g := engine_calls_y_slices (0 : ℚ) 2 5 5 2 1 (by norm_num) (by norm_num) (by norm_num)
    (by norm_num)
  ⟨by norm_num, by
      rw [h.1]
      simp [List.range_succ]
      norm_num,
    h.2.1, fun B hB hB2 => by
      have h3 := (h.2.2.2 B hB).mp hB2
      norm_num at h3,
    fun B hB => (g.2.2.2 B hB).mpr (Or.inr rfl)⟩

end Distribution

/-! ### Square boxes -/

section Square

variable {K : Type} [LinearOrderedField K]

/-- The improve step adds no record. -/
theorem mem_of_mem_improve {fxy : interval K} {s : SearchState K} {r : minimizer K}
    (h : r ∈ (improve fxy s).ml) : r ∈ s.ml := by
  by_cases hlt : fxy.right < s.min_ub
  · rw [improve_of_lt hlt] at h; exact (of_mem_takeWhile h).2
  · rw [improve_of_not_lt hlt] at h; exact h

/-- Along a run on a square box every record of the final collection was
there before the call or has both widths at most the threshold. -/
theorem minimize_square_records (f : itvfun K) (threshold : Dbl K) :
    ∀ (d : Nat) (xl xr yl yr : K) (s s' : SearchState K),
      xl ≤ xr → yl ≤ yr → xr - xl = yr - yl →
      minimize Rounding.exact d f ⟨Dbl.fin xl, Dbl.fin xr⟩ ⟨Dbl.fin yl, Dbl.fin yr⟩
        threshold s = some s' →
      ∀ r ∈ s'.ml, r ∈ s.ml ∨
        (interval.width Rounding.exact r.xmin ≤ threshold ∧
          interval.width Rounding.exact r.ymin ≤ threshold) := by
  intro d
  induction d with
  | zero =>
    intro xl xr yl yr s s' hx hy hsq hrun r hr
    by_cases h : (f ⟨Dbl.fin xl, Dbl.fin xr⟩ ⟨Dbl.fin yl, Dbl.fin yr⟩).left > s.min_ub
    · rw [minimize_prune _ _ _ _ _ _ _ h] at hrun
      cases hrun; exact Or.inl hr
    · by_cases hw : interval.width Rounding.exact ⟨Dbl.fin xl, Dbl.fin xr⟩ ≤ threshold
      · rw [minimize_leaf_eq _ _ _ _ _ _ _ h hw] at hrun
        cases hrun
        rcases (minimizer_list.mem_insert _ _ r).mp hr with rfl | hr
        · refine Or.inr ⟨hw, ?_⟩
          show interval.width Rounding.exact ⟨Dbl.fin yl, Dbl.fin yr⟩ ≤ threshold
          rw [width_exact hy, ← hsq, ← width_exact hx]; exact hw
        · exact Or.inl (mem_of_mem_improve hr)
      · rw [minimize_zero_eq _ _ _ _ _ _ h hw] at hrun
        cases hrun
  | succ d ih =>
    intro xl xr yl yr s s' hx hy hsq hrun r hr
    by_cases h : (f ⟨Dbl.fin xl, Dbl.fin xr⟩ ⟨Dbl.fin yl, Dbl.fin yr⟩).left > s.min_ub
    · rw [minimize_prune _ _ _ _ _ _ _ h] at hrun
      cases hrun; exact Or.inl hr
    · by_cases hw : interval.width Rounding.exact ⟨Dbl.fin xl, Dbl.fin xr⟩ ≤ threshold
      · rw [minimize_leaf_eq _ _ _ _ _ _ _ h hw] at hrun
        cases hrun
        rcases (minimizer_list.mem_insert _ _ r).mp hr with rfl | hr
        · refine Or.inr ⟨hw, ?_⟩
          show interval.width Rounding.exact ⟨Dbl.fin yl, Dbl.fin yr⟩ ≤ threshold
          rw [width_exact hy, ← hsq, ← width_exact hx]; exact hw
        · exact Or.inl (mem_of_mem_improve hr)
      · obtain ⟨s1, s2, s3, r1, r2, r3, r4⟩ := minimize_succ_some h hw hrun
        obtain ⟨ex1, ex2⟩ := split_box_exact_x hx (⟨Dbl.fin yl, Dbl.fin yr⟩ : interval K)
        obtain ⟨ey1, ey2⟩ := split_box_exact_y (⟨Dbl.fin xl, Dbl.fin xr⟩ : interval K) hy
        rw [ex1, ey1] at r1
        rw [ex1, ey2] at r2
        rw [ex2, ey1] at r3
        rw [ex2, ey2] at r4
        have hxm1 : xl ≤ 1 / 2 * (xl + xr) := by linarith only [hx]
        have hxm2 : 1 / 2 * (xl + xr) ≤ xr := by linarith only [hx]
        have hym1 : yl ≤ 1 / 2 * (yl + yr) := by linarith only [hy]
        have hym2 : 1 / 2 * (yl + yr) ≤ yr := by linarith only [hy]
        have q1 : 1 / 2 * (xl + xr) - xl = 1 / 2 * (yl + yr) - yl := by linarith only [hsq]
        have q2 : 1 / 2 * (xl + xr) - xl = yr - 1 / 2 * (yl + yr) := by linarith only [hsq]
        have q3 : xr - 1 / 2 * (xl + xr) = 1 / 2 * (yl + yr) - yl := by linarith only [hsq]
        have q4 : xr - 1 / 2 * (xl + xr) = yr - 1 / 2 * (yl + yr) := by linarith only [hsq]
        rcases ih _ _ _ _ _ _ hxm2 hym2 q4 r4 r hr with h4 | h4
        · rcases ih _ _ _ _ _ _ hxm2 hym1 q3 r3 r h4 with h3 | h3
          · rcases ih _ _ _ _ _ _ hxm1 hym2 q2 r2 r h3 with h2 | h2
            · rcases ih _ _ _ _ _ _ hxm1 hym1 q1 r1 r h2 with h1 | h1
              · exact Or.inl (mem_of_mem_improve h1)
              · exact Or.inr h1
            · exact Or.inr h2
          · exact Or.inr h3
        · exact Or.inr h4

/-- C18: checking one axis suffices for square boxes (exact arithmetic).  For
a finite non-empty box whose x-width equals its y-width and a threshold
`> 0`, the four intervals produced by `split_box` all have width half the
parent's, so the sub-boxes are square again; and the run of `minimize` from
`(+infinity, empty)` returns a collection in which every record has
`xmin.width() <= threshold` and `ymin.width() <= threshold`. -/
theorem minimize_square_widths [FloorRing K] (f : itvfun K) (xl xr yl yr : K)
    (threshold : Dbl K) (hx : xl ≤ xr) (hy : yl ≤ yr) (hsq : xr - xl = yr - yl)
    (ht : Dbl.fin 0 < threshold) :
    (interval.width Rounding.exact
        (split_box Rounding.exact ⟨Dbl.fin xl, Dbl.fin xr⟩ ⟨Dbl.fin yl, Dbl.fin yr⟩).1 =
        Dbl.fin ((xr - xl) / 2) ∧
      interval.width Rounding.exact
        (split_box Rounding.exact ⟨Dbl.fin xl, Dbl.fin xr⟩ ⟨Dbl.fin yl, Dbl.fin yr⟩).2.1 =
        Dbl.fin ((xr - xl) / 2) ∧
      interval.width Rounding.exact
        (split_box Rounding.exact ⟨Dbl.fin xl, Dbl.fin xr⟩ ⟨Dbl.fin yl, Dbl.fin yr⟩).2.2.1 =
        Dbl.fin ((xr - xl) / 2) ∧
      interval.width Rounding.exact
        (split_box Rounding.exact ⟨Dbl.fin xl, Dbl.fin xr⟩ ⟨Dbl.fin yl, Dbl.fin yr⟩).2.2.2 =
        Dbl.fin ((xr - xl) / 2)) ∧
    ∃ s', minimize Rounding.exact (depthBound (xr - xl) threshold) f
        ⟨Dbl.fin xl, Dbl.fin xr⟩ ⟨Dbl.fin yl, Dbl.fin yr⟩ threshold SearchState.init
        = some s' ∧
      ∀ r ∈ s'.ml, interval.width Rounding.exact r.xmin ≤ threshold ∧
        interval.width Rounding.exact r.ymin ≤ threshold := by
  obtain ⟨ex1, ex2⟩ := split_box_exact_x hx (⟨Dbl.fin yl, Dbl.fin yr⟩ : interval K)
  obtain ⟨ey1, ey2⟩ := split_box_exact_y (⟨Dbl.fin xl, Dbl.fin xr⟩ : interval K) hy
  refine ⟨⟨?_, ?_, ?_, ?_⟩, ?_⟩
  · rw [ex1, width_exact (by linarith only [hx])]; congr 1; ring
  · rw [ex2, width_exact (by linarith only [hx])]; congr 1; ring
  · rw [ey1, width_exact (by linarith only [hy])]; congr 1; linarith only [hsq]
  · rw [ey2, width_exact (by linarith only [hy])]; congr 1; linarith only [hsq]
  · obtain ⟨s', hs'⟩ := minimize_returns f threshold (depthBound (xr - xl) threshold) xl xr
      ⟨Dbl.fin yl, Dbl.fin yr⟩ SearchState.init hx (depthBound_spec (xr - xl) ht)
    refine ⟨s', hs', fun r hr => ?_⟩
    rcases minimize_square_records f threshold _ xl xr yl yr _ _ hx hy hsq hs' r hr with h | h
    · simp [SearchState.init] at h
    · exact h

/-- C18 at a concrete input: `booth` on the square `[-10,10] x [-10,10]` with
threshold `1/1000`. -/
theorem minimize_square_widths_witness :
    (((-10 : ℚ) ≤ 10 ∧ (-10 : ℚ) ≤ 10) ∧ (10 : ℚ) - (-10) = 10 - (-10) ∧
      (Dbl.fin 0 : Dbl ℚ) < Dbl.fin (1 / 1000)) ∧
    ∃ s', minimize Rounding.exact (depthBound ((10 : ℚ) - (-10)) (Dbl.fin (1 / 1000)))
        (booth Rounding.exact) (⟨Dbl.fin (-10), Dbl.fin 10⟩ : interval ℚ)
        ⟨Dbl.fin (-10), Dbl.fin 10⟩ (Dbl.fin (1 / 1000)) SearchState.init = some s' ∧
      ∀ r ∈ s'.ml, interval.width Rounding.exact r.xmin ≤ Dbl.fin (1 / 1000) ∧
        interval.width Rounding.exact r.ymin ≤ Dbl.fin (1 / 1000) :=
  have ht : (Dbl.fin 0 : Dbl ℚ) < Dbl.fin (1 / 1000) := by
    rw [Dbl.fin_lt_fin]; norm_num
  ⟨⟨by norm_num, by norm_num, ht⟩,
    (minimize_square_widths (booth Rounding.exact) (-10 : ℚ) 10 (-10) 10 (Dbl.fin (1 / 1000))
      (by norm_num) (by norm_num) (by norm_num) ht).2⟩

end Square

/-! ### The final bound and the full quadtree -/

section Quadtree

variable {K : Type} [LinearOrderedField K]

theorem Dbl.le_pinf {a : Dbl K} (h : a ≠ Dbl.nan) : a ≤ Dbl.pinf := by
  cases a with
  | nan => exact absurd rfl h
  | ninf => exact trivial
  | fin v => exact trivial
  | pinf => exact trivial

theorem minimize_in_order_prune (R : Rounding K) (order : List (Fin 4)) (d : Nat) (f : itvfun K)
    (x y : interval K) (threshold : Dbl K) (s : SearchState K)
    (h : (f x y).left > s.min_ub) :
    minimize_in_order R order d f x y threshold s = some s := by
  unfold minimize_in_order
  simp only [h, if_true]

theorem minimize_in_order_leaf_eq (R : Rounding K) (order : List (Fin 4)) (d : Nat)
    (f : itvfun K) (x y : interval K) (threshold : Dbl K) (s : SearchState K)
    (h : ¬ (f x y).left > s.min_ub) (hw : interval.width R x ≤ threshold) :
    minimize_in_order R order d f x y threshold s =
      some ⟨(improve (f x y) s).min_ub,
        minimizer_list.insert (improve (f x y) s).ml ⟨x, y, (f x y).left, (f x y).right⟩⟩ := by
  unfold minimize_in_order
  simp only [h, hw, if_true, if_false]

theorem minimize_in_order_zero_eq (R : Rounding K) (order : List (Fin 4)) (f : itvfun K)
    (x y : interval K) (threshold : Dbl K) (s : SearchState K)
    (h : ¬ (f x y).left > s.min_ub) (hw : ¬ interval.width R x ≤ threshold) :
    minimize_in_order R order 0 f x y threshold s = none := by
  unfold minimize_in_order
  simp only [h, hw, if_false]

theorem minimize_in_order_succ_eq (R : Rounding K) (order : List (Fin 4)) (d : Nat)
    (f : itvfun K) (x y : interval K) (threshold : Dbl K) (s : SearchState K)
    (h : ¬ (f x y).left > s.min_ub) (hw : ¬ interval.width R x ≤ threshold) :
    minimize_in_order R order (d + 1) f x y threshold s =
      order.foldlM
        (fun s i => minimize_in_order R order d f (quadrant (split_box R x y) i).1
          (quadrant (split_box R x y) i).2 threshold s) (improve (f x y) s) := by
  rw [minimize_in_order]
  simp only [h, hw, if_false]

/-- Run in the order of the source, `minimize_in_order` is `minimize`. -/
theorem minimize_in_order_source (R : Rounding K) (f : itvfun K) (threshold : Dbl K) :
    ∀ (d : Nat) (x y : interval K) (s : SearchState K),
      minimize_in_order R [0, 1, 2, 3] d f x y threshold s = minimize R d f x y threshold s := by
  intro d
  induction d with
  | zero =>
    intro x y s
    by_cases h : (f x y).left > s.min_ub
    · rw [minimize_prune _ _ _ _ _ _ _ h, minimize_in_order_prune _ _ _ _ _ _ _ _ h]
    · by_cases hw : interval.width R x ≤ threshold
      · rw [minimize_leaf_eq _ _ _ _ _ _ _ h hw, minimize_in_order_leaf_eq _ _ _ _ _ _ _ _ h hw]
      · rw [minimize_zero_eq _ _ _ _ _ _ h hw, minimize_in_order_zero_eq _ _ _ _ _ _ _ h hw]
  | succ d ih =>
    intro x y s
    by_cases h : (f x y).left > s.min_ub
    · rw [minimize_prune _ _ _ _ _ _ _ h, minimize_in_order_prune _ _ _ _ _ _ _ _ h]
    · by_cases hw : interval.width R x ≤ threshold
      · rw [minimize_leaf_eq _ _ _ _ _ _ _ h hw, minimize_in_order_leaf_eq _ _ _ _ _ _ _ _ h hw]
      · rw [minimize_succ_eq _ _ _ _ _ _ _ h hw, minimize_in_order_succ_eq _ _ _ _ _ _ _ _ h hw]
        simp only [List.foldlM_cons, List.foldlM_nil, ih, quadrant, bind_pure]
        rfl

/-- In exact arithmetic each quadrant of a finite non-empty box is a finite
non-empty box inside it, of half the x-width. -/
theorem quadrant_exact {xl xr yl yr : K} (hx : xl ≤ xr) (hy : yl ≤ yr) (i : Fin 4) :
    ∃ cxl cxr cyl cyr : K,
      quadrant (split_box Rounding.exact ⟨Dbl.fin xl, Dbl.fin xr⟩ ⟨Dbl.fin yl, Dbl.fin yr⟩) i =
        (⟨Dbl.fin cxl, Dbl.fin cxr⟩, ⟨Dbl.fin cyl, Dbl.fin cyr⟩) ∧
      cxl ≤ cxr ∧ cyl ≤ cyr ∧ xl ≤ cxl ∧ cxr ≤ xr ∧ yl ≤ cyl ∧ cyr ≤ yr ∧
      cxr - cxl = (xr - xl) / 2 := by
  obtain ⟨ex1, ex2⟩ := split_box_exact_x hx (⟨Dbl.fin yl, Dbl.fin yr⟩ : interval K)
  obtain ⟨ey1, ey2⟩ := split_box_exact_y (⟨Dbl.fin xl, Dbl.fin xr⟩ : interval K) hy
  have hxm1 : xl ≤ 1 / 2 * (xl + xr) := by linarith only [hx]
  have hxm2 : 1 / 2 * (xl + xr) ≤ xr := by linarith only [hx]
  have hym1 : yl ≤ 1 / 2 * (yl + yr) := by linarith only [hy]
  have hym2 : 1 / 2 * (yl + yr) ≤ yr := by linarith only [hy]
  fin_cases i
  · exact ⟨_, _, _, _, by show (_, _) = _; rw [ex1, ey1], hxm1, hym1, le_refl _, hxm2,
      le_refl _, hym2, by ring⟩
  · exact ⟨_, _, _, _, by show (_, _) = _; rw [ex1, ey2], hxm1, hym2, le_refl _, hxm2,
      hym1, le_refl _, by ring⟩
  · exact ⟨_, _, _, _, by show (_, _) = _; rw [ex2, ey1], hxm2, hym1, hxm1, le_refl _,
      le_refl _, hym2, by ring⟩
  · exact ⟨_, _, _, _, by show (_, _) = _; rw [ex2, ey2], hxm2, hym2, hxm1, le_refl _,
      hym1, le_refl _, by ring⟩

/-- In exact arithmetic every box of the quadtree under a finite non-empty
box is a finite non-empty box inside it. -/
theorem inQuadtree_inside (threshold : Dbl K) :
    ∀ (x y : interval K) (B : interval K × interval K),
      inQuadtree Rounding.exact threshold x y B →
      ∀ xl xr yl yr : K, x = ⟨Dbl.fin xl, Dbl.fin xr⟩ → y = ⟨Dbl.fin yl, Dbl.fin yr⟩ →
        xl ≤ xr → yl ≤ yr →
        ∃ bxl bxr byl byr : K, B = (⟨Dbl.fin bxl, Dbl.fin bxr⟩, ⟨Dbl.fin byl, Dbl.fin byr⟩) ∧
          bxl ≤ bxr ∧ byl ≤ byr ∧ xl ≤ bxl ∧ bxr ≤ xr ∧ yl ≤ byl ∧ byr ≤ yr := by
  intro x y B h
  induction h with
  | root x y =>
    intro xl xr yl yr ex ey hx hy
    subst ex ey
    exact ⟨xl, xr, yl, yr, rfl, hx, hy, le_refl _, le_refl _, le_refl _, le_refl _⟩
  | child x y i B _ _ ih =>
    intro xl xr yl yr ex ey hx hy
    subst ex ey
    obtain ⟨cxl, cxr, cyl, cyr, e, h1, h2, h3, h4, h5, h6, _⟩ := quadrant_exact hx hy i
    obtain ⟨bxl, bxr, byl, byr, eB, g1, g2, g3, g4, g5, g6⟩ :=
      ih cxl cxr cyl cyr (by rw [e]) (by rw [e]) h1 h2
    exact ⟨bxl, bxr, byl, byr, eB, g1, g2, h3.trans g3, g4.trans h4, h5.trans g5, g6.trans h6⟩

/-- The quadtree under a box whose x-width is at most the threshold is the
box alone. -/
theorem inQuadtree_leaf {R : Rounding K} {threshold : Dbl K} {x y : interval K}
    {B : interval K × interval K} (hw : interval.width R x ≤ threshold)
    (h : inQuadtree R threshold x y B) : B = (x, y) := by
  cases h with
  | root => rfl
  | child _ _ i _ hnw _ => exact absurd hw hnw

/-- The effect of the improve step on `min_ub`, away from NaN. -/
theorem improve_min_ub (fxy : interval K) (s : SearchState K) (hs : s.min_ub ≠ Dbl.nan)
    (hr : fxy.right ≠ Dbl.nan) :
    (improve fxy s).min_ub ≠ Dbl.nan ∧ (improve fxy s).min_ub ≤ s.min_ub ∧
    (improve fxy s).min_ub ≤ fxy.right ∧
    ((improve fxy s).min_ub = s.min_ub ∨ (improve fxy s).min_ub = fxy.right) := by
  by_cases h : fxy.right < s.min_ub
  · rw [improve_of_lt h]
    exact ⟨hr, Dbl.le_of_ltD h, Dbl.le_reflD hr, Or.inr rfl⟩
  · rw [improve_of_not_lt h]
    refine ⟨hs, Dbl.le_reflD hs, ?_, Or.inl rfl⟩
    rcases Dbl.le_or_lt_of_not_nan hs hr with h2 | h2
    · exact h2
    · exact absurd h2 h

/-- The core of C16: in exact arithmetic, for any visiting order that covers
the four quadrants, a run on a finite non-empty box returns, and its final
`min_ub` is the smaller of the `min_ub` on entry and the least `f(B).right`
over the boxes `B` of the full quadtree under the box. -/
theorem minimize_in_order_bound (f : itvfun K) (threshold : Dbl K) (order : List (Fin 4))
    (hne : ∀ xl xr yl yr : K, xl ≤ xr → yl ≤ yr →
      (f ⟨Dbl.fin xl, Dbl.fin xr⟩ ⟨Dbl.fin yl, Dbl.fin yr⟩).left ≤
        (f ⟨Dbl.fin xl, Dbl.fin xr⟩ ⟨Dbl.fin yl, Dbl.fin yr⟩).right)
    (hmono : ∀ xl xr yl yr xl2 xr2 yl2 yr2 : K, xl ≤ xr → yl ≤ yr →
      xl2 ≤ xl → xr ≤ xr2 → yl2 ≤ yl → yr ≤ yr2 →
      (f ⟨Dbl.fin xl2, Dbl.fin xr2⟩ ⟨Dbl.fin yl2, Dbl.fin yr2⟩).left ≤
        (f ⟨Dbl.fin xl, Dbl.fin xr⟩ ⟨Dbl.fin yl, Dbl.fin yr⟩).left)
    (hcover : ∀ i, i ∈ order) :
    ∀ (d : Nat) (xl xr yl yr : K) (s : SearchState K), xl ≤ xr → yl ≤ yr →
      Dbl.fin ((xr - xl) / 2 ^ d) ≤ threshold → s.min_ub ≠ Dbl.nan →
      ∃ s', minimize_in_order Rounding.exact order d f ⟨Dbl.fin xl, Dbl.fin xr⟩
          ⟨Dbl.fin yl, Dbl.fin yr⟩ threshold s = some s' ∧
        s'.min_ub ≠ Dbl.nan ∧ s'.min_ub ≤ s.min_ub ∧
        (∀ B, inQuadtree Rounding.exact threshold ⟨Dbl.fin xl, Dbl.fin xr⟩
            ⟨Dbl.fin yl, Dbl.fin yr⟩ B → s'.min_ub ≤ (f B.1 B.2).right) ∧
        (s'.min_ub = s.min_ub ∨
          ∃ B, inQuadtree Rounding.exact threshold ⟨Dbl.fin xl, Dbl.fin xr⟩
            ⟨Dbl.fin yl, Dbl.fin yr⟩ B ∧ s'.min_ub = (f B.1 B.2).right) := by
  -- a pruned box: nothing in its quadtree can lower `min_ub`
  have hpruned : ∀ (xl xr yl yr : K) (s : SearchState K), xl ≤ xr → yl ≤ yr →
      s.min_ub ≠ Dbl.nan →
      (f ⟨Dbl.fin xl, Dbl.fin xr⟩ ⟨Dbl.fin yl, Dbl.fin yr⟩).left > s.min_ub →
      ∀ B, inQuadtree Rounding.exact threshold ⟨Dbl.fin xl, Dbl.fin xr⟩
        ⟨Dbl.fin yl, Dbl.fin yr⟩ B → s.min_ub ≤ (f B.1 B.2).right := by
    intro xl xr yl yr s hx hy _ h B hB
    obtain ⟨bxl, bxr, byl, byr, rfl, g1, g2, g3, g4, g5, g6⟩ :=
      inQuadtree_inside threshold _ _ B hB xl xr yl yr rfl rfl hx hy
    exact Dbl.le_of_lt_of_leD h
      (Dbl.le_transD (hmono bxl bxr byl byr xl xr yl yr g1 g2 g3 g4 g5 g6) (hne _ _ _ _ g1 g2))
  intro d
  induction d with
  | zero =>
    intro xl xr yl yr s hx hy hwd hs
    by_cases h : (f ⟨Dbl.fin xl, Dbl.fin xr⟩ ⟨Dbl.fin yl, Dbl.fin yr⟩).left > s.min_ub
    · exact ⟨s, minimize_in_order_prune _ _ _ _ _ _ _ _ h, hs, Dbl.le_reflD hs,
        hpruned xl xr yl yr s hx hy hs h, Or.inl rfl⟩
    · have hw : interval.width Rounding.exact ⟨Dbl.fin xl, Dbl.fin xr⟩ ≤ threshold := by
        rw [width_exact hx]; simpa using hwd
      obtain ⟨i1, i2, i3, i4⟩ := improve_min_ub (f ⟨Dbl.fin xl, Dbl.fin xr⟩
        ⟨Dbl.fin yl, Dbl.fin yr⟩) s hs (Dbl.ne_nan_of_le_right (hne xl xr yl yr hx hy))
      refine ⟨_, minimize_in_order_leaf_eq _ _ _ _ _ _ _ _ h hw, i1, i2, ?_, ?_⟩
      · intro B hB
        rw [inQuadtree_leaf hw hB]; exact i3
      · rcases i4 with i4 | i4
        · exact Or.inl i4
        · exact Or.inr ⟨_, inQuadtree.root _ _, i4⟩
  | succ d ih =>
    intro xl xr yl yr s hx hy hwd hs
    by_cases h : (f ⟨Dbl.fin xl, Dbl.fin xr⟩ ⟨Dbl.fin yl, Dbl.fin yr⟩).left > s.min_ub
    · exact ⟨s, minimize_in_order_prune _ _ _ _ _ _ _ _ h, hs, Dbl.le_reflD hs,
        hpruned xl xr yl yr s hx hy hs h, Or.inl rfl⟩
    · obtain ⟨i1, i2, i3, i4⟩ := improve_min_ub (f ⟨Dbl.fin xl, Dbl.fin xr⟩
        ⟨Dbl.fin yl, Dbl.fin yr⟩) s hs (Dbl.ne_nan_of_le_right (hne xl xr yl yr hx hy))
      by_cases hw : interval.width Rounding.exact ⟨Dbl.fin xl, Dbl.fin xr⟩ ≤ threshold
      · refine ⟨_, minimize_in_order_leaf_eq _ _ _ _ _ _ _ _ h hw, i1, i2, ?_, ?_⟩
        · intro B hB
          rw [inQuadtree_leaf hw hB]; exact i3
        · rcases i4 with i4 | i4
          · exact Or.inl i4
          · exact Or.inr ⟨_, inQuadtree.root _ _, i4⟩
      · -- the sibling calls, in any order
        have hfold : ∀ (l : List (Fin 4)) (t : SearchState K), t.min_ub ≠ Dbl.nan →
            ∃ t', l.foldlM
                (fun s i => minimize_in_order Rounding.exact order d f
                  (quadrant (split_box Rounding.exact ⟨Dbl.fin xl, Dbl.fin xr⟩
                    ⟨Dbl.fin yl, Dbl.fin yr⟩) i).1
                  (quadrant (split_box Rounding.exact ⟨Dbl.fin xl, Dbl.fin xr⟩
                    ⟨Dbl.fin yl, Dbl.fin yr⟩) i).2 threshold s) t = some t' ∧
              t'.min_ub ≠ Dbl.nan ∧ t'.min_ub ≤ t.min_ub ∧
              (∀ i ∈ l, ∀ B, inQuadtree Rounding.exact threshold
                  (quadrant (split_box Rounding.exact ⟨Dbl.fin xl, Dbl.fin xr⟩
                    ⟨Dbl.fin yl, Dbl.fin yr⟩) i).1
                  (quadrant (split_box Rounding.exact ⟨Dbl.fin xl, Dbl.fin xr⟩
                    ⟨Dbl.fin yl, Dbl.fin yr⟩) i).2 B → t'.min_ub ≤ (f B.1 B.2).right) ∧
              (t'.min_ub = t.min_ub ∨ ∃ i ∈ l, ∃ B, inQuadtree Rounding.exact threshold
                  (quadrant (split_box Rounding.exact ⟨Dbl.fin xl, Dbl.fin xr⟩
                    ⟨Dbl.fin yl, Dbl.fin yr⟩) i).1
                  (quadrant (split_box Rounding.exact ⟨Dbl.fin xl, Dbl.fin xr⟩
                    ⟨Dbl.fin yl, Dbl.fin yr⟩) i).2 B ∧ t'.min_ub = (f B.1 B.2).right) := by
          intro l
          induction l with
          | nil =>
            intro t ht
            exact ⟨t, rfl, ht, Dbl.le_reflD ht, fun i hi => absurd hi (List.not_mem_nil i),
              Or.inl rfl⟩
          | cons i l ihl =>
            intro t ht
            obtain ⟨cxl, cxr, cyl, cyr, e, h1, h2, _, _, _, _, h7⟩ := quadrant_exact hx hy i
            have hwc : Dbl.fin ((cxr - cxl) / 2 ^ d) ≤ threshold := by
              have : (cxr - cxl) / 2 ^ d = (xr - xl) / 2 ^ (d + 1) := by
                rw [h7, pow_succ, div_div]; congr 1; ring
              rw [this]; exact hwd
            obtain ⟨t1, r1, a1, a2, a3, a4⟩ := ih cxl cxr cyl cyr t h1 h2 hwc ht
            obtain ⟨t2, r2, b1, b2, b3, b4⟩ := ihl t1 a1
            refine ⟨t2, ?_, b1, Dbl.le_transD b2 a2, ?_, ?_⟩
            · rw [List.foldlM_cons, e, r1]
              exact r2
            · intro j hj B hB
              rcases List.mem_cons.mp hj with rfl | hj
              · rw [e] at hB
                exact Dbl.le_transD b2 (a3 B hB)
              · exact b3 j hj B hB
            · rcases b4 with b4 | ⟨j, hj, B, hB, hB2⟩
              · rcases a4 with a4 | ⟨B, hB, hB2⟩
                · exact Or.inl (b4.trans a4)
                · refine Or.inr ⟨i, List.mem_cons_self _ _, B, ?_, b4.trans hB2⟩
                  rw [e]; exact hB
              · exact Or.inr ⟨j, List.mem_cons_of_mem _ hj, B, hB, hB2⟩
        obtain ⟨t', r, c1, c2, c3, c4⟩ := hfold order _ i1
        refine ⟨t', ?_, c1, Dbl.le_transD c2 i2, ?_, ?_⟩
        · rw [minimize_in_order_succ_eq _ _ _ _ _ _ _ _ h hw]; exact r
        · intro B hB
          cases hB with
          | root => exact Dbl.le_transD c2 i3
          | child _ _ i _ _ hB2 => exact c3 i (hcover i) B hB2
        · rcases c4 with c4 | ⟨i, _, B, hB, hB2⟩
          · rcases i4 with i4 | i4
            · exact Or.inl (c4.trans i4)
            · exact Or.inr ⟨_, inQuadtree.root _ _, c4.trans i4⟩
          · exact Or.inr ⟨B, inQuadtree.child _ _ i B hw hB, hB2⟩

/-- C16: pruning does not change the certified bound (exact arithmetic).  For
an objective that is inclusion-monotonic and returns non-empty NaN-free
intervals on boxes with finite bounds, a finite non-empty initial box and a
threshold `> 0`, the run of `minimize` from `(+infinity, empty)` returns, and
its final `min_ub` is the minimum of `+infinity` and the values `f(B).right`
over all boxes `B` of the full quadtree (it is below each of them and equal
to one of them or to `+infinity`); the run with the four sibling calls in any
other order that covers the four quadrants ends with the same `min_ub`. -/
theorem minimize_min_ub_is_quadtree_min [FloorRing K] (f : itvfun K)
    (hf : ∀ xl xr yl yr : K, xl ≤ xr → yl ≤ yr →
      (f ⟨Dbl.fin xl, Dbl.fin xr⟩ ⟨Dbl.fin yl, Dbl.fin yr⟩).empty = false ∧
      (f ⟨Dbl.fin xl, Dbl.fin xr⟩ ⟨Dbl.fin yl, Dbl.fin yr⟩).left ≠ Dbl.nan ∧
      (f ⟨Dbl.fin xl, Dbl.fin xr⟩ ⟨Dbl.fin yl, Dbl.fin yr⟩).right ≠ Dbl.nan)
    (hmono : ∀ xl xr yl yr xl2 xr2 yl2 yr2 : K, xl ≤ xr → yl ≤ yr →
      interval.subset (⟨Dbl.fin xl, Dbl.fin xr⟩ : interval K) ⟨Dbl.fin xl2, Dbl.fin xr2⟩ →
      interval.subset (⟨Dbl.fin yl, Dbl.fin yr⟩ : interval K) ⟨Dbl.fin yl2, Dbl.fin yr2⟩ →
      interval.subset (f ⟨Dbl.fin xl, Dbl.fin xr⟩ ⟨Dbl.fin yl, Dbl.fin yr⟩)
        (f ⟨Dbl.fin xl2, Dbl.fin xr2⟩ ⟨Dbl.fin yl2, Dbl.fin yr2⟩))
    (xl xr yl yr : K) (hx : xl ≤ xr) (hy : yl ≤ yr)
    (threshold : Dbl K) (ht : Dbl.fin 0 < threshold) :
    ∃ s', minimize Rounding.exact (depthBound (xr - xl) threshold) f
        ⟨Dbl.fin xl, Dbl.fin xr⟩ ⟨Dbl.fin yl, Dbl.fin yr⟩ threshold SearchState.init
        = some s' ∧
      (∀ B, inQuadtree Rounding.exact threshold ⟨Dbl.fin xl, Dbl.fin xr⟩
          ⟨Dbl.fin yl, Dbl.fin yr⟩ B → s'.min_ub ≤ (f B.1 B.2).right) ∧
      (s'.min_ub = Dbl.pinf ∨
        ∃ B, inQuadtree Rounding.exact threshold ⟨Dbl.fin xl, Dbl.fin xr⟩
          ⟨Dbl.fin yl, Dbl.fin yr⟩ B ∧ s'.min_ub = (f B.1 B.2).right) ∧
      (∀ order : List (Fin 4), (∀ i, i ∈ order) →
        ∃ s2, minimize_in_order Rounding.exact order (depthBound (xr - xl) threshold) f
            ⟨Dbl.fin xl, Dbl.fin xr⟩ ⟨Dbl.fin yl, Dbl.fin yr⟩ threshold SearchState.init
            = some s2 ∧ s2.min_ub = s'.min_ub) := by
  have hne : ∀ xl xr yl yr : K, xl ≤ xr → yl ≤ yr →
      (f ⟨Dbl.fin xl, Dbl.fin xr⟩ ⟨Dbl.fin yl, Dbl.fin yr⟩).left ≤
        (f ⟨Dbl.fin xl, Dbl.fin xr⟩ ⟨Dbl.fin yl, Dbl.fin yr⟩).right := by
    intro xl xr yl yr hx hy
    obtain ⟨h1, h2, h3⟩ := hf xl xr yl yr hx hy
    rcases Dbl.le_or_lt_of_not_nan h2 h3 with h | h
    · exact h
    · exact absurd (decide_eq_true (p := (f ⟨Dbl.fin xl, Dbl.fin xr⟩
          ⟨Dbl.fin yl, Dbl.fin yr⟩).left > (f ⟨Dbl.fin xl, Dbl.fin xr⟩
          ⟨Dbl.fin yl, Dbl.fin yr⟩).right) h)
        (by simpa [interval.empty] using h1)
  have hlo : ∀ xl xr yl yr xl2 xr2 yl2 yr2 : K, xl ≤ xr → yl ≤ yr →
      xl2 ≤ xl → xr ≤ xr2 → yl2 ≤ yl → yr ≤ yr2 →
      (f ⟨Dbl.fin xl2, Dbl.fin xr2⟩ ⟨Dbl.fin yl2, Dbl.fin yr2⟩).left ≤
        (f ⟨Dbl.fin xl, Dbl.fin xr⟩ ⟨Dbl.fin yl, Dbl.fin yr⟩).left :=
    fun xl xr yl yr xl2 xr2 yl2 yr2 h1 h2 h3 h4 h5 h6 =>
      (hmono xl xr yl yr xl2 xr2 yl2 yr2 h1 h2 ⟨h3, h4⟩ ⟨h5, h6⟩).1
  have hinit : (SearchState.init : SearchState K).min_ub ≠ Dbl.nan := by
    simp [SearchState.init]
  have hall : ∀ i : Fin 4, i ∈ ([0, 1, 2, 3] : List (Fin 4)) := by decide
  obtain ⟨s', r, a1, _, a3, a4⟩ := minimize_in_order_bound f threshold [0, 1, 2, 3] hne hlo hall
    (depthBound (xr - xl) threshold) xl xr yl yr SearchState.init hx hy
    (depthBound_spec (xr - xl) ht) hinit
  rw [minimize_in_order_source] at r
  refine ⟨s', r, a3, a4, fun order hcover => ?_⟩
  obtain ⟨s2, r2, b1, _, b3, b4⟩ := minimize_in_order_bound f threshold order hne hlo hcover
    (depthBound (xr - xl) threshold) xl xr yl yr SearchState.init hx hy
    (depthBound_spec (xr - xl) ht) hinit
  refine ⟨s2, r2, Dbl.le_antisymmD ?_ ?_⟩
  · rcases a4 with a4 | ⟨B, hB, hB2⟩
    · rw [a4]; exact Dbl.le_pinf b1
    · rw [hB2]; exact b3 B hB
  · rcases b4 with b4 | ⟨B, hB, hB2⟩
    · rw [b4]; exact Dbl.le_pinf a1
    · rw [hB2]; exact a3 B hB

/-- The run of `minimize` on `f(x,y) = x` over `[0,1] x [0,1]` with threshold
`1/2` ends with `min_ub = 1/2`. -/
theorem minimize_fst_unit_square :
    (minimize Rounding.exact (depthBound ((1 : ℚ) - 0) (Dbl.fin (1 / 2))) (fun x _ => x)
      (⟨Dbl.fin 0, Dbl.fin 1⟩ : interval ℚ) ⟨Dbl.fin 0, Dbl.fin 1⟩ (Dbl.fin (1 / 2))
      SearchState.init).map (fun s => s.min_ub) = some (Dbl.fin (1 / 2)) := by
  have hd : depthBound ((1 : ℚ) - 0) (Dbl.fin (1 / 2)) = 1 := by
    have e : ((1 : ℚ) - 0) / (1 / 2) = ((2 : ℕ) : ℚ) := by norm_num
    simp only [depthBound, e, Nat.ceil_natCast]
    exact Nat.clog_pow 2 1 (by norm_num)
  rw [hd]
  have h0 : ¬ (((fun x _ => x : itvfun ℚ) ⟨Dbl.fin 0, Dbl.fin 1⟩ ⟨Dbl.fin 0, Dbl.fin 1⟩).left >
      (SearchState.init : SearchState ℚ).min_ub) := by decide
  have hw : ¬ interval.width Rounding.exact (⟨Dbl.fin 0, Dbl.fin 1⟩ : interval ℚ) ≤
      Dbl.fin (1 / 2) := by
    rw [width_exact (by norm_num)]; norm_num
  rw [minimize_succ_eq _ _ _ _ _ _ _ h0 hw]
  obtain ⟨ex1, ex2⟩ := split_box_exact_x (show (0 : ℚ) ≤ 1 by norm_num)
    (⟨Dbl.fin 0, Dbl.fin 1⟩ : interval ℚ)
  obtain ⟨ey1, ey2⟩ := split_box_exact_y (⟨Dbl.fin 0, Dbl.fin 1⟩ : interval ℚ)
    (show (0 : ℚ) ≤ 1 by norm_num)
  rw [ex1, ex2, ey1, ey2]
  norm_num [minimize, improve, interval.width, interval.empty, Dbl.sub, Dbl.isinf,
    Rounding.exact, SearchState.init, minimizer_list.lower_bound, minimizer_list.erase,
    minimizer_list.insert, less_minimizer, interval.ofDouble]

/-- C16 at a concrete input: the objective `f(x,y) = x` on `[0,1] x [0,1]`
with threshold `1/2`; the quadtree holds the x-intervals `[0,1]`, `[0,1/2]`,
`[1/2,1]` and the final `min_ub` is `1/2`, in the order of the source and in
the reverse order. -/
theorem minimize_min_ub_is_quadtree_min_witness :
    ((∀ xl xr yl yr : ℚ, xl ≤ xr → yl ≤ yr →
        ((fun x _ => x : itvfun ℚ) ⟨Dbl.fin xl, Dbl.fin xr⟩ ⟨Dbl.fin yl, Dbl.fin yr⟩).empty
          = false ∧
        ((fun x _ => x : itvfun ℚ) ⟨Dbl.fin xl, Dbl.fin xr⟩ ⟨Dbl.fin yl, Dbl.fin yr⟩).left
          ≠ Dbl.nan ∧
        ((fun x _ => x : itvfun ℚ) ⟨Dbl.fin xl, Dbl.fin xr⟩ ⟨Dbl.fin yl, Dbl.fin yr⟩).right
          ≠ Dbl.nan) ∧
      ((0 : ℚ) ≤ 1 ∧ (Dbl.fin 0 : Dbl ℚ) < Dbl.fin (1 / 2))) ∧
    ∃ s', minimize Rounding.exact (depthBound ((1 : ℚ) - 0) (Dbl.fin (1 / 2)))
        (fun x _ => x) (⟨Dbl.fin 0, Dbl.fin 1⟩ : interval ℚ) ⟨Dbl.fin 0, Dbl.fin 1⟩
        (Dbl.fin (1 / 2)) SearchState.init = some s' ∧
      s'.min_ub = Dbl.fin (1 / 2) ∧
      (∀ B, inQuadtree Rounding.exact (Dbl.fin (1 / 2)) (⟨Dbl.fin 0, Dbl.fin 1⟩ : interval ℚ)
          ⟨Dbl.fin 0, Dbl.fin 1⟩ B → s'.min_ub ≤ B.1.right) ∧
      ∃ s2, minimize_in_order Rounding.exact [3, 2, 1, 0]
          (depthBound ((1 : ℚ) - 0) (Dbl.fin (1 / 2)))
          (fun x _ => x) (⟨Dbl.fin 0, Dbl.fin 1⟩ : interval ℚ) ⟨Dbl.fin 0, Dbl.fin 1⟩
          (Dbl.fin (1 / 2)) SearchState.init = some s2 ∧ s2.min_ub = s'.min_ub := by
  have hf : ∀ xl xr yl yr : ℚ, xl ≤ xr → yl ≤ yr →
      ((fun x _ => x : itvfun ℚ) ⟨Dbl.fin xl, Dbl.fin xr⟩ ⟨Dbl.fin yl, Dbl.fin yr⟩).empty
        = false ∧
      ((fun x _ => x : itvfun ℚ) ⟨Dbl.fin xl, Dbl.fin xr⟩ ⟨Dbl.fin yl, Dbl.fin yr⟩).left
        ≠ Dbl.nan ∧
      ((fun x _ => x : itvfun ℚ) ⟨Dbl.fin xl, Dbl.fin xr⟩ ⟨Dbl.fin yl, Dbl.fin yr⟩).right
        ≠ Dbl.nan := by
    intro xl xr yl yr hx _
    exact ⟨decide_eq_false (Dbl.not_lt_of_leD (show Dbl.fin xl ≤ Dbl.fin xr from hx)),
      fun h => Dbl.noConfusion h, fun h => Dbl.noConfusion h⟩
  have ht : (Dbl.fin 0 : Dbl ℚ) < Dbl.fin (1 / 2) := by
    rw [Dbl.fin_lt_fin]; norm_num
  obtain ⟨s', hs⟩ := minimize_min_ub_is_quadtree_min (fun x _ => x : itvfun ℚ) hf
    (fun _ _ _ _ _ _ _ _ _ _ h1 _ => h1) 0 1 0 1 (by norm_num) (by norm_num) (Dbl.fin (1 / 2)) ht
  have hv := minimize_fst_unit_square
  rw [hs.1] at hv
  exact ⟨⟨hf, by norm_num, ht⟩, s', hs.1, by simpa using hv, hs.2.1,
    hs.2.2.2 [3, 2, 1, 0] (by decide)⟩

end Quadtree

section Sections

variable {K : Type} [LinearOrderedField K]

/-! ### The sibling calls as OpenMP sections -/

/-- The improve step of `minimize` is the test of line 54 followed, when it
succeeds, by the critical section of lines 59-64. -/
theorem improve_eq_test_commit (fxy : interval K) (s : SearchState K) :
    improve fxy s = if improve_test fxy s then improve_commit fxy s else s := by
  unfold improve improve_test improve_commit
  by_cases h : fxy.right < s.min_ub <;> simp [h]

/-- A call on a box that is not split, run with no other thread in between,
is `minimize`. -/
theorem run_alone_eq_minimize (R : Rounding K) (d : Nat) (f : itvfun K) (x y : interval K)
    (threshold : Dbl K) (s : SearchState K) (hw : interval.width R x ≤ threshold) :
    minimize R d f x y threshold s = some (Branch.run_alone (Branch.start f x y) s) := by
  by_cases hp : (f x y).left > s.min_ub
  · rw [minimize_prune R d f x y threshold s hp]
    simp [Branch.run_alone, Branch.step, Branch.start, hp]
  · rw [minimize_leaf_eq R d f x y threshold s hp hw, improve_eq_test_commit]
    by_cases ht : improve_test (f x y) s = true
    · simp [Branch.run_alone, Branch.step, Branch.start, hp, ht, insert_commit]
    · simp [Branch.run_alone, Branch.step, Branch.start, hp, ht, insert_commit]

/-- The schedule in which each of four threads runs its four units before the
next thread starts. -/
theorem run_pool_sequential (b0 b1 b2 b3 : Branch K) (s : SearchState K) :
    (run_pool [0, 0, 0, 0, 1, 1, 1, 1, 2, 2, 2, 2, 3, 3, 3, 3] ([b0, b1, b2, b3], s)).2 =
      b3.run_alone (b2.run_alone (b1.run_alone (b0.run_alone s))) := by
  simp [run_pool, pool_step, Branch.run_alone]

/-- When the four sub-boxes of a box are not split, the sections run one
after the other in source order compute what `minimize` computes. -/
theorem sibling_branches_sequential (R : Rounding K) (d : Nat) (f : itvfun K)
    (x y : interval K) (threshold : Dbl K) (s : SearchState K)
    (hp : ¬ (f x y).left > s.min_ub) (hw : ¬ interval.width R x ≤ threshold)
    (hl : interval.width R (split_box R x y).1 ≤ threshold)
    (hr : interval.width R (split_box R x y).2.1 ≤ threshold) :
    minimize R (d + 1) f x y threshold s =
      some (run_pool [0, 0, 0, 0, 1, 1, 1, 1, 2, 2, 2, 2, 3, 3, 3, 3]
        (sibling_branches R f x y, improve (f x y) s)).2 := by
  rw [minimize_succ_eq R d f x y threshold s hp hw]
  simp only [run_alone_eq_minimize R d f _ _ threshold _ hl,
    run_alone_eq_minimize R d f _ _ threshold _ hr, Option.some_bind]
  rw [sibling_branches, run_pool_sequential]

/-- Two calls that both pass the test of line 54 before either enters the
critical section: when the call with the smaller upper bound commits first,
the commit of the other one raises `min_ub`. -/
theorem stale_test_raises_min_ub (xa ya fa xb yb fb : interval K) (s : SearchState K)
    (ha : ¬ fa.left > s.min_ub) (hb : ¬ fb.left > s.min_ub)
    (hta : fa.right < s.min_ub) (htb : fb.right < s.min_ub) :
    min_ub_trace [0, 0, 1, 1, 1, 0]
        ([⟨xa, ya, fa, BranchPc.at_prune_test⟩, ⟨xb, yb, fb, BranchPc.at_prune_test⟩], s) =
      [s.min_ub, s.min_ub, s.min_ub, s.min_ub, s.min_ub, fb.right, fa.right] := by
  simp [min_ub_trace, pool_step, Branch.step, improve_test, improve_commit, ha, hb, hta, htb]

end Sections

/-- C15 (the code departs from the claim): `minimize(f, [0,2], [0,2], 1,
min_ub, ml)` with `f(x,y) = x + y`, `min_ub = +infinity` and `ml` empty, exact
arithmetic.  The call sets `min_ub = 4` and opens the four sections, on
`[0,1]x[0,1]`, `[0,1]x[1,2]`, `[1,2]x[0,1]`, `[1,2]x[1,2]`, none of which is
split; `f` is `[0,2]` on the first and `[1,3]` on the second.  Schedule: the
first section runs the tests of lines 50 and 54, the second section runs the
tests of lines 50 and 54 (`3 < 4` holds), the first section runs its critical
section (`min_ub = 2`), the second section runs its critical section
(`min_ub = 3`): `min_ub` goes up from `2` to `3`, because the test is not
inside the critical section.  When all four sections have returned `min_ub`
is `3`; the sections run one after the other give `2`.  In the same way, for
two calls with `f = [5,6]` and `f = [0,1]` started at `min_ub = +infinity`
with `ml` empty, `min_ub` goes from `1` up to `6`; and when the first call
commits `6`, the second commits `1` and the first then inserts its record,
the collection holds a record with `lbmin = 5` above `min_ub = 1`. -/
theorem sections_race_raises_min_ub :
    (sibling_branches Rounding.exact (fun x y => interval.add Rounding.exact x y)
        (⟨Dbl.fin 0, Dbl.fin 2⟩ : interval ℚ) ⟨Dbl.fin 0, Dbl.fin 2⟩,
      improve (interval.add Rounding.exact (⟨Dbl.fin 0, Dbl.fin 2⟩ : interval ℚ)
        ⟨Dbl.fin 0, Dbl.fin 2⟩) SearchState.init) =
      ([⟨⟨Dbl.fin 0, Dbl.fin 1⟩, ⟨Dbl.fin 0, Dbl.fin 1⟩, ⟨Dbl.fin 0, Dbl.fin 2⟩,
          BranchPc.at_prune_test⟩,
        ⟨⟨Dbl.fin 0, Dbl.fin 1⟩, ⟨Dbl.fin 1, Dbl.fin 2⟩, ⟨Dbl.fin 1, Dbl.fin 3⟩,
          BranchPc.at_prune_test⟩,
        ⟨⟨Dbl.fin 1, Dbl.fin 2⟩, ⟨Dbl.fin 0, Dbl.fin 1⟩, ⟨Dbl.fin 1, Dbl.fin 3⟩,
          BranchPc.at_prune_test⟩,
        ⟨⟨Dbl.fin 1, Dbl.fin 2⟩, ⟨Dbl.fin 1, Dbl.fin 2⟩, ⟨Dbl.fin 2, Dbl.fin 4⟩,
          BranchPc.at_prune_test⟩], ⟨Dbl.fin 4, []⟩) ∧
    min_ub_trace [0, 0, 1, 1, 0, 1]
        (sibling_branches Rounding.exact (fun x y => interval.add Rounding.exact x y)
          (⟨Dbl.fin 0, Dbl.fin 2⟩ : interval ℚ) ⟨Dbl.fin 0, Dbl.fin 2⟩,
        improve (interval.add Rounding.exact (⟨Dbl.fin 0, Dbl.fin 2⟩ : interval ℚ)
          ⟨Dbl.fin 0, Dbl.fin 2⟩) SearchState.init) =
      [Dbl.fin 4, Dbl.fin 4, Dbl.fin 4, Dbl.fin 4, Dbl.fin 4, Dbl.fin 2, Dbl.fin 3] ∧
    ((run_pool [0, 0, 1, 1, 0, 1, 0, 1, 2, 2, 2, 2, 3, 3, 3, 3]
        (sibling_branches Rounding.exact (fun x y => interval.add Rounding.exact x y)
          (⟨Dbl.fin 0, Dbl.fin 2⟩ : interval ℚ) ⟨Dbl.fin 0, Dbl.fin 2⟩,
        improve (interval.add Rounding.exact (⟨Dbl.fin 0, Dbl.fin 2⟩ : interval ℚ)
          ⟨Dbl.fin 0, Dbl.fin 2⟩) SearchState.init)).1.map (fun b => b.pc) =
        [BranchPc.returned, BranchPc.returned, BranchPc.returned, BranchPc.returned] ∧
      (run_pool [0, 0, 1, 1, 0, 1, 0, 1, 2, 2, 2, 2, 3, 3, 3, 3]
        (sibling_branches Rounding.exact (fun x y => interval.add Rounding.exact x y)
          (⟨Dbl.fin 0, Dbl.fin 2⟩ : interval ℚ) ⟨Dbl.fin 0, Dbl.fin 2⟩,
        improve (interval.add Rounding.exact (⟨Dbl.fin 0, Dbl.fin 2⟩ : interval ℚ)
          ⟨Dbl.fin 0, Dbl.fin 2⟩) SearchState.init)).2.min_ub = Dbl.fin 3) ∧
    (minimize Rounding.exact 1 (fun x y => interval.add Rounding.exact x y)
        (⟨Dbl.fin 0, Dbl.fin 2⟩ : interval ℚ) ⟨Dbl.fin 0, Dbl.fin 2⟩ (Dbl.fin 1)
        SearchState.init).map (fun s => s.min_ub) = some (Dbl.fin 2) ∧
    min_ub_trace [0, 0, 1, 1, 1, 0]
        ([⟨⟨Dbl.fin 0, Dbl.fin 1⟩, ⟨Dbl.fin 0, Dbl.fin 1⟩, ⟨Dbl.fin 5, Dbl.fin 6⟩,
            BranchPc.at_prune_test⟩,
          ⟨⟨Dbl.fin 1, Dbl.fin 2⟩, ⟨Dbl.fin 0, Dbl.fin 1⟩, ⟨Dbl.fin 0, Dbl.fin 1⟩,
            BranchPc.at_prune_test⟩], (SearchState.init : SearchState ℚ)) =
      [Dbl.pinf, Dbl.pinf, Dbl.pinf, Dbl.pinf, Dbl.pinf, Dbl.fin 1, Dbl.fin 6] ∧
    ((run_pool [0, 0, 0, 1, 1, 1, 0]
        ([⟨⟨Dbl.fin 0, Dbl.fin 1⟩, ⟨Dbl.fin 0, Dbl.fin 1⟩, ⟨Dbl.fin 5, Dbl.fin 6⟩,
            BranchPc.at_prune_test⟩,
          ⟨⟨Dbl.fin 1, Dbl.fin 2⟩, ⟨Dbl.fin 0, Dbl.fin 1⟩, ⟨Dbl.fin 0, Dbl.fin 1⟩,
            BranchPc.at_prune_test⟩], (SearchState.init : SearchState ℚ))).2.min_ub =
        Dbl.fin 1 ∧
      (run_pool [0, 0, 0, 1, 1, 1, 0]
        ([⟨⟨Dbl.fin 0, Dbl.fin 1⟩, ⟨Dbl.fin 0, Dbl.fin 1⟩, ⟨Dbl.fin 5, Dbl.fin 6⟩,
            BranchPc.at_prune_test⟩,
          ⟨⟨Dbl.fin 1, Dbl.fin 2⟩, ⟨Dbl.fin 0, Dbl.fin 1⟩, ⟨Dbl.fin 0, Dbl.fin 1⟩,
            BranchPc.at_prune_test⟩], (SearchState.init : SearchState ℚ))).2.ml =
        [⟨⟨Dbl.fin 0, Dbl.fin 1⟩, ⟨Dbl.fin 0, Dbl.fin 1⟩, Dbl.fin 5, Dbl.fin 6⟩]) := by
  have hx : ((0 : ℚ) ≤ 2) := by norm_num
  obtain ⟨ex1, ex2⟩ := split_box_exact_x hx (⟨Dbl.fin 0, Dbl.fin 2⟩ : interval ℚ)
  obtain ⟨ey1, ey2⟩ := split_box_exact_y (⟨Dbl.fin 0, Dbl.fin 2⟩ : interval ℚ) hx
  have hpool : (sibling_branches Rounding.exact (fun x y => interval.add Rounding.exact x y)
        (⟨Dbl.fin 0, Dbl.fin 2⟩ : interval ℚ) ⟨Dbl.fin 0, Dbl.fin 2⟩,
      improve (interval.add Rounding.exact (⟨Dbl.fin 0, Dbl.fin 2⟩ : interval ℚ)
        ⟨Dbl.fin 0, Dbl.fin 2⟩) SearchState.init) =
      ([⟨⟨Dbl.fin 0, Dbl.fin 1⟩, ⟨Dbl.fin 0, Dbl.fin 1⟩, ⟨Dbl.fin 0, Dbl.fin 2⟩,
          BranchPc.at_prune_test⟩,
        ⟨⟨Dbl.fin 0, Dbl.fin 1⟩, ⟨Dbl.fin 1, Dbl.fin 2⟩, ⟨Dbl.fin 1, Dbl.fin 3⟩,
          BranchPc.at_prune_test⟩,
        ⟨⟨Dbl.fin 1, Dbl.fin 2⟩, ⟨Dbl.fin 0, Dbl.fin 1⟩, ⟨Dbl.fin 1, Dbl.fin 3⟩,
          BranchPc.at_prune_test⟩,
        ⟨⟨Dbl.fin 1, Dbl.fin 2⟩, ⟨Dbl.fin 1, Dbl.fin 2⟩, ⟨Dbl.fin 2, Dbl.fin 4⟩,
          BranchPc.at_prune_test⟩], ⟨Dbl.fin 4, []⟩) := by
    have e : split_box Rounding.exact (⟨Dbl.fin 0, Dbl.fin 2⟩ : interval ℚ)
        ⟨Dbl.fin 0, Dbl.fin 2⟩ =
        (⟨Dbl.fin 0, Dbl.fin 1⟩, ⟨Dbl.fin 1, Dbl.fin 2⟩, ⟨Dbl.fin 0, Dbl.fin 1⟩,
          ⟨Dbl.fin 1, Dbl.fin 2⟩) := by
      simp only [split_box, mid_exact hx]
      norm_num
    have hi : improve (interval.add Rounding.exact (⟨Dbl.fin 0, Dbl.fin 2⟩ : interval ℚ)
        ⟨Dbl.fin 0, Dbl.fin 2⟩) SearchState.init = ⟨Dbl.fin 4, []⟩ := by
      have e4 : interval.add Rounding.exact (⟨Dbl.fin 0, Dbl.fin 2⟩ : interval ℚ)
          ⟨Dbl.fin 0, Dbl.fin 2⟩ = ⟨Dbl.fin 0, Dbl.fin 4⟩ := by
        simp only [interval.add, operator_add_fin, Rounding.exact]
        norm_num
      rw [e4, improve_of_lt (by decide)]
      rfl
    rw [hi, sibling_branches, e]
    simp only [Branch.start, interval.add, operator_add_fin, Rounding.exact]
    norm_num
  refine ⟨hpool, ?_, ?_, ?_, ?_, ?_⟩
  · rw [hpool]
    decide
  · rw [hpool]
    decide
  · have hp : ¬ ((fun x y => interval.add Rounding.exact x y : itvfun ℚ)
        ⟨Dbl.fin 0, Dbl.fin 2⟩ ⟨Dbl.fin 0, Dbl.fin 2⟩).left >
        (SearchState.init : SearchState ℚ).min_ub := by
      decide
    have hw : ¬ interval.width Rounding.exact (⟨Dbl.fin 0, Dbl.fin 2⟩ : interval ℚ) ≤
        Dbl.fin 1 := by
      rw [width_exact hx]
      norm_num [Dbl.fin_le_fin]
    have hl : interval.width Rounding.exact
        (split_box Rounding.exact (⟨Dbl.fin 0, Dbl.fin 2⟩ : interval ℚ)
          ⟨Dbl.fin 0, Dbl.fin 2⟩).1 ≤ Dbl.fin 1 := by
      rw [ex1, width_exact (by norm_num)]
      norm_num [Dbl.fin_le_fin]
    have hr : interval.width Rounding.exact
        (split_box Rounding.exact (⟨Dbl.fin 0, Dbl.fin 2⟩ : interval ℚ)
          ⟨Dbl.fin 0, Dbl.fin 2⟩).2.1 ≤ Dbl.fin 1 := by
      rw [ex2, width_exact (by norm_num)]
      norm_num [Dbl.fin_le_fin]
    rw [sibling_branches_sequential Rounding.exact 0 _ _ _ _ _ hp hw hl hr]
    rw [hpool]
    decide
  · decide
  · decide

end OptimizationSeq
